import Mathlib

/-!
Embedding and properties of the AST optimizer `ast_optimize.c`.

The tree type `ASTNode` and the optimizer `optimize_ast` of
`src/COMPILER DESIGN/src/ast_optimize.c` are embedded as pure functions.

* The in-place mutation of a node is a function from the node's old value to
  its new value; `free_ast` leaves no trace in the value and is dropped.
* `children[MAX_CHILDREN]` together with `child_count` is the list of the first
  `child_count` children.  The list records every store
  `children[child_count++] = x`, also one whose index is past the array.
* `int` is a mathematical integer kept in the signed 32-bit range by `wrap_int`
  after every arithmetic operation (two's complement wrap-around).  C leaves a
  signed overflow undefined; the statements that reach one say so.
* `optimize_ast` is total.  The code has no result at three points: the
  division `INT_MIN / -1` (line 238), `strcmp` on a `NULL` name (line 318) and
  a store past the `children` array (line 329).  `pass_defined` says of a tree
  that its pass reaches none of them; only there is the value of
  `optimize_ast` the tree the code leaves.
* `char *` fields that may be `NULL` are `Option String`; `char op[4]` is the
  string it holds.
* A file is the list of its characters, none of them NUL; reading moves along
  the list, and `ftell` / `fseek` keep or restore the unread part.
* `parse_ast_recursive` carries a bound on the number of nested calls so that
  it is structurally recursive; `parse_ast` starts it with a bound that is
  never reached (`parse_ast_fuel_independent`).
* `atoi` and `printf` with `%d` belong to the C library; `atoi` and
  `print_int` embed what the C standard says of them.
* The reader of `src/COMPILER DESIGN/src/ast_to_c.c` is embedded under the
  names `AstToC.parse_ast` and so on; it shares `parse_line` and the other
  helpers, which the two files repeat word for word.
-/

namespace AstOptimize

/-- The capacity of the `children` array (line 6). -/
def MAX_CHILDREN : Nat := 10

/-- The enumeration `NodeType` (lines 9-24). -/
inductive NodeType
  | NODE_FUNCTION_DEF
  | NODE_SEQUENCE
  | NODE_DECLARATION
  | NODE_INT
  | NODE_BINARY_EXPR
  | NODE_VAR
  | NODE_IF_STMT
  | NODE_FUNCTION_CALL
  | NODE_EXPR_LIST
  | NODE_FOR_STMT
  | NODE_UNARY_EXPR
  | NODE_RETURN_STMT
  | NODE_STRING
  | NODE_UNKNOWN
  deriving DecidableEq, Repr

/-- The struct `ASTNode` (lines 26-39). -/
structure ASTNode where
  type : NodeType
  name : Option String
  int_value : Int
  string_value : Option String
  op : String
  children : List ASTNode

/-- The least value of a C `int`. -/
def INT_MIN : Int := -2147483648

/-- The greatest value of a C `int`. -/
def INT_MAX : Int := 2147483647

/-- Whether a mathematical integer is the value of some C `int`. -/
def fits_int (x : Int) : Prop := INT_MIN ≤ x ∧ x ≤ INT_MAX

instance fits_int_decidable (x : Int) : Decidable (fits_int x) := by
  unfold fits_int
  infer_instance

/-- The value an `int` operation stores when its mathematical result is `x`:
`x` reduced modulo `2^32` into the signed range. -/
def wrap_int (x : Int) : Int := (x + 2147483648) % 4294967296 - 2147483648

/-- A node as `calloc(1, sizeof(ASTNode))` followed by `node->type = t` leaves
it: every other field zero. -/
def calloc_node (t : NodeType) : ASTNode :=
  { type := t, name := none, int_value := 0, string_value := none, op := "", children := [] }

mutual
/-- The function `clone_ast` (lines 201-214): a field-for-field copy whose
children are the clones of the children. -/
def clone_ast : ASTNode → ASTNode
  | ⟨t, nm, iv, sv, o, cs⟩ => ⟨t, nm, iv, sv, o, clone_children cs⟩
/-- The loop of `clone_ast` over the children (lines 210-212). -/
def clone_children : List ASTNode → List ASTNode
  | [] => []
  | c :: cs => clone_ast c :: clone_children cs
end

/-- Constant folding of a binary expression (lines 226-250).  `res` is
`some` exactly when `valid` is left at 1.  C division truncates toward zero
(`Int.tdiv`).  At the one quotient that leaves the range, `INT_MIN / -1`, the
C division traps and the code has no result: `division_traps` marks that
input, and the wrapped value given for it here is not a value of the code. -/
def fold_binary (node : ASTNode) : ASTNode :=
  if node.type = NodeType.NODE_BINARY_EXPR then
    match node.children with
    | [left, right] =>
      if left.type = NodeType.NODE_INT ∧ right.type = NodeType.NODE_INT then
        let res : Option Int :=
          if node.op = "+" then some (wrap_int (left.int_value + right.int_value))
          else if node.op = "-" then some (wrap_int (left.int_value - right.int_value))
          else if node.op = "*" then some (wrap_int (left.int_value * right.int_value))
          else if node.op = "/" ∧ right.int_value ≠ 0 then
            some (wrap_int (Int.tdiv left.int_value right.int_value))
          else none
        match res with
        | some r => { node with type := NodeType.NODE_INT, int_value := r, children := [], op := "" }
        | none => node
      else node
    | _ => node
  else node

/-- Constant folding of a unary expression (lines 253-266).  The result is
`none` when the C code leaves `optimize_ast` through `else return;` (line 259),
with the node as it was. -/
def fold_unary (node : ASTNode) : Option ASTNode :=
  if node.type = NodeType.NODE_UNARY_EXPR then
    match node.children with
    | [child] =>
      if child.type = NodeType.NODE_INT then
        if node.op = "++" then
          some { node with type := NodeType.NODE_INT, int_value := wrap_int (child.int_value + 1),
                           children := [], op := "" }
        else if node.op = "--" then
          some { node with type := NodeType.NODE_INT, int_value := wrap_int (child.int_value - 1),
                           children := [], op := "" }
        else none
      else some node
    | _ => some node
  else some node

/-- Dead code elimination at an `IF_STMT` with a constant condition
(lines 269-295).  In the nonzero case `*node = *cloned` replaces every field. -/
def eliminate_if (node : ASTNode) : ASTNode :=
  if node.type = NodeType.NODE_IF_STMT then
    match node.children with
    | cond :: then_branch :: _ =>
      if cond.type = NodeType.NODE_INT then
        if cond.int_value = 0 then
          { node with type := NodeType.NODE_SEQUENCE, children := [] }
        else clone_ast then_branch
      else node
    | _ => node
  else node

/-- The test `strcmp(a, b) == 0` on two names.  The C call reads through its
arguments and has no result when one is `NULL`: `unroll_undefined` marks the
nodes where line 318 makes such a call, and the value `false` given for it
here is not a value of the code. -/
def strcmp_eq : Option String → Option String → Bool
  | some a, some b => a == b
  | _, _ => false

/-- The stores of the loop `for (int i = start; i < end; i++)` of the
unroller (lines 327-330): one clone of `saved_body` for each `i`, in order.
The list records every store; the array holds `MAX_CHILDREN` of them, and
`unroll_undefined` marks the nodes where the loop makes more. -/
def unroll_replicas (start stop : Int) (saved_body : ASTNode) : List ASTNode :=
  List.replicate (stop - start).toNat (clone_ast saved_body)

/-- Loop unrolling at a `FOR_STMT` (lines 298-334).  The three inner matches
stand for `init->child_count == 1`, `cond->child_count == 2` and
`update->child_count == 1`. -/
def unroll_for (node : ASTNode) : ASTNode :=
  if node.type = NodeType.NODE_FOR_STMT then
    match node.children with
    | [init, cond, update, body] =>
      match init.children, cond.children, update.children with
      | [init0], [cond0, cond1], [update0] =>
        if init.type = NodeType.NODE_DECLARATION ∧ init0.type = NodeType.NODE_INT ∧
            cond.type = NodeType.NODE_BINARY_EXPR ∧ cond.op = "<" ∧
            cond0.type = NodeType.NODE_VAR ∧ cond1.type = NodeType.NODE_INT ∧
            update.type = NodeType.NODE_UNARY_EXPR ∧ update.op = "++" ∧
            update0.type = NodeType.NODE_VAR ∧ body.type = NodeType.NODE_FUNCTION_CALL then
          let start := init0.int_value
          let stop := cond1.int_value
          let var := cond0.name
          if strcmp_eq var init.name = true ∧ strcmp_eq var update0.name = true ∧
              wrap_int (stop - start) ≤ 16 then
            let saved_body := clone_ast body
            { node with type := NodeType.NODE_SEQUENCE,
                        children := unroll_replicas start stop saved_body }
          else node
        else node
      | _, _, _ => node
    | _ => node
  else node

/-- The part of `optimize_ast` that follows the recursive calls on the
children (lines 225-334), applied to the node whose children are optimized. -/
def optimize_node (node : ASTNode) : ASTNode :=
  match fold_unary (fold_binary node) with
  | none => fold_binary node
  | some n => unroll_for (eliminate_if n)

mutual
/-- The function `optimize_ast` (lines 217-335): children first, then the node. -/
def optimize_ast : ASTNode → ASTNode
  | ⟨t, nm, iv, sv, o, cs⟩ => optimize_node ⟨t, nm, iv, sv, o, optimize_children cs⟩
/-- The loop of `optimize_ast` over the children (lines 221-223). -/
def optimize_children : List ASTNode → List ASTNode
  | [] => []
  | c :: cs => optimize_ast c :: optimize_children cs
end

/-- The leaf the reader builds from the line `INT (a)`. -/
def int_leaf (a : Int) : ASTNode :=
  { calloc_node NodeType.NODE_INT with int_value := a }

/-- The leaf the reader builds from the line `VAR (v)`. -/
def var_leaf (v : String) : ASTNode :=
  { calloc_node NodeType.NODE_VAR with name := some v }

/-- The leaf the reader builds from the line `FUNCTION_CALL (f)`. -/
def call_leaf (f : String) : ASTNode :=
  { calloc_node NodeType.NODE_FUNCTION_CALL with name := some f }

/-- A `BINARY_EXPR` node with operator `o` over two children. -/
def binary_node (o : String) (l r : ASTNode) : ASTNode :=
  { calloc_node NodeType.NODE_BINARY_EXPR with op := o, children := [l, r] }

/-- A `UNARY_EXPR` node with operator `o` over one child. -/
def unary_node (o : String) (c : ASTNode) : ASTNode :=
  { calloc_node NodeType.NODE_UNARY_EXPR with op := o, children := [c] }

/-- A node of kind `t` that carries only children. -/
def plain_node (t : NodeType) (cs : List ASTNode) : ASTNode :=
  { calloc_node t with children := cs }

/-- A `DECLARATION (v)` node over its children. -/
def decl_node (v : String) (cs : List ASTNode) : ASTNode :=
  { calloc_node NodeType.NODE_DECLARATION with name := some v, children := cs }

/-- The canonical counting loop: `FOR_STMT` over `DECLARATION (v)` with the
leaf `INT (start)`, `BINARY_EXPR (<)` over `VAR (v)` and `INT (stop)`,
`UNARY_EXPR (++)` over `VAR (v)`, and a body. -/
def for_loop (v : String) (start stop : Int) (body : ASTNode) : ASTNode :=
  plain_node NodeType.NODE_FOR_STMT
    [decl_node v [int_leaf start], binary_node "<" (var_leaf v) (int_leaf stop),
     unary_node "++" (var_leaf v), body]

/-- The value of an arithmetic expression node of kind `t`, `int_value` `iv`
and operator `o` from the values `vs` of its children, when defined. -/
def arith_node_value (t : NodeType) (iv : Int) (o : String) (vs : Option (List Int)) :
    Option Int :=
  match t, vs with
  | NodeType.NODE_INT, some [] => some iv
  | NodeType.NODE_BINARY_EXPR, some [a, b] =>
    if o = "+" then (if fits_int (a + b) then some (a + b) else none)
    else if o = "-" then (if fits_int (a - b) then some (a - b) else none)
    else if o = "*" then (if fits_int (a * b) then some (a * b) else none)
    else none
  | _, _ => none

mutual
/-- The value of an arithmetic expression tree: an `INT` leaf has its
`int_value`; a `BINARY_EXPR` node with operator `+`, `-` or `*` over exactly
two expression trees has the sum, difference or product of their values.  The
value is defined only when the tree has this shape and the value of every
`BINARY_EXPR` node in it fits in a signed 32-bit `int`. -/
def arith_value : ASTNode → Option Int
  | ⟨t, _, iv, _, o, cs⟩ => arith_node_value t iv o (arith_values cs)
/-- The values of a list of arithmetic expression trees. -/
def arith_values : List ASTNode → Option (List Int)
  | [] => some []
  | c :: cs =>
    match arith_value c, arith_values cs with
    | some v, some vs => some (v :: vs)
    | _, _ => none
end

/-- What `optimize_ast` leaves of an arithmetic expression tree of value `v`:
a childless `INT` node of that value. -/
def folded_to (n : ASTNode) (v : Int) : Prop :=
  n.type = NodeType.NODE_INT ∧ n.int_value = v ∧ n.children = []

/-! ## The reader and the writer -/

/-- The size of the line buffer (line 7). -/
def MAX_LINE_LEN : Nat := 256

/-- The function `skip_spaces` (lines 49-51): the text from the first
character that is neither a space nor a tab. -/
def skip_spaces (str : List Char) : List Char :=
  str.dropWhile (fun c => c == ' ' || c == '\t')

/-- The function `count_leading_spaces` (lines 54-61). -/
def count_leading_spaces (line : List Char) : Nat :=
  (line.takeWhile (fun c => c == ' ')).length

/-- The function `node_type_from_string` (lines 64-79). -/
def node_type_from_string (str : String) : NodeType :=
  if str = "FUNCTION_DEF" then NodeType.NODE_FUNCTION_DEF
  else if str = "SEQUENCE" then NodeType.NODE_SEQUENCE
  else if str = "DECLARATION" then NodeType.NODE_DECLARATION
  else if str = "INT" then NodeType.NODE_INT
  else if str = "BINARY_EXPR" then NodeType.NODE_BINARY_EXPR
  else if str = "VAR" then NodeType.NODE_VAR
  else if str = "IF_STMT" then NodeType.NODE_IF_STMT
  else if str = "FUNCTION_CALL" then NodeType.NODE_FUNCTION_CALL
  else if str = "EXPR_LIST" then NodeType.NODE_EXPR_LIST
  else if str = "FOR_STMT" then NodeType.NODE_FOR_STMT
  else if str = "UNARY_EXPR" then NodeType.NODE_UNARY_EXPR
  else if str = "RETURN_STMT" then NodeType.NODE_RETURN_STMT
  else if str = "STRING" then NodeType.NODE_STRING
  else NodeType.NODE_UNKNOWN

/-- The function `parse_line` (lines 82-107): the kind of the line and the
argument stored through `arg`, `none` for `NULL`.  The kind token is cut at a
space, an opening parenthesis, a newline or 63 characters; the argument is the
text between the opening parenthesis and the first closing one. -/
def parse_line (line : List Char) : NodeType × Option String :=
  let type_buf := (line.takeWhile (fun c => c != ' ' && c != '(' && c != '\n')).take 63
  let t := node_type_from_string (String.mk type_buf)
  if t = NodeType.NODE_UNKNOWN then (NodeType.NODE_UNKNOWN, none)
  else
    match skip_spaces (line.drop type_buf.length) with
    | c :: start =>
      if c = '(' then
        let arg := start.takeWhile (fun c => c != ')')
        match start.drop arg.length with
        | [] => (NodeType.NODE_UNKNOWN, none)
        | _ :: _ => (t, some (String.mk arg))
      else (t, none)
    | [] => (t, none)

/-- The test `isspace` of the C library in the C locale. -/
def isspace (c : Char) : Bool :=
  c == ' ' || c == '\t' || c == '\n' || c == '\x0b' || c == '\x0c' || c == '\r'

/-- The digits at the head of a text read as a decimal number on top of `acc`. -/
def atoi_digits : List Char → Nat → Nat
  | [], acc => acc
  | c :: cs, acc => if c.isDigit then atoi_digits cs (acc * 10 + (c.toNat - 48)) else acc

/-- The C library function `atoi`: white space is skipped, then an optional
sign and the decimal digits that follow are read.  A value outside `int` is
undefined in C; it is wrapped here. -/
def atoi (s : List Char) : Int :=
  match s.dropWhile isspace with
  | [] => 0
  | c :: cs =>
    if c = '-' then wrap_int (-(atoi_digits cs 0 : Nat))
    else if c = '+' then wrap_int (atoi_digits cs 0 : Nat)
    else wrap_int (atoi_digits (c :: cs) 0 : Nat)

/-- The node `parse_ast_recursive` builds from the kind and the argument of a
line (lines 134-163), before its children are read. -/
def node_of_line (t : NodeType) (arg : Option String) : ASTNode :=
  match arg with
  | none => calloc_node t
  | some a =>
    match t with
    | NodeType.NODE_FUNCTION_DEF => { calloc_node t with name := some a }
    | NodeType.NODE_DECLARATION => { calloc_node t with name := some a }
    | NodeType.NODE_VAR => { calloc_node t with name := some a }
    | NodeType.NODE_FUNCTION_CALL => { calloc_node t with name := some a }
    | NodeType.NODE_BINARY_EXPR => { calloc_node t with op := String.mk (a.data.take 3) }
    | NodeType.NODE_UNARY_EXPR => { calloc_node t with op := String.mk (a.data.take 3) }
    | NodeType.NODE_INT => { calloc_node t with int_value := atoi a.data }
    | NodeType.NODE_STRING => { calloc_node t with string_value := some a }
    | _ => calloc_node t

/-- The characters `fgets` stores when at most `n` more fit: it stops after a
newline, at the end of the file or when the buffer is full; the second
component is the rest of the file. -/
def fgets_chars : Nat → List Char → List Char × List Char
  | 0, f => ([], f)
  | _ + 1, [] => ([], [])
  | n + 1, c :: f =>
    if c = '\n' then ([c], f)
    else ((fgets_chars n f).1.cons c, (fgets_chars n f).2)

/-- The call `fgets(line, MAX_LINE_LEN, f)`: `none` at the end of the file,
else the line read and the rest of the file. -/
def fgets (f : List Char) : Option (List Char × List Char) :=
  match f with
  | [] => none
  | _ :: _ => some (fgets_chars (MAX_LINE_LEN - 1) f)

mutual
/-- The function `parse_ast_recursive` (lines 110-182) on the unread part `f`
of the file: `none` for `NULL`, else the node and the part of the file left
unread.  The first argument bounds the number of nested calls. -/
def parse_ast_recursive : Nat → List Char → Nat → Option (ASTNode × List Char)
  | 0, _, _ => none
  | fuel + 1, f, current_indent =>
    match fgets f with
    | none => none
    | some (line, rest) =>
      let indent := count_leading_spaces line
      if indent < current_indent then none
      else if indent > current_indent then none
      else
        match parse_line (line.drop indent) with
        | (NodeType.NODE_UNKNOWN, _) => none
        | (t, arg) =>
          let node := node_of_line t arg
          let r := parse_children fuel rest (current_indent + 2) 0
          some ({ node with children := r.1 }, r.2)
/-- The loop `while (1)` of `parse_ast_recursive` (lines 165-179) with
`child_count` children already stored: the children it adds and the part of
the file left unread.  A `NULL` child ends the loop with the file position
restored; a child beyond `MAX_CHILDREN` is dropped and ends the loop. -/
def parse_children : Nat → List Char → Nat → Nat → List ASTNode × List Char
  | 0, f, _, _ => ([], f)
  | fuel + 1, f, child_indent, child_count =>
    match parse_ast_recursive fuel f child_indent with
    | none => ([], f)
    | some (child, rest) =>
      if child_count < MAX_CHILDREN then
        ((parse_children fuel rest child_indent (child_count + 1)).1.cons child,
         (parse_children fuel rest child_indent (child_count + 1)).2)
      else ([], rest)
end

/-- The function `parse_ast` (lines 185-187) on the text of the file. -/
def parse_ast (f : List Char) : Option ASTNode :=
  (parse_ast_recursive (2 * f.length + 2) f 0).map (fun r => r.1)

/-- The character of a decimal digit. -/
def digit_char (d : Nat) : Char := Char.ofNat (48 + d)

/-- The decimal digits of `n` put in front of `acc`, most significant first;
the first argument bounds the number of digits. -/
def print_nat_digits : Nat → Nat → List Char → List Char
  | 0, _, acc => acc
  | fuel + 1, n, acc =>
    if n / 10 = 0 then digit_char (n % 10) :: acc
    else print_nat_digits fuel (n / 10) (digit_char (n % 10) :: acc)

/-- The text `printf` writes for a natural number under `%d`. -/
def print_nat (n : Nat) : List Char := print_nat_digits (n + 1) n []

/-- The text `printf` writes for an `int` under `%d`: the decimal digits, after
a minus sign when the value is negative. -/
def print_int (n : Int) : List Char :=
  if n < 0 then '-' :: print_nat n.natAbs else print_nat n.toNat

/-- The text `%s` writes for `p ? p : ""`. -/
def str_or_empty (p : Option String) : List Char := (p.getD "").data

/-- The name `print_ast_to_file` writes for a kind (lines 347-362). -/
def kind_name (t : NodeType) : List Char :=
  match t with
  | NodeType.NODE_FUNCTION_DEF => "FUNCTION_DEF".data
  | NodeType.NODE_SEQUENCE => "SEQUENCE".data
  | NodeType.NODE_DECLARATION => "DECLARATION".data
  | NodeType.NODE_INT => "INT".data
  | NodeType.NODE_BINARY_EXPR => "BINARY_EXPR".data
  | NodeType.NODE_VAR => "VAR".data
  | NodeType.NODE_IF_STMT => "IF_STMT".data
  | NodeType.NODE_FUNCTION_CALL => "FUNCTION_CALL".data
  | NodeType.NODE_EXPR_LIST => "EXPR_LIST".data
  | NodeType.NODE_FOR_STMT => "FOR_STMT".data
  | NodeType.NODE_UNARY_EXPR => "UNARY_EXPR".data
  | NodeType.NODE_RETURN_STMT => "RETURN_STMT".data
  | NodeType.NODE_STRING => "STRING".data
  | NodeType.NODE_UNKNOWN => "UNKNOWN".data

/-- What follows the kind name on the line of a node, before the newline
(lines 347-362): nothing, or a space and the parenthesized argument. -/
def line_argument (node : ASTNode) : List Char :=
  match node.type with
  | NodeType.NODE_FUNCTION_DEF => " (".data ++ str_or_empty node.name ++ ")".data
  | NodeType.NODE_DECLARATION => " (".data ++ str_or_empty node.name ++ ")".data
  | NodeType.NODE_INT => " (".data ++ print_int node.int_value ++ ")".data
  | NodeType.NODE_BINARY_EXPR => " (".data ++ node.op.data ++ ")".data
  | NodeType.NODE_VAR => " (".data ++ str_or_empty node.name ++ ")".data
  | NodeType.NODE_FUNCTION_CALL => " (".data ++ str_or_empty node.name ++ ")".data
  | NodeType.NODE_UNARY_EXPR => " (".data ++ node.op.data ++ ")".data
  | NodeType.NODE_STRING => " (\"".data ++ str_or_empty node.string_value ++ "\")".data
  | _ => []

/-- The text one `fprintf` of `print_ast_to_file` writes for a node, without
the newline that ends it: the kind name and the argument. -/
def node_line (node : ASTNode) : List Char := kind_name node.type ++ line_argument node

/-- The function `print_indent_to_file` (lines 338-341). -/
def print_indent_to_file (indent : Nat) : List Char := List.replicate indent ' '

mutual
/-- The function `print_ast_to_file` (lines 344-366): the text written for a
node at an indentation. -/
def print_ast_to_file : ASTNode → Nat → List Char
  | ⟨t, nm, iv, sv, o, cs⟩, indent =>
    print_indent_to_file indent ++ node_line ⟨t, nm, iv, sv, o, cs⟩ ++ '\n' :: print_children cs (indent + 2)
/-- The loop of `print_ast_to_file` over the children (lines 363-365). -/
def print_children : List ASTNode → Nat → List Char
  | [], _ => []
  | c :: cs, indent => print_ast_to_file c indent ++ print_children cs indent
end

/-! ## Trees that are read back as written -/

/-- Whether a text has neither a closing parenthesis nor a newline. -/
def plain_text (s : List Char) : Bool := s.all (fun c => c != ')' && c != '\n')

/-- Whether the fields of a node are those the reader can give a node of its
kind: a name without `)` or newline, or none, on `FUNCTION_DEF`,
`DECLARATION`, `VAR` and `FUNCTION_CALL`; an operator of at most three
characters without `)` or newline on `BINARY_EXPR` and `UNARY_EXPR`; an `int`
on `INT`; a text without `)` or newline, or none, on `STRING`; every other
field zero; the kind is not `UNKNOWN`. -/
def reader_fields (n : ASTNode) : Bool :=
  match n.type with
  | NodeType.NODE_FUNCTION_DEF | NodeType.NODE_DECLARATION | NodeType.NODE_VAR
  | NodeType.NODE_FUNCTION_CALL =>
    plain_text (str_or_empty n.name) && n.int_value == 0 && n.string_value == none && n.op == ""
  | NodeType.NODE_BINARY_EXPR | NodeType.NODE_UNARY_EXPR =>
    n.name == none && n.int_value == 0 && n.string_value == none &&
      plain_text n.op.data && decide (n.op.data.length ≤ 3)
  | NodeType.NODE_INT =>
    n.name == none && decide (fits_int n.int_value) && n.string_value == none && n.op == ""
  | NodeType.NODE_STRING =>
    n.name == none && n.int_value == 0 && plain_text (str_or_empty n.string_value) && n.op == ""
  | NodeType.NODE_UNKNOWN => false
  | _ => n.name == none && n.int_value == 0 && n.string_value == none && n.op == ""

/-- Whether a node is written and read back as itself, its line permitting: it
is not a `STRING` node, and it has a name if it is a `FUNCTION_DEF`,
`DECLARATION`, `VAR` or `FUNCTION_CALL`. -/
def round_trip_kind (n : ASTNode) : Bool :=
  match n.type with
  | NodeType.NODE_FUNCTION_DEF | NodeType.NODE_DECLARATION | NodeType.NODE_VAR
  | NodeType.NODE_FUNCTION_CALL => n.name.isSome
  | NodeType.NODE_STRING => false
  | _ => true

/-- Whether the line written for a node at an indentation, newline included,
leaves room for the terminating NUL in the line buffer. -/
def line_fits (n : ASTNode) (indent : Nat) : Bool :=
  decide (indent + (node_line n).length + 1 < MAX_LINE_LEN)

mutual
/-- Whether every node of a tree has `reader_fields` and at most
`MAX_CHILDREN` children. -/
def reader_tree : ASTNode → Bool
  | ⟨t, nm, iv, sv, o, cs⟩ =>
    reader_fields ⟨t, nm, iv, sv, o, cs⟩ && decide (cs.length ≤ MAX_CHILDREN) && reader_trees cs
/-- The trees of a list are all `reader_tree`. -/
def reader_trees : List ASTNode → Bool
  | [] => true
  | c :: cs => reader_tree c && reader_trees cs
end

mutual
/-- Whether every node of a tree written at an indentation has
`round_trip_kind` and a line that fits the line buffer. -/
def round_trip_tree : ASTNode → Nat → Bool
  | ⟨t, nm, iv, sv, o, cs⟩, indent =>
    round_trip_kind ⟨t, nm, iv, sv, o, cs⟩ && line_fits ⟨t, nm, iv, sv, o, cs⟩ indent &&
      round_trip_trees cs (indent + 2)
/-- The trees of a list are all `round_trip_tree` at an indentation. -/
def round_trip_trees : List ASTNode → Nat → Bool
  | [], _ => true
  | c :: cs, indent => round_trip_tree c indent && round_trip_trees cs indent
end

/-- Whether the next line of a file, if any, has fewer than `k` leading
spaces: a call of `parse_ast_recursive` at indentation `k` then returns
`NULL`. -/
def next_indent_lt (f : List Char) (k : Nat) : Prop :=
  match fgets f with
  | none => True
  | some (line, _) => count_leading_spaces line < k

mutual
/-- A number of nested calls that suffices to read back a tree. -/
def read_fuel : ASTNode → Nat
  | ⟨_, _, _, _, _, cs⟩ => read_fuels cs + 1
/-- A number of nested calls that suffices to read back a list of children. -/
def read_fuels : List ASTNode → Nat
  | [] => 0
  | c :: cs => read_fuel c + read_fuels cs + 1
end

/-! ## Decimal values, lines and pre-order -/

/-- The number a text of decimal digits denotes. -/
def digits_value (ds : List Char) : Nat :=
  ds.foldl (fun acc c => acc * 10 + (c.toNat - '0'.toNat)) 0

/-- Whether a text is a decimal numeral: one or more decimal digits. -/
def is_numeral (ds : List Char) : Bool := !ds.isEmpty && ds.all Char.isDigit

/-- The decimal value of a text: the integer that a numeral, or a minus sign
followed by a numeral, denotes; no other text has one. -/
def decimal_value (s : List Char) : Option Int :=
  match s with
  | [] => none
  | c :: cs =>
    if c = '-' then (if is_numeral cs then some (-(digits_value cs : Int)) else none)
    else if is_numeral (c :: cs) then some (digits_value (c :: cs) : Int) else none

/-- The lines of a text: the runs of characters that a newline ends, and the
run after the last newline when it is not empty. -/
def text_lines : List Char → List (List Char)
  | [] => []
  | c :: cs =>
    if c = '\n' then [] :: text_lines cs
    else
      match text_lines cs with
      | [] => [[c]]
      | l :: ls => (c :: l) :: ls

mutual
/-- The nodes of a tree in pre-order, each with its depth: a node, then the
nodes of its children in child order. -/
def preorder : ASTNode → Nat → List (Nat × ASTNode)
  | ⟨t, nm, iv, sv, o, cs⟩, depth => (depth, ⟨t, nm, iv, sv, o, cs⟩) :: preorder_children cs (depth + 1)
/-- The nodes of a list of trees of one depth in pre-order. -/
def preorder_children : List ASTNode → Nat → List (Nat × ASTNode)
  | [], _ => []
  | c :: cs, depth => preorder c depth ++ preorder_children cs depth
end

/-- Whether the text the writer takes from the fields of a node has no
newline: the name of a `FUNCTION_DEF`, `DECLARATION`, `VAR` or
`FUNCTION_CALL`, the operator of a `BINARY_EXPR` or `UNARY_EXPR`, the
`string_value` of a `STRING`. -/
def newline_free (n : ASTNode) : Bool :=
  match n.type with
  | NodeType.NODE_FUNCTION_DEF | NodeType.NODE_DECLARATION | NodeType.NODE_VAR
  | NodeType.NODE_FUNCTION_CALL => (str_or_empty n.name).all (fun c => c != '\n')
  | NodeType.NODE_BINARY_EXPR | NodeType.NODE_UNARY_EXPR => n.op.data.all (fun c => c != '\n')
  | NodeType.NODE_STRING => (str_or_empty n.string_value).all (fun c => c != '\n')
  | _ => true

/-! ## Capacity, the reader of `ast_to_c.c` and optimized form -/

mutual
/-- Whether every node of a tree has at most `MAX_CHILDREN` children, so that
its children fit the `children` array. -/
def children_within_capacity : ASTNode → Bool
  | ⟨_, _, _, _, _, cs⟩ => decide (cs.length ≤ MAX_CHILDREN) && children_within_capacities cs
/-- The trees of a list all have `children_within_capacity`. -/
def children_within_capacities : List ASTNode → Bool
  | [] => true
  | c :: cs => children_within_capacity c && children_within_capacities cs
end

/-- The function `strip_outer_quotes` of `ast_to_c.c` (lines 123-143) on the
text of `s`: the leading double quotes are counted by `start`, the trailing
ones of what is left by `end`, and the text between them is moved to the
front. -/
def AstToC.strip_outer_quotes (s : List Char) : List Char :=
  ((s.dropWhile (fun c => c == '"')).reverse.dropWhile (fun c => c == '"')).reverse

/-- The node `parse_ast_recursive` of `ast_to_c.c` builds from the kind and the
argument of a line (lines 177-208): as in `ast_optimize.c`, but a `STRING`
argument goes through `strip_outer_quotes`. -/
def AstToC.node_of_line (t : NodeType) (arg : Option String) : ASTNode :=
  match arg with
  | none => calloc_node t
  | some a =>
    match t with
    | NodeType.NODE_FUNCTION_DEF => { calloc_node t with name := some a }
    | NodeType.NODE_DECLARATION => { calloc_node t with name := some a }
    | NodeType.NODE_VAR => { calloc_node t with name := some a }
    | NodeType.NODE_FUNCTION_CALL => { calloc_node t with name := some a }
    | NodeType.NODE_BINARY_EXPR => { calloc_node t with op := String.mk (a.data.take 3) }
    | NodeType.NODE_UNARY_EXPR => { calloc_node t with op := String.mk (a.data.take 3) }
    | NodeType.NODE_INT => { calloc_node t with int_value := atoi a.data }
    | NodeType.NODE_STRING =>
      { calloc_node t with string_value := some (String.mk (AstToC.strip_outer_quotes a.data)) }
    | _ => calloc_node t

mutual
/-- The function `parse_ast_recursive` of `ast_to_c.c` (lines 145-232), whose
helpers `count_leading_spaces`, `parse_line` and `skip_spaces` (lines 43-122)
repeat those of `ast_optimize.c`.  The first argument bounds the number of
nested calls. -/
def AstToC.parse_ast_recursive : Nat → List Char → Nat → Option (ASTNode × List Char)
  | 0, _, _ => none
  | fuel + 1, f, current_indent =>
    match fgets f with
    | none => none
    | some (line, rest) =>
      let indent := count_leading_spaces line
      if indent < current_indent then none
      else if indent > current_indent then none
      else
        match parse_line (line.drop indent) with
        | (NodeType.NODE_UNKNOWN, _) => none
        | (t, arg) =>
          let node := AstToC.node_of_line t arg
          let r := AstToC.parse_children fuel rest (current_indent + 2) 0
          some ({ node with children := r.1 }, r.2)
/-- The loop `while (1)` of `parse_ast_recursive` of `ast_to_c.c`
(lines 210-229). -/
def AstToC.parse_children : Nat → List Char → Nat → Nat → List ASTNode × List Char
  | 0, f, _, _ => ([], f)
  | fuel + 1, f, child_indent, child_count =>
    match AstToC.parse_ast_recursive fuel f child_indent with
    | none => ([], f)
    | some (child, rest) =>
      if child_count < MAX_CHILDREN then
        ((AstToC.parse_children fuel rest child_indent (child_count + 1)).1.cons child,
         (AstToC.parse_children fuel rest child_indent (child_count + 1)).2)
      else ([], rest)
end

/-- The function `parse_ast` of `ast_to_c.c` (lines 234-237) on the text of
the file. -/
def AstToC.parse_ast (f : List Char) : Option ASTNode :=
  (AstToC.parse_ast_recursive (2 * f.length + 2) f 0).map (fun r => r.1)

/-- Whether a node is a `BINARY_EXPR` over exactly two `INT` children with
operator `+`, `-` or `*`, or `/` and a nonzero divisor. -/
def foldable_binary (n : ASTNode) : Bool :=
  n.type == NodeType.NODE_BINARY_EXPR &&
    match n.children with
    | [l, r] =>
      l.type == NodeType.NODE_INT && r.type == NodeType.NODE_INT &&
        (n.op == "+" || n.op == "-" || n.op == "*" || (n.op == "/" && r.int_value != 0))
    | _ => false

/-- Whether a node is a `UNARY_EXPR` with operator `++` or `--` over a single
`INT` child. -/
def foldable_unary (n : ASTNode) : Bool :=
  n.type == NodeType.NODE_UNARY_EXPR &&
    match n.children with
    | [c] => c.type == NodeType.NODE_INT && (n.op == "++" || n.op == "--")
    | _ => false

/-- Whether a node is an `IF_STMT` with at least two children whose first
child is an `INT`. -/
def constant_if (n : ASTNode) : Bool :=
  n.type == NodeType.NODE_IF_STMT &&
    match n.children with
    | c :: _ :: _ => c.type == NodeType.NODE_INT
    | _ => false

/-- The start and end values of a `FOR_STMT` of the canonical unrolling shape
with a `FUNCTION_CALL` body: init a `DECLARATION` over one `INT`, condition a
`BINARY_EXPR` with operator `<` over a `VAR` and an `INT`, increment a
`UNARY_EXPR` with operator `++` over a `VAR`, the three names present and
equal.  Any other node has none. -/
def canonical_for (n : ASTNode) : Option (Int × Int) :=
  if n.type = NodeType.NODE_FOR_STMT then
    match n.children with
    | [init, cond, update, body] =>
      match init.children, cond.children, update.children with
      | [init0], [cond0, cond1], [update0] =>
        if init.type = NodeType.NODE_DECLARATION ∧ init0.type = NodeType.NODE_INT ∧
            cond.type = NodeType.NODE_BINARY_EXPR ∧ cond.op = "<" ∧
            cond0.type = NodeType.NODE_VAR ∧ cond1.type = NodeType.NODE_INT ∧
            update.type = NodeType.NODE_UNARY_EXPR ∧ update.op = "++" ∧
            update0.type = NodeType.NODE_VAR ∧ body.type = NodeType.NODE_FUNCTION_CALL ∧
            cond0.name.isSome = true ∧ init.name = cond0.name ∧ update0.name = cond0.name
        then some (init0.int_value, cond1.int_value) else none
      | _, _, _ => none
    | _ => none
  else none

/-- Whether a node is a canonical `FOR_STMT` with `end - start ≤ 16`, the
difference taken over the integers. -/
def unrollable_for (n : ASTNode) : Bool :=
  match canonical_for n with
  | some (start, stop) => decide (stop - start ≤ 16)
  | none => false

/-- Whether a node is a canonical `FOR_STMT` that passes the test
`end - start <= 16` of the code, the difference taken in `int`. -/
def unroll_guard_passes (n : ASTNode) : Bool :=
  match canonical_for n with
  | some (start, stop) => decide (wrap_int (stop - start) ≤ 16)
  | none => false

/-- Whether none of the four rewrites of `optimize_ast` applies at a node. -/
def optimized_form (n : ASTNode) : Bool :=
  !foldable_binary n && !foldable_unary n && !constant_if n && !unroll_guard_passes n

mutual
/-- Whether a test holds of every node of a tree. -/
def all_nodes (p : ASTNode → Bool) : ASTNode → Bool
  | ⟨t, nm, iv, sv, o, cs⟩ => p ⟨t, nm, iv, sv, o, cs⟩ && all_nodes_list p cs
/-- A test holds of every node of every tree of a list. -/
def all_nodes_list (p : ASTNode → Bool) : List ASTNode → Bool
  | [] => true
  | c :: cs => all_nodes p c && all_nodes_list p cs
end

/-! ## Where the pass has a result -/

/-- Whether the division of line 238 is reached with the operands `INT_MIN`
and `-1`: a `BINARY_EXPR` over two `INT` children with operator `/`, whose
divisor passes the test `right->int_value != 0` of line 237.  The quotient
`2147483648` is no `int` and the division traps. -/
def division_traps (node : ASTNode) : Bool :=
  if node.type = NodeType.NODE_BINARY_EXPR then
    match node.children with
    | [left, right] =>
      if left.type = NodeType.NODE_INT ∧ right.type = NodeType.NODE_INT then
        if node.op = "/" ∧ right.int_value ≠ 0 then
          decide (left.int_value = INT_MIN ∧ right.int_value = -1)
        else false
      else false
    | _ => false
  else false

/-- Whether the unroller (lines 298-334) at a node leaves defined behaviour:
after the shape test, `strcmp(var, init->name)` of line 318 is called on a
`NULL` name, or, the first comparison giving 0, the second one is; or the
test passes and the loop of lines 327-330 stores more than `MAX_CHILDREN`
replicas, the one of index `MAX_CHILDREN` past the `children` array. -/
def unroll_undefined (node : ASTNode) : Bool :=
  if node.type = NodeType.NODE_FOR_STMT then
    match node.children with
    | [init, cond, update, body] =>
      match init.children, cond.children, update.children with
      | [init0], [cond0, cond1], [update0] =>
        if init.type = NodeType.NODE_DECLARATION ∧ init0.type = NodeType.NODE_INT ∧
            cond.type = NodeType.NODE_BINARY_EXPR ∧ cond.op = "<" ∧
            cond0.type = NodeType.NODE_VAR ∧ cond1.type = NodeType.NODE_INT ∧
            update.type = NodeType.NODE_UNARY_EXPR ∧ update.op = "++" ∧
            update0.type = NodeType.NODE_VAR ∧ body.type = NodeType.NODE_FUNCTION_CALL then
          let start := init0.int_value
          let stop := cond1.int_value
          match cond0.name, init.name with
          | some var, some init_name =>
            if var = init_name then
              match update0.name with
              | some update_name =>
                if var = update_name ∧ wrap_int (stop - start) ≤ 16 then
                  decide (MAX_CHILDREN < (stop - start).toNat)
                else false
              | none => true
            else false
          | _, _ => true
        else false
      | _, _, _ => false
    | _ => false
  else false

/-- Whether the statements of `optimize_ast` that follow the recursive calls
(lines 225-334) have a result on a node whose children are optimized: the
division does not trap, and on the node the folds and the dead code
elimination leave, the unroller calls `strcmp` on names that are present and
stores within the `children` array.  Signed overflow of `+`, `-`, `*`, `++`,
`--` and of `end - start` is taken to wrap (see `wrap_int`). -/
def node_defined (node : ASTNode) : Bool :=
  !division_traps node &&
    match fold_unary (fold_binary node) with
    | none => true
    | some n => !unroll_undefined (eliminate_if n)

mutual
/-- Whether the run of `optimize_ast` on a tree has a result: the passes over
the children have one (lines 221-223 run first), and so have the statements at
the node itself.  Where this holds, `optimize_ast` is the tree the code
leaves; where it fails, the code traps, reads through `NULL` or writes past
the `children` array, and the value of `optimize_ast` is that of the total
functions `fold_binary`, `strcmp_eq` and `unroll_replicas` only.  The tree
given is one the program holds: at most `MAX_CHILDREN` children at a node. -/
def pass_defined : ASTNode → Bool
  | ⟨t, nm, iv, sv, o, cs⟩ =>
    passes_defined cs && node_defined ⟨t, nm, iv, sv, o, optimize_children cs⟩
/-- The passes over the trees of a list all have a result. -/
def passes_defined : List ASTNode → Bool
  | [] => true
  | c :: cs => pass_defined c && passes_defined cs
end

/-- The children a text gives a node: the trees `parse_ast_recursive` reads
one after the other at the indentation of the children, up to the first call
that returns `NULL`.  This is the loop of lines 165-179 without the test
`child_count < MAX_CHILDREN`. -/
def text_children : Nat → List Char → Nat → List ASTNode
  | 0, _, _ => []
  | fuel + 1, f, child_indent =>
    match parse_ast_recursive fuel f child_indent with
    | none => []
    | some (child, rest) => child :: text_children fuel rest child_indent

/-! ## Basic facts -/

mutual
theorem clone_ast_id : ∀ n : ASTNode, clone_ast n = n
  | ⟨t, nm, iv, sv, o, cs⟩ => by simp [clone_ast, clone_children_id cs]
theorem clone_children_id : ∀ cs : List ASTNode, clone_children cs = cs
  | [] => by simp [clone_children]
  | c :: cs => by simp [clone_children, clone_ast_id c, clone_children_id cs]
end

theorem optimize_children_eq_map (cs : List ASTNode) :
    optimize_children cs = cs.map optimize_ast := by
  induction cs with
  | nil => simp [optimize_children]
  | cons c cs ih => simp [optimize_children, ih]

theorem optimize_ast_eq (n : ASTNode) :
    optimize_ast n = optimize_node { n with children := n.children.map optimize_ast } := by
  cases n
  simp [optimize_ast, optimize_children_eq_map]

theorem wrap_int_of_fits {x : Int} (h : fits_int x) : wrap_int x = x := by
  unfold fits_int INT_MIN INT_MAX at h
  unfold wrap_int
  omega

theorem optimize_node_int (n : ASTNode) (h : n.type = NodeType.NODE_INT) : optimize_node n = n := by
  simp [optimize_node, fold_binary, fold_unary, eliminate_if, unroll_for, h]

theorem optimize_ast_int_type (n : ASTNode) (h : n.type = NodeType.NODE_INT) :
    (optimize_ast n).type = NodeType.NODE_INT ∧ (optimize_ast n).int_value = n.int_value := by
  rw [optimize_ast_eq, optimize_node_int]
  · exact ⟨h, rfl⟩
  · exact h

theorem optimize_ast_int_leaf (n : ASTNode) (h : n.type = NodeType.NODE_INT) (hc : n.children = []) :
    optimize_ast n = n := by
  rw [optimize_ast_eq, optimize_node_int]
  · cases n
    simp_all
  · exact h

theorem unroll_for_of_type_ne (n : ASTNode) (h : n.type ≠ NodeType.NODE_FOR_STMT) :
    unroll_for n = n := by
  simp [unroll_for, h]

theorem unroll_for_cases (n : ASTNode) :
    unroll_for n = n ∨ (unroll_for n).type = NodeType.NODE_SEQUENCE := by
  unfold unroll_for
  dsimp only
  repeat' split
  all_goals first | exact Or.inl rfl | exact Or.inr rfl

theorem unroll_for_idem (n : ASTNode) : unroll_for (unroll_for n) = unroll_for n := by
  rcases unroll_for_cases n with h | h
  · rw [h]
    exact h
  · exact unroll_for_of_type_ne _ (by rw [h]; decide)

theorem fold_unary_none (n : ASTNode) (h : fold_unary n = none) :
    n.type = NodeType.NODE_UNARY_EXPR := by
  by_contra h1
  simp [fold_unary, h1] at h

theorem unroll_for_optimize_node (m : ASTNode) :
    unroll_for (optimize_node m) = optimize_node m := by
  unfold optimize_node
  split
  · next h =>
    exact unroll_for_of_type_ne _ (by rw [fold_unary_none _ h]; decide)
  · exact unroll_for_idem _

theorem unroll_for_optimize_ast (t : ASTNode) : unroll_for (optimize_ast t) = optimize_ast t := by
  rw [optimize_ast_eq]
  exact unroll_for_optimize_node _


theorem optimize_ast_loop_init (v : String) (s : Int) :
    optimize_ast (decl_node v [int_leaf s]) = decl_node v [int_leaf s] := by
  simp [optimize_ast_eq, decl_node, int_leaf, calloc_node, optimize_node, fold_binary,
    fold_unary, eliminate_if, unroll_for]

theorem optimize_ast_loop_cond (v : String) (e : Int) :
    optimize_ast (binary_node "<" (var_leaf v) (int_leaf e))
      = binary_node "<" (var_leaf v) (int_leaf e) := by
  simp [optimize_ast_eq, binary_node, var_leaf, int_leaf, calloc_node, optimize_node,
    fold_binary, fold_unary, eliminate_if, unroll_for]

theorem optimize_ast_loop_update (v : String) :
    optimize_ast (unary_node "++" (var_leaf v)) = unary_node "++" (var_leaf v) := by
  simp [optimize_ast_eq, unary_node, var_leaf, calloc_node, optimize_node,
    fold_binary, fold_unary, eliminate_if, unroll_for]

theorem optimize_for_loop (v : String) (s e : Int) (b : ASTNode) :
    optimize_ast (for_loop v s e b) =
      if (optimize_ast b).type = NodeType.NODE_FUNCTION_CALL ∧ wrap_int (e - s) ≤ 16 then
        plain_node NodeType.NODE_SEQUENCE (List.replicate (e - s).toNat (optimize_ast b))
      else for_loop v s e (optimize_ast b) := by
  rw [optimize_ast_eq]
  simp only [for_loop, plain_node, calloc_node, List.map, optimize_ast_loop_init,
    optimize_ast_loop_cond, optimize_ast_loop_update]
  simp [optimize_node, fold_binary, fold_unary, eliminate_if, unroll_for, decl_node,
    binary_node, unary_node, var_leaf, int_leaf, calloc_node, strcmp_eq, unroll_replicas,
    clone_ast_id]
  split_ifs <;> simp_all

theorem optimize_ast_call_type (b : ASTNode) (h : b.type = NodeType.NODE_FUNCTION_CALL) :
    (optimize_ast b).type = NodeType.NODE_FUNCTION_CALL := by
  rw [optimize_ast_eq]
  simp [optimize_node, fold_binary, fold_unary, eliminate_if, unroll_for, h]


mutual
theorem arith_value_folds : ∀ (t : ASTNode) (v : Int),
    arith_value t = some v → folded_to (optimize_ast t) v
  | ⟨ty, nm, iv, sv, o, cs⟩, v, h => by
    have ih := arith_values_fold cs
    rw [arith_value] at h
    rw [optimize_ast_eq]
    unfold arith_node_value at h
    split at h
    · next hv =>
      simp only [Option.some.injEq] at h
      have := ih [] hv
      cases cs with
      | nil => simp [optimize_node_int, folded_to, h]
      | cons c cs => cases this
    · next a b hv =>
      have h2 := ih [a, b] hv
      match cs, h2 with
      | [l, r], .cons hl (.cons hr .nil) =>
        obtain ⟨hlt, hlv, -⟩ := hl
        obtain ⟨hrt, hrv, -⟩ := hr
        split_ifs at h with h1 hf h3 hf h4 hf
        · simp only [Option.some.injEq] at h
          subst h
          simp [optimize_node, fold_binary, fold_unary, eliminate_if, unroll_for, hlt, hrt,
            hlv, hrv, h1, wrap_int_of_fits hf, folded_to]
        · simp only [Option.some.injEq] at h
          subst h
          simp [optimize_node, fold_binary, fold_unary, eliminate_if, unroll_for, hlt, hrt,
            hlv, hrv, h1, h3, wrap_int_of_fits hf, folded_to]
        · simp only [Option.some.injEq] at h
          subst h
          simp [optimize_node, fold_binary, fold_unary, eliminate_if, unroll_for, hlt, hrt,
            hlv, hrv, h1, h3, h4, wrap_int_of_fits hf, folded_to]
    · cases h
theorem arith_values_fold : ∀ (cs : List ASTNode) (vs : List Int),
    arith_values cs = some vs → List.Forall₂ (fun c v => folded_to (optimize_ast c) v) cs vs
  | [], vs, h => by
    simp [arith_values] at h
    subst h
    exact .nil
  | c :: cs, vs, h => by
    rw [arith_values] at h
    split at h
    · next v ws hv hws =>
      simp only [Option.some.injEq] at h
      subst h
      exact .cons (arith_value_folds c v hv) (arith_values_fold cs ws hws)
    · cases h
end

/-! ## Constant folding -/

/-- C1 (amended): at a `BINARY_EXPR` node with exactly two `INT` children of
values `a` and `b` and operator `+`, `-` or `*`, whenever `a op b` fits in a
signed 32-bit `int`, `optimize_ast` yields the node turned into an `INT` node
with `int_value = a op b`, no children and an empty operator. -/
theorem fold_binary_arith_of_fits (n l r : ASTNode)
    (hn : n.type = NodeType.NODE_BINARY_EXPR) (hc : n.children = [l, r])
    (hl : l.type = NodeType.NODE_INT) (hr : r.type = NodeType.NODE_INT) :
    (n.op = "+" → fits_int (l.int_value + r.int_value) →
      optimize_ast n = { n with type := NodeType.NODE_INT, int_value := l.int_value + r.int_value,
                                children := [], op := "" }) ∧
    (n.op = "-" → fits_int (l.int_value - r.int_value) →
      optimize_ast n = { n with type := NodeType.NODE_INT, int_value := l.int_value - r.int_value,
                                children := [], op := "" }) ∧
    (n.op = "*" → fits_int (l.int_value * r.int_value) →
      optimize_ast n = { n with type := NodeType.NODE_INT, int_value := l.int_value * r.int_value,
                                children := [], op := "" }) := by
  obtain ⟨hlt, hlv⟩ := optimize_ast_int_type l hl
  obtain ⟨hrt, hrv⟩ := optimize_ast_int_type r hr
  refine ⟨?_, ?_, ?_⟩ <;> intro hop hf <;> rw [optimize_ast_eq, hc] <;>
    simp [optimize_node, fold_binary, fold_unary, eliminate_if, unroll_for, hn, hlt, hrt,
      hlv, hrv, hop, wrap_int_of_fits hf]

/-- C1, witness: `2 + 3`, `2 - 3` and `2 * 3` fold to `5`, `-1` and `6`. -/
theorem fold_binary_arith_of_fits_witness :
    optimize_ast (binary_node "+" (int_leaf 2) (int_leaf 3)) = int_leaf 5 ∧
    optimize_ast (binary_node "-" (int_leaf 2) (int_leaf 3)) = int_leaf (-1) ∧
    optimize_ast (binary_node "*" (int_leaf 2) (int_leaf 3)) = int_leaf 6 :=
  ⟨(fold_binary_arith_of_fits (binary_node "+" (int_leaf 2) (int_leaf 3)) (int_leaf 2)
      (int_leaf 3) rfl rfl rfl rfl).1 rfl (by decide),
   (fold_binary_arith_of_fits (binary_node "-" (int_leaf 2) (int_leaf 3)) (int_leaf 2)
      (int_leaf 3) rfl rfl rfl rfl).2.1 rfl (by decide),
   (fold_binary_arith_of_fits (binary_node "*" (int_leaf 2) (int_leaf 3)) (int_leaf 2)
      (int_leaf 3) rfl rfl rfl rfl).2.2 rfl (by decide)⟩

/-- C1, counterexample: folding `2147483647 + 1` gives an `INT` node whose
value is `-2147483648`, not the sum `2147483648`. -/
theorem fold_binary_add_overflow :
    (optimize_ast (binary_node "+" (int_leaf 2147483647) (int_leaf 1))).type = NodeType.NODE_INT ∧
    (optimize_ast (binary_node "+" (int_leaf 2147483647) (int_leaf 1))).int_value
      = -2147483648 ∧
    (optimize_ast (binary_node "+" (int_leaf 2147483647) (int_leaf 1))).int_value
      ≠ 2147483647 + 1 := by
  decide

/-- Folding of a division away from the trap: at a `BINARY_EXPR` node with
operator `/` and exactly two `INT` children of values `a` and `b`, when `b`
is nonzero and the quotient truncated toward zero fits in a signed 32-bit
`int` (every case but `a = -2147483648`, `b = -1`), `optimize_ast` yields the
node turned into an `INT` node with that quotient, no children and an empty
operator; when `b = 0` (the children being leaves) the node is returned
unchanged. -/
theorem fold_binary_div (n l r : ASTNode)
    (hn : n.type = NodeType.NODE_BINARY_EXPR) (hc : n.children = [l, r])
    (hl : l.type = NodeType.NODE_INT) (hr : r.type = NodeType.NODE_INT) (hop : n.op = "/") :
    (r.int_value ≠ 0 → fits_int (Int.tdiv l.int_value r.int_value) →
      optimize_ast n = { n with type := NodeType.NODE_INT,
                                int_value := Int.tdiv l.int_value r.int_value,
                                children := [], op := "" }) ∧
    (r.int_value = 0 → l.children = [] → r.children = [] → optimize_ast n = n) := by
  obtain ⟨hlt, hlv⟩ := optimize_ast_int_type l hl
  obtain ⟨hrt, hrv⟩ := optimize_ast_int_type r hr
  constructor
  · intro hb hf
    rw [optimize_ast_eq, hc]
    simp [optimize_node, fold_binary, fold_unary, eliminate_if, unroll_for, hn, hlt, hrt,
      hlv, hrv, hop, hb, wrap_int_of_fits hf]
  · intro hb hlc hrc
    rw [optimize_ast_eq, hc]
    simp only [List.map, optimize_ast_int_leaf l hl hlc, optimize_ast_int_leaf r hr hrc]
    rw [← hc]
    simp [optimize_node, fold_binary, fold_unary, eliminate_if, unroll_for, hn, hl, hr,
      hop, hb, hc]
    cases n
    simp_all

/-- The quotient `-7 / 2` folds to `-3`, and `7 / 0` is returned unchanged. -/
theorem fold_binary_div_witness :
    optimize_ast (binary_node "/" (int_leaf (-7)) (int_leaf 2)) = int_leaf (-3) ∧
    optimize_ast (binary_node "/" (int_leaf 7) (int_leaf 0))
      = binary_node "/" (int_leaf 7) (int_leaf 0) :=
  ⟨(fold_binary_div (binary_node "/" (int_leaf (-7)) (int_leaf 2)) (int_leaf (-7))
      (int_leaf 2) rfl rfl rfl rfl rfl).1 (by decide) (by decide),
   (fold_binary_div (binary_node "/" (int_leaf 7) (int_leaf 0)) (int_leaf 7)
      (int_leaf 0) rfl rfl rfl rfl rfl).2 rfl rfl rfl⟩

/-- C3 (amended): at a `UNARY_EXPR` node with the single `INT` child of value
`a`: operator `++` yields the node turned into an `INT` node of value `a + 1`
whenever `a + 1` fits in a signed 32-bit `int`, operator `--` one of value
`a - 1` whenever `a - 1` fits, both with no children and an empty operator;
under every other operator the node and its leaf child are returned
unchanged. -/
theorem fold_unary_incr_decr (n c : ASTNode)
    (hn : n.type = NodeType.NODE_UNARY_EXPR) (hc : n.children = [c])
    (hct : c.type = NodeType.NODE_INT) :
    (n.op = "++" → fits_int (c.int_value + 1) →
      optimize_ast n = { n with type := NodeType.NODE_INT, int_value := c.int_value + 1,
                                children := [], op := "" }) ∧
    (n.op = "--" → fits_int (c.int_value - 1) →
      optimize_ast n = { n with type := NodeType.NODE_INT, int_value := c.int_value - 1,
                                children := [], op := "" }) ∧
    (n.op ≠ "++" → n.op ≠ "--" → c.children = [] → optimize_ast n = n) := by
  obtain ⟨ht, hv⟩ := optimize_ast_int_type c hct
  refine ⟨?_, ?_, ?_⟩
  · intro hop hf
    rw [optimize_ast_eq, hc]
    simp [optimize_node, fold_binary, fold_unary, eliminate_if, unroll_for, hn, ht, hv, hop,
      wrap_int_of_fits hf]
  · intro hop hf
    rw [optimize_ast_eq, hc]
    simp [optimize_node, fold_binary, fold_unary, eliminate_if, unroll_for, hn, ht, hv, hop,
      wrap_int_of_fits hf]
  · intro h1 h2 hcc
    rw [optimize_ast_eq, hc]
    simp only [List.map, optimize_ast_int_leaf c hct hcc]
    rw [← hc]
    simp [optimize_node, fold_binary, fold_unary, hn, hct, h1, h2, hc]
    cases n
    simp_all

/-- C3, witness: `++` over `41` gives `42`, `--` over `41` gives `40`, and
`!` over `41` is returned unchanged. -/
theorem fold_unary_incr_decr_witness :
    optimize_ast (unary_node "++" (int_leaf 41)) = int_leaf 42 ∧
    optimize_ast (unary_node "--" (int_leaf 41)) = int_leaf 40 ∧
    optimize_ast (unary_node "!" (int_leaf 41)) = unary_node "!" (int_leaf 41) :=
  ⟨(fold_unary_incr_decr (unary_node "++" (int_leaf 41)) (int_leaf 41) rfl rfl rfl).1
      rfl (by decide),
   (fold_unary_incr_decr (unary_node "--" (int_leaf 41)) (int_leaf 41) rfl rfl rfl).2.1
      rfl (by decide),
   (fold_unary_incr_decr (unary_node "!" (int_leaf 41)) (int_leaf 41) rfl rfl rfl).2.2
      (by decide) (by decide) rfl⟩

/-- C3, counterexample: `++` over `2147483647` gives an `INT` node whose value
is `-2147483648`, not `2147483648`. -/
theorem fold_unary_incr_overflow :
    (optimize_ast (unary_node "++" (int_leaf 2147483647))).type = NodeType.NODE_INT ∧
    (optimize_ast (unary_node "++" (int_leaf 2147483647))).int_value = -2147483648 ∧
    (optimize_ast (unary_node "++" (int_leaf 2147483647))).int_value ≠ 2147483647 + 1 := by
  decide

/-- C4 (amended): for every expression tree built only from `INT` leaves and
`BINARY_EXPR` nodes with exactly two children and an operator `+`, `-` or `*`,
in which the value of every sub-expression fits in a signed 32-bit `int`, a
single call of `optimize_ast` yields one childless `INT` node whose value is
the value of the expression. -/
theorem fold_composes_bottom_up (t : ASTNode) (v : Int) (h : arith_value t = some v) :
    (optimize_ast t).type = NodeType.NODE_INT ∧ (optimize_ast t).int_value = v ∧
      (optimize_ast t).children = [] :=
  arith_value_folds t v h

/-- C4, witness: `(2 + 3) * 4` is an expression tree of value `20` and one
call of `optimize_ast` leaves the node `INT (20)`. -/
theorem fold_composes_bottom_up_witness :
    arith_value (binary_node "*" (binary_node "+" (int_leaf 2) (int_leaf 3)) (int_leaf 4))
      = some 20 ∧
    ((optimize_ast (binary_node "*" (binary_node "+" (int_leaf 2) (int_leaf 3))
        (int_leaf 4))).type = NodeType.NODE_INT ∧
     (optimize_ast (binary_node "*" (binary_node "+" (int_leaf 2) (int_leaf 3))
        (int_leaf 4))).int_value = 20 ∧
     (optimize_ast (binary_node "*" (binary_node "+" (int_leaf 2) (int_leaf 3))
        (int_leaf 4))).children = []) ∧
    optimize_ast (binary_node "*" (binary_node "+" (int_leaf 2) (int_leaf 3)) (int_leaf 4))
      = int_leaf 20 :=
  ⟨rfl,
   fold_composes_bottom_up
     (binary_node "*" (binary_node "+" (int_leaf 2) (int_leaf 3)) (int_leaf 4)) 20 rfl,
   rfl⟩

/-- C4, counterexample: the expression `(256 * 256) * (256 * 256)` has the
value `4294967296`, and one call of `optimize_ast` leaves an `INT` node of
value `0`. -/
theorem fold_composes_overflow :
    (optimize_ast (binary_node "*" (binary_node "*" (int_leaf 256) (int_leaf 256))
      (binary_node "*" (int_leaf 256) (int_leaf 256)))).type = NodeType.NODE_INT ∧
    (optimize_ast (binary_node "*" (binary_node "*" (int_leaf 256) (int_leaf 256))
      (binary_node "*" (int_leaf 256) (int_leaf 256)))).int_value = 0 ∧
    (optimize_ast (binary_node "*" (binary_node "*" (int_leaf 256) (int_leaf 256))
      (binary_node "*" (int_leaf 256) (int_leaf 256)))).int_value
      ≠ (256 * 256) * (256 * 256) := by
  decide

/-! ## Loop unrolling -/

/-- Within the capacity of the `children` array the unroller does what it is
meant to: a canonical loop with a `FUNCTION_CALL` body and
`0 < stop - start ≤ MAX_CHILDREN` becomes a `SEQUENCE` of `stop - start`
copies of the optimized body. -/
theorem unroll_within_capacity (v : String) (s e : Int) (b : ASTNode)
    (hb : b.type = NodeType.NODE_FUNCTION_CALL) (h0 : 0 < e - s) (h1 : e - s ≤ MAX_CHILDREN) :
    optimize_ast (for_loop v s e b)
      = plain_node NodeType.NODE_SEQUENCE (List.replicate (e - s).toNat (optimize_ast b)) ∧
    ((optimize_ast (for_loop v s e b)).children.length : Int) = e - s := by
  have hw : wrap_int (e - s) ≤ 16 := by
    unfold MAX_CHILDREN at h1
    unfold wrap_int
    omega
  rw [optimize_for_loop, if_pos ⟨optimize_ast_call_type b hb, hw⟩]
  refine ⟨rfl, ?_⟩
  simp only [plain_node, List.length_replicate]
  omega

/-- The loop of the specification: from `0` to `3` over `FUNCTION_CALL (foo)`
becomes three copies of the call. -/
theorem unroll_three :
    optimize_ast (for_loop "i" 0 3 (call_leaf "foo"))
      = plain_node NodeType.NODE_SEQUENCE [call_leaf "foo", call_leaf "foo", call_leaf "foo"] :=
  rfl

/-- C7, failing input: for the canonical loop from `0` to `11` over
`FUNCTION_CALL (foo)`, whose trip count `11` is at most `16`, the unroller
stores eleven copies of the body, so the last store is at index `10`, past the
`MAX_CHILDREN = 10` slots of the `children` array. -/
theorem unroll_eleven_past_capacity :
    optimize_ast (for_loop "i" 0 11 (call_leaf "foo"))
      = plain_node NodeType.NODE_SEQUENCE (List.replicate 11 (call_leaf "foo")) ∧
    MAX_CHILDREN < (optimize_ast (for_loop "i" 0 11 (call_leaf "foo"))).children.length :=
  ⟨rfl, by decide⟩

/-- A canonical loop whose trip count exceeds `16` and is itself an `int`
stays a `FOR_STMT` over its four children, the body optimized. -/
theorem unroll_skipped_of_large_trip (v : String) (s e : Int) (b : ASTNode)
    (h16 : 16 < e - s) (hf : e - s ≤ INT_MAX) :
    optimize_ast (for_loop v s e b) = for_loop v s e (optimize_ast b) := by
  have hw : ¬ wrap_int (e - s) ≤ 16 := by
    unfold INT_MAX at hf
    unfold wrap_int
    omega
  rw [optimize_for_loop, if_neg (fun h => hw h.2)]

/-- The loop of the specification: from `0` to `20` over `FUNCTION_CALL (foo)`
is returned as it was. -/
theorem unroll_skipped_twenty :
    optimize_ast (for_loop "i" 0 20 (call_leaf "foo")) = for_loop "i" 0 20 (call_leaf "foo") :=
  rfl

/-- C8, failing input: the canonical loop from `-2147483648` to `2147483647`
over `FUNCTION_CALL (foo)` has a trip count far above `16`, yet the `int`
difference `end - start` wraps to `-1`, the test `end - start <= 16` passes and
the node is rewritten into a `SEQUENCE`. -/
theorem unroll_guard_overflow :
    (16 : Int) < 2147483647 - (-2147483648) ∧
    wrap_int (2147483647 - (-2147483648)) = -1 ∧
    (optimize_ast (for_loop "i" (-2147483648) 2147483647 (call_leaf "foo"))).type
      = NodeType.NODE_SEQUENCE := by
  refine ⟨by decide, by decide, ?_⟩
  rw [optimize_for_loop, if_pos ⟨rfl, by decide⟩]
  rfl

/-- C10 (amended): the unrolling shape constrains the body as well.  For a
canonical loop over `v` from `start` to `end`: when the optimized body is a
`FUNCTION_CALL` and `0 < end - start ≤ 10`, `optimize_ast` replaces the
`FOR_STMT` by a `SEQUENCE` of `end - start` copies of the optimized body; when
the optimized body is of any other kind, the node stays a `FOR_STMT` over its
init, condition, increment and optimized body. -/
theorem unroll_needs_call_body (v : String) (s e : Int) (b : ASTNode) :
    ((optimize_ast b).type = NodeType.NODE_FUNCTION_CALL → 0 < e - s → e - s ≤ MAX_CHILDREN →
      optimize_ast (for_loop v s e b)
        = plain_node NodeType.NODE_SEQUENCE (List.replicate (e - s).toNat (optimize_ast b))) ∧
    ((optimize_ast b).type ≠ NodeType.NODE_FUNCTION_CALL →
      optimize_ast (for_loop v s e b) = for_loop v s e (optimize_ast b)) := by
  constructor
  · intro hb h0 h1
    have hw : wrap_int (e - s) ≤ 16 := by
      unfold MAX_CHILDREN at h1
      unfold wrap_int
      omega
    rw [optimize_for_loop, if_pos ⟨hb, hw⟩]
  · intro hb
    rw [optimize_for_loop, if_neg (fun h => hb h.1)]

/-- C10, witness: from `0` to `3`, the body `FUNCTION_CALL (foo)` is unrolled
into three copies, and the body `SEQUENCE` over `FUNCTION_CALL (foo)` leaves
the `FOR_STMT` as it was. -/
theorem unroll_needs_call_body_witness :
    optimize_ast (for_loop "i" 0 3 (call_leaf "foo"))
      = plain_node NodeType.NODE_SEQUENCE (List.replicate 3 (call_leaf "foo")) ∧
    optimize_ast (for_loop "i" 0 3 (plain_node NodeType.NODE_SEQUENCE [call_leaf "foo"]))
      = for_loop "i" 0 3 (plain_node NodeType.NODE_SEQUENCE [call_leaf "foo"]) :=
  ⟨(unroll_needs_call_body "i" 0 3 (call_leaf "foo")).1 rfl (by decide) (by decide),
   (unroll_needs_call_body "i" 0 3 (plain_node NodeType.NODE_SEQUENCE [call_leaf "foo"])).2
     (by decide)⟩

/-- C10, counterexample: with `0 < end - start = 3 ≤ 16`, the canonical loop
whose body is a `SEQUENCE` over `FUNCTION_CALL (foo)`, and the one whose body
is `DECLARATION (x)` over `INT (1)`, are not replaced by a `SEQUENCE`: each
stays a `FOR_STMT` with four children. -/
theorem unroll_sequence_body_kept :
    (optimize_ast (for_loop "i" 0 3 (plain_node NodeType.NODE_SEQUENCE [call_leaf "foo"]))).type
      = NodeType.NODE_FOR_STMT ∧
    (optimize_ast (for_loop "i" 0 3
      (plain_node NodeType.NODE_SEQUENCE [call_leaf "foo"]))).children.length = 4 ∧
    (optimize_ast (for_loop "i" 0 3 (decl_node "x" [int_leaf 1]))).type
      = NodeType.NODE_FOR_STMT ∧
    (optimize_ast (for_loop "i" 0 3 (decl_node "x" [int_leaf 1]))).children.length = 4 := by
  decide

/-! ## Idempotence, cloning and untouched nodes -/

theorem optimize_node_inert (r : ASTNode)
    (h : r.type = NodeType.NODE_INT ∨ r.type = NodeType.NODE_SEQUENCE) :
    optimize_node r = r := by
  rcases h with h | h <;>
    simp [optimize_node, fold_binary, fold_unary, eliminate_if, unroll_for, h]

theorem optimize_ast_of_fixed_children (r : ASTNode)
    (h : ∀ c ∈ r.children, optimize_ast c = c) : optimize_ast r = optimize_node r := by
  rw [optimize_ast_eq]
  have : r.children.map optimize_ast = r.children := by
    conv_rhs => rw [← List.map_id r.children]
    exact List.map_congr_left (fun c hc => by simpa using h c hc)
  rw [this]
  cases r
  rfl

theorem fold_binary_shape (m : ASTNode) :
    fold_binary m = m ∨
      ((fold_binary m).type = NodeType.NODE_INT ∧ (fold_binary m).children = []) := by
  unfold fold_binary
  dsimp only
  repeat' split
  all_goals first | exact Or.inl rfl | exact Or.inr ⟨rfl, rfl⟩

theorem fold_unary_shape (m : ASTNode) :
    fold_unary m = none ∨ fold_unary m = some m ∨
      ∃ r, fold_unary m = some r ∧ r.type = NodeType.NODE_INT ∧ r.children = [] := by
  unfold fold_unary
  repeat' split
  all_goals first
    | exact Or.inl rfl
    | exact Or.inr (Or.inl rfl)
    | exact Or.inr (Or.inr ⟨_, rfl, rfl, rfl⟩)

theorem eliminate_if_shape (m : ASTNode) :
    eliminate_if m = m ∨
      ((eliminate_if m).type = NodeType.NODE_SEQUENCE ∧ (eliminate_if m).children = []) ∨
      eliminate_if m ∈ m.children := by
  unfold eliminate_if
  split
  · split
    · next cond then_branch rest hc =>
      split
      · split
        · exact Or.inr (Or.inl ⟨rfl, rfl⟩)
        · right; right
          rw [clone_ast_id, hc]
          simp
      · exact Or.inl rfl
    · exact Or.inl rfl
  · exact Or.inl rfl

theorem unroll_for_shape (m : ASTNode) :
    unroll_for m = m ∨
      ((unroll_for m).type = NodeType.NODE_SEQUENCE ∧
        ∀ c ∈ (unroll_for m).children, c ∈ m.children) := by
  unfold unroll_for
  dsimp only
  split
  · split
    · next init cond update body hc =>
      split
      · split
        · split
          · right
            refine ⟨rfl, ?_⟩
            intro c hmem
            simp only [unroll_replicas, clone_ast_id] at hmem
            rw [List.eq_of_mem_replicate hmem, hc]
            simp
          · exact Or.inl rfl
        · exact Or.inl rfl
      · exact Or.inl rfl
    · exact Or.inl rfl
  · exact Or.inl rfl

theorem optimize_node_shape (m : ASTNode) (H : ∀ c ∈ m.children, optimize_ast c = c) :
    optimize_node m = m ∨ optimize_node m ∈ m.children ∨
      ((optimize_node m).type = NodeType.NODE_INT ∨
          (optimize_node m).type = NodeType.NODE_SEQUENCE) ∧
        ∀ c ∈ (optimize_node m).children, c ∈ m.children := by
  have inert_rest : ∀ b : ASTNode, (b.type = NodeType.NODE_INT ∨ b.type = NodeType.NODE_SEQUENCE) →
      unroll_for (eliminate_if b) = b := by
    intro b hb
    rcases hb with hb | hb <;> simp [eliminate_if, unroll_for, hb]
  unfold optimize_node
  rcases fold_binary_shape m with hb | ⟨hbt, hbc⟩
  · rw [hb]
    rcases fold_unary_shape m with hu | hu | ⟨r, hu, hrt, hrc⟩
    · rw [hu]
      exact Or.inl rfl
    · rw [hu]
      dsimp only
      rcases eliminate_if_shape m with he | ⟨het, hec⟩ | hmem
      · rw [he]
        rcases unroll_for_shape m with h1 | ⟨h1, h2⟩
        · exact Or.inl h1
        · exact Or.inr (Or.inr ⟨Or.inr h1, h2⟩)
      · rw [unroll_for_of_type_ne _ (by rw [het]; decide)]
        exact Or.inr (Or.inr ⟨Or.inr het, by rw [hec]; simp⟩)
      · have hfix := H _ hmem
        have : unroll_for (eliminate_if m) = eliminate_if m := by
          rw [← hfix]
          exact unroll_for_optimize_ast _
        rw [this]
        exact Or.inr (Or.inl hmem)
    · rw [hu]
      dsimp only
      rw [inert_rest r (Or.inl hrt)]
      exact Or.inr (Or.inr ⟨Or.inl hrt, by rw [hrc]; simp⟩)
  · have hu : fold_unary (fold_binary m) = some (fold_binary m) := by
      simp [fold_unary, hbt]
    rw [hu]
    dsimp only
    rw [inert_rest _ (Or.inl hbt)]
    exact Or.inr (Or.inr ⟨Or.inl hbt, by rw [hbc]; simp⟩)

theorem optimize_node_fixed (m : ASTNode) (H : ∀ c ∈ m.children, optimize_ast c = c) :
    optimize_ast (optimize_node m) = optimize_node m := by
  rcases optimize_node_shape m H with h | h | ⟨ht, hc⟩
  · rw [h, optimize_ast_of_fixed_children m H, h]
  · exact H _ h
  · rw [optimize_ast_of_fixed_children _ (fun c hc' => H c (hc c hc'))]
    exact optimize_node_inert _ ht

mutual
theorem optimize_ast_fixed : ∀ t : ASTNode, optimize_ast (optimize_ast t) = optimize_ast t
  | ⟨ty, nm, iv, sv, o, cs⟩ => by
    have ih := optimize_children_fixed cs
    rw [optimize_ast_eq ⟨ty, nm, iv, sv, o, cs⟩]
    apply optimize_node_fixed
    intro c hc
    simp only [List.mem_map] at hc
    obtain ⟨c0, hc0, rfl⟩ := hc
    exact ih c0 hc0
theorem optimize_children_fixed : ∀ cs : List ASTNode,
    ∀ c ∈ cs, optimize_ast (optimize_ast c) = optimize_ast c
  | [], c, h => by cases h
  | c0 :: cs, c, h => by
    rcases List.mem_cons.1 h with h | h
    · rw [h]
      exact optimize_ast_fixed c0
    · exact optimize_children_fixed cs c h
end

theorem clone_children_eq_map (cs : List ASTNode) :
    clone_children cs = cs.map clone_ast := by
  induction cs with
  | nil => simp [clone_children]
  | cons c cs ih => simp [clone_children, ih]

/-- C17: for every tree `t`, `clone_ast t` (a total function) is a tree equal
to `t`: the same kind, `int_value`, name, `string_value` and operator, and the
same number of children in the same order, each the clone of the corresponding
child; the clone of a leaf is a leaf. -/
theorem clone_ast_structural (t : ASTNode) :
    clone_ast t = t ∧
    (clone_ast t).type = t.type ∧ (clone_ast t).int_value = t.int_value ∧
    (clone_ast t).name = t.name ∧ (clone_ast t).string_value = t.string_value ∧
    (clone_ast t).op = t.op ∧
    (clone_ast t).children = t.children.map clone_ast ∧
    (clone_ast t).children.length = t.children.length ∧
    ((clone_ast t).children = [] ↔ t.children = []) := by
  have hmap : (clone_ast t).children = t.children.map clone_ast := by
    cases t
    simp [clone_ast, clone_children_eq_map]
  refine ⟨clone_ast_id t, ?_, ?_, ?_, ?_, ?_, hmap, ?_, ?_⟩ <;> rw [clone_ast_id]

/-- C19: `optimize_ast` only traverses a node it has no rule for: the result
is the node with each child replaced by `optimize_ast` of that child (same
kind, name, `int_value`, `string_value`, operator and number of children)
when the kind is not `BINARY_EXPR`, `UNARY_EXPR`, `IF_STMT` or `FOR_STMT`,
when the node is an `IF_STMT` with fewer than two children or whose optimized
condition is not an `INT`, and when it is a `FOR_STMT` that does not have
exactly four children. -/
theorem unmatched_nodes_only_traversed (n : ASTNode) :
    (n.type ≠ NodeType.NODE_BINARY_EXPR → n.type ≠ NodeType.NODE_UNARY_EXPR →
      n.type ≠ NodeType.NODE_IF_STMT → n.type ≠ NodeType.NODE_FOR_STMT →
      optimize_ast n = { n with children := n.children.map optimize_ast }) ∧
    (n.type = NodeType.NODE_IF_STMT → n.children.length < 2 →
      optimize_ast n = { n with children := n.children.map optimize_ast }) ∧
    (n.type = NodeType.NODE_IF_STMT →
      (∀ cond rest, n.children = cond :: rest →
        (optimize_ast cond).type ≠ NodeType.NODE_INT) →
      optimize_ast n = { n with children := n.children.map optimize_ast }) ∧
    (n.type = NodeType.NODE_FOR_STMT → n.children.length ≠ 4 →
      optimize_ast n = { n with children := n.children.map optimize_ast }) := by
  refine ⟨?_, ?_, ?_, ?_⟩
  · intro h1 h2 h3 h4
    rw [optimize_ast_eq]
    simp [optimize_node, fold_binary, fold_unary, eliminate_if, unroll_for, h1, h2, h3, h4]
  · intro h hlen
    rw [optimize_ast_eq]
    obtain ⟨ty, nm, iv, sv, o, cs⟩ := n
    simp only at h hlen
    subst h
    match cs, hlen with
    | [], _ => simp [optimize_node, fold_binary, fold_unary, eliminate_if, unroll_for]
    | [c], _ => simp [optimize_node, fold_binary, fold_unary, eliminate_if, unroll_for]
  · intro h hcond
    rw [optimize_ast_eq]
    obtain ⟨ty, nm, iv, sv, o, cs⟩ := n
    simp only at h hcond
    subst h
    match cs, hcond with
    | [], _ => simp [optimize_node, fold_binary, fold_unary, eliminate_if, unroll_for]
    | [c], _ => simp [optimize_node, fold_binary, fold_unary, eliminate_if, unroll_for]
    | c :: d :: rest, hcond =>
      have := hcond c (d :: rest) rfl
      simp [optimize_node, fold_binary, fold_unary, eliminate_if, unroll_for, this]
  · intro h hlen
    rw [optimize_ast_eq]
    obtain ⟨ty, nm, iv, sv, o, cs⟩ := n
    simp only at h hlen
    subst h
    match cs, hlen with
    | [], _ => simp [optimize_node, fold_binary, fold_unary, eliminate_if, unroll_for]
    | [_], _ => simp [optimize_node, fold_binary, fold_unary, eliminate_if, unroll_for]
    | [_, _], _ => simp [optimize_node, fold_binary, fold_unary, eliminate_if, unroll_for]
    | [_, _, _], _ => simp [optimize_node, fold_binary, fold_unary, eliminate_if, unroll_for]
    | _ :: _ :: _ :: _ :: _ :: _, _ =>
      simp [optimize_node, fold_binary, fold_unary, eliminate_if, unroll_for]
    | [_, _, _, _], hlen => exact absurd rfl hlen

/-- C19, witness: a `RETURN_STMT` over the sum `1 + 2`, an `IF_STMT` with the
single child `1 + 2`, an `IF_STMT` whose condition is a variable and a
`FOR_STMT` with one child keep their shape, the sum being folded to
`INT (3)`. -/
theorem unmatched_nodes_only_traversed_witness :
    optimize_ast (plain_node NodeType.NODE_RETURN_STMT
        [binary_node "+" (int_leaf 1) (int_leaf 2)])
      = plain_node NodeType.NODE_RETURN_STMT [int_leaf 3] ∧
    optimize_ast (plain_node NodeType.NODE_IF_STMT
        [binary_node "+" (int_leaf 1) (int_leaf 2)])
      = plain_node NodeType.NODE_IF_STMT [int_leaf 3] ∧
    optimize_ast (plain_node NodeType.NODE_IF_STMT
        [var_leaf "c", binary_node "+" (int_leaf 1) (int_leaf 2)])
      = plain_node NodeType.NODE_IF_STMT [var_leaf "c", int_leaf 3] ∧
    optimize_ast (plain_node NodeType.NODE_FOR_STMT
        [binary_node "+" (int_leaf 1) (int_leaf 2)])
      = plain_node NodeType.NODE_FOR_STMT [int_leaf 3] :=
  ⟨(unmatched_nodes_only_traversed (plain_node NodeType.NODE_RETURN_STMT
      [binary_node "+" (int_leaf 1) (int_leaf 2)])).1
      (by decide) (by decide) (by decide) (by decide),
   (unmatched_nodes_only_traversed (plain_node NodeType.NODE_IF_STMT
      [binary_node "+" (int_leaf 1) (int_leaf 2)])).2.1 rfl (by decide),
   (unmatched_nodes_only_traversed (plain_node NodeType.NODE_IF_STMT
      [var_leaf "c", binary_node "+" (int_leaf 1) (int_leaf 2)])).2.2.1 rfl
      (fun cond rest h => by
        have hc : cond = var_leaf "c" := (List.cons.inj h).1.symm
        rw [hc]
        decide),
   (unmatched_nodes_only_traversed (plain_node NodeType.NODE_FOR_STMT
      [binary_node "+" (int_leaf 1) (int_leaf 2)])).2.2.2 rfl (by decide)⟩

/-! ## The reader: errors -/

/-- A text whose first line is indented, or has an unknown kind or an
unclosed parenthesis, is refused: `parse_ast` returns no tree. -/
theorem parse_ast_none_of_bad_first_line (f line rest : List Char)
    (hline : fgets f = some (line, rest))
    (hbad : count_leading_spaces line ≠ 0 ∨
      (parse_line (line.drop (count_leading_spaces line))).1 = NodeType.NODE_UNKNOWN) :
    parse_ast f = none := by
  unfold parse_ast
  have h2 : 2 * f.length + 2 = (2 * f.length + 1) + 1 := rfl
  rw [h2, parse_ast_recursive, hline]
  rcases hbad with h | h
  · have hpos : count_leading_spaces line > 0 := Nat.pos_of_ne_zero h
    simp [hpos]
  · by_cases h0 : count_leading_spaces line > 0
    · simp [h0]
    · simp only [Nat.not_lt_zero, if_false, h0]
      generalize parse_line (line.drop (count_leading_spaces line)) = r at h
      obtain ⟨t, arg⟩ := r
      simp only at h
      subst h
      rfl

/-- C13, failing input: a line of unknown kind, or with an unclosed
parenthesis, below the root does not fail the parse: `parse_ast` returns the
tree read so far, without the bad line and what follows it.  (At the root the
same lines give no tree.) -/
theorem unknown_kind_truncates_tree :
    parse_ast "SEQUENCE\n  BOGUS\n  INT (1)\n".data
      = some (plain_node NodeType.NODE_SEQUENCE []) ∧
    parse_ast "SEQUENCE\n  VAR (x\n  INT (1)\n".data
      = some (plain_node NodeType.NODE_SEQUENCE []) ∧
    parse_ast "FUNCTION_DEF (main)\n  SEQUENCE\n    INT (1)\n    BOGUS (2)\n    INT (3)\n".data
      = some { calloc_node NodeType.NODE_FUNCTION_DEF with
                 name := some "main",
                 children := [plain_node NodeType.NODE_SEQUENCE [int_leaf 1]] } ∧
    parse_ast "BOGUS\n".data = none ∧
    parse_ast "VAR (x\n".data = none :=
  ⟨rfl, rfl, rfl, rfl, rfl⟩

/-- C14, failing input: a child indented by four spaces directly under the
root, or a line indented too deep further down, does not fail the parse:
`parse_ast` returns the tree read so far.  (A first line that is indented
gives no tree.) -/
theorem deep_indentation_truncates_tree :
    parse_ast "SEQUENCE\n    INT (1)\n".data = some (plain_node NodeType.NODE_SEQUENCE []) ∧
    parse_ast "SEQUENCE\n  IF_STMT\n    VAR (c)\n        INT (1)\n    INT (2)\n".data
      = some (plain_node NodeType.NODE_SEQUENCE
          [plain_node NodeType.NODE_IF_STMT [var_leaf "c"]]) ∧
    parse_ast "  SEQUENCE\n".data = none :=
  ⟨rfl, rfl, rfl⟩

/-- C16, failing input: from the line `STRING ("hello")` the reader of
`ast_optimize.c` builds a `STRING` node whose `string_value` is the text with
its two quote characters, not `hello`; written back, the line has the quotes
twice. -/
theorem string_quotes_kept :
    parse_ast "STRING (\"hello\")\n".data
      = some { calloc_node NodeType.NODE_STRING with string_value := some "\"hello\"" } ∧
    (parse_ast "STRING (\"hello\")\n".data).map (fun t => t.string_value)
      ≠ some (some "hello") ∧
    (parse_ast "STRING (\"hello\")\n".data).map (fun t => print_ast_to_file t 0)
      = some "STRING (\"\"hello\"\")\n".data :=
  ⟨rfl, by decide, by decide⟩

/-! ## Numbers in decimal -/

theorem digit_char_facts (d : Nat) (h : d < 10) :
    (digit_char d).isDigit = true ∧ (digit_char d).toNat - 48 = d ∧
    digit_char d ≠ ')' ∧ digit_char d ≠ '\n' ∧ digit_char d ≠ '-' ∧ digit_char d ≠ '+' ∧
    isspace (digit_char d) = false := by
  interval_cases d <;> decide

theorem print_nat_digits_append (fuel n : Nat) (acc : List Char) :
    print_nat_digits fuel n acc = print_nat_digits fuel n [] ++ acc := by
  induction fuel generalizing n acc with
  | zero => simp [print_nat_digits]
  | succ fuel ih =>
    simp only [print_nat_digits]
    split_ifs
    · simp
    · rw [ih (n / 10) (digit_char (n % 10) :: acc), ih (n / 10) [digit_char (n % 10)]]
      simp

theorem print_nat_digits_all_digits (fuel n : Nat) :
    ∀ c ∈ print_nat_digits fuel n [], ∃ d, d < 10 ∧ c = digit_char d := by
  induction fuel generalizing n with
  | zero => simp [print_nat_digits]
  | succ fuel ih =>
    intro c hc
    simp only [print_nat_digits] at hc
    split_ifs at hc
    · simp only [List.mem_singleton] at hc
      exact ⟨n % 10, Nat.mod_lt _ (by decide), hc⟩
    · rw [print_nat_digits_append] at hc
      rcases List.mem_append.1 hc with h | h
      · exact ih _ c h
      · simp only [List.mem_singleton] at h
        exact ⟨n % 10, Nat.mod_lt _ (by decide), h⟩

theorem atoi_digits_append_digit (ds : List Char) (d acc : Nat) (hd : d < 10)
    (hds : ∀ c ∈ ds, ∃ e, e < 10 ∧ c = digit_char e) :
    atoi_digits (ds ++ [digit_char d]) acc = atoi_digits ds acc * 10 + d := by
  induction ds generalizing acc with
  | nil =>
    simp [atoi_digits, (digit_char_facts d hd).1, (digit_char_facts d hd).2.1]
  | cons c ds ih =>
    obtain ⟨e, he, rfl⟩ := hds c (List.mem_cons_self _ _)
    simp only [List.cons_append, atoi_digits, (digit_char_facts e he).1, if_true]
    exact ih _ (fun x hx => hds x (List.mem_cons_of_mem _ hx))

theorem atoi_digits_print_nat_digits (fuel n : Nat) (h : n < fuel) :
    atoi_digits (print_nat_digits fuel n []) 0 = n := by
  induction fuel generalizing n with
  | zero => omega
  | succ fuel ih =>
    simp only [print_nat_digits]
    split_ifs with h0
    · have hlt : n < 10 := by omega
      have hmod : n % 10 = n := Nat.mod_eq_of_lt hlt
      rw [hmod]
      simp [atoi_digits, (digit_char_facts n hlt).1, (digit_char_facts n hlt).2.1]
    · rw [print_nat_digits_append,
        atoi_digits_append_digit _ _ _ (Nat.mod_lt _ (by decide))
          (print_nat_digits_all_digits fuel (n / 10)),
        ih (n / 10) (by omega)]
      omega

theorem atoi_digits_print_nat (n : Nat) : atoi_digits (print_nat n) 0 = n :=
  atoi_digits_print_nat_digits (n + 1) n (Nat.lt_succ_self n)

theorem print_nat_all_digits (n : Nat) : ∀ c ∈ print_nat n, ∃ d, d < 10 ∧ c = digit_char d :=
  print_nat_digits_all_digits (n + 1) n

theorem print_nat_ne_nil (n : Nat) : print_nat n ≠ [] := by
  unfold print_nat
  simp only [print_nat_digits]
  split_ifs
  · simp
  · rw [print_nat_digits_append]
    simp

theorem atoi_print_int (n : Int) (h : fits_int n) : atoi (print_int n) = n := by
  unfold print_int
  split_ifs with hneg
  · have : atoi ('-' :: print_nat n.natAbs) = wrap_int (-(atoi_digits (print_nat n.natAbs) 0 : Nat)) := by
      simp [atoi, isspace]
    rw [this, atoi_digits_print_nat]
    have hn : -((n.natAbs : Nat) : Int) = n := by omega
    rw [hn]
    exact wrap_int_of_fits h
  · obtain ⟨c, cs, hcs⟩ := List.exists_cons_of_ne_nil (print_nat_ne_nil n.toNat)
    obtain ⟨d, hd, hc⟩ := print_nat_all_digits n.toNat c (by rw [hcs]; simp)
    have hf := digit_char_facts d hd
    have : atoi (print_nat n.toNat) = wrap_int (atoi_digits (print_nat n.toNat) 0 : Nat) := by
      rw [hcs, hc]
      simp [atoi, List.dropWhile, hf.2.2.2.2.2.2, hf.2.2.2.2.1, hf.2.2.2.2.2.1]
    rw [this, atoi_digits_print_nat]
    have hn : ((n.toNat : Nat) : Int) = n := by omega
    rw [hn]
    exact wrap_int_of_fits h

theorem print_int_plain (n : Int) : ∀ c ∈ print_int n, c ≠ ')' ∧ c ≠ '\n' := by
  intro c hc
  unfold print_int at hc
  have key : ∀ m : Nat, c ∈ print_nat m → c ≠ ')' ∧ c ≠ '\n' := by
    intro m hm
    obtain ⟨d, hd, rfl⟩ := print_nat_all_digits m c hm
    exact ⟨(digit_char_facts d hd).2.2.1, (digit_char_facts d hd).2.2.2.1⟩
  split_ifs at hc
  · rcases List.mem_cons.1 hc with h | h
    · rw [h]; decide
    · exact key _ h
  · exact key _ hc

/-! ## Reading one line -/

theorem kind_name_facts (t : NodeType) :
    (∀ c ∈ kind_name t, (c != ' ' && c != '(' && c != '\n') = true) ∧
    (kind_name t).length ≤ 63 ∧
    node_type_from_string (String.mk (kind_name t)) = t ∧
    (∀ c ∈ kind_name t, c ≠ ' ' ∧ c ≠ '\n') ∧
    (∃ c cs, kind_name t = c :: cs ∧ c ≠ ' ') := by
  cases t <;> refine ⟨by decide, by decide, by decide, by decide, _, _, rfl, by decide⟩

theorem takeWhile_append_stop {p : Char → Bool} (l : List Char) (a : Char) (r : List Char)
    (hl : ∀ c ∈ l, p c = true) (ha : p a = false) :
    (l ++ a :: r).takeWhile p = l := by
  induction l with
  | nil => simp [List.takeWhile, ha]
  | cons c l ih =>
    have hc : p c = true := hl c (List.mem_cons_self _ _)
    have ih2 := ih (fun x hx => hl x (List.mem_cons_of_mem _ hx))
    simp [List.takeWhile, hc, ih2]

theorem takeWhile_all {p : Char → Bool} (l : List Char) (hl : ∀ c ∈ l, p c = true) :
    l.takeWhile p = l := by
  induction l with
  | nil => rfl
  | cons c l ih =>
    have hc : p c = true := hl c (List.mem_cons_self _ _)
    simp only [List.takeWhile, hc]
    rw [ih (fun x hx => hl x (List.mem_cons_of_mem _ hx))]

/-- The kind token of a line that starts with a kind name followed by a
character that ends the token. -/
theorem parse_line_token (t : NodeType) (a : Char) (r : List Char)
    (ha : (a != ' ' && a != '(' && a != '\n') = false) :
    ((kind_name t ++ a :: r).takeWhile (fun c => c != ' ' && c != '(' && c != '\n')).take 63
      = kind_name t := by
  rw [takeWhile_append_stop _ _ _ (kind_name_facts t).1 ha]
  exact List.take_of_length_le (kind_name_facts t).2.1

theorem parse_line_kind_only (t : NodeType) (ht : t ≠ NodeType.NODE_UNKNOWN) :
    parse_line (kind_name t ++ ['\n']) = (t, none) := by
  unfold parse_line
  rw [parse_line_token t '\n' [] (by decide)]
  simp only [(kind_name_facts t).2.2.1, ht, if_false, List.drop_left]
  rfl

theorem parse_line_kind_arg (t : NodeType) (ht : t ≠ NodeType.NODE_UNKNOWN)
    (w a rest : List Char) (hw : ∀ c ∈ w, c = ' ' ∨ c = '\t') (ha : ∀ c ∈ a, c ≠ ')') :
    parse_line (kind_name t ++ ' ' :: (w ++ '(' :: (a ++ ')' :: rest)))
      = (t, some (String.mk a)) ∧
    parse_line (kind_name t ++ '(' :: (a ++ ')' :: rest)) = (t, some (String.mk a)) := by
  have harg : (a ++ ')' :: rest).takeWhile (fun c => c != ')') = a :=
    takeWhile_append_stop a ')' rest (fun c hc => by simpa using ha c hc) (by decide)
  have hskip : skip_spaces (' ' :: (w ++ '(' :: (a ++ ')' :: rest))) = '(' :: (a ++ ')' :: rest) := by
    unfold skip_spaces
    have : (' ' :: (w ++ '(' :: (a ++ ')' :: rest))) = (' ' :: w) ++ '(' :: (a ++ ')' :: rest) := rfl
    rw [this, List.dropWhile_append_of_pos]
    · simp [List.dropWhile]
    · intro c hc
      rcases List.mem_cons.1 hc with h | h
      · rw [h]; decide
      · rcases hw c h with h | h <;> rw [h] <;> decide
  constructor
  · unfold parse_line
    rw [parse_line_token t ' ' _ (by decide)]
    simp only [(kind_name_facts t).2.2.1, ht, if_false, List.drop_left, hskip, if_true, harg]
  · unfold parse_line
    rw [parse_line_token t '(' _ (by decide)]
    have hskip2 : skip_spaces ('(' :: (a ++ ')' :: rest)) = '(' :: (a ++ ')' :: rest) := by
      simp [skip_spaces, List.dropWhile]
    simp only [(kind_name_facts t).2.2.1, ht, if_false, List.drop_left, hskip2, if_true, harg]

theorem fgets_chars_line (n : Nat) (l rest : List Char) (hl : ∀ c ∈ l, c ≠ '\n')
    (hn : l.length < n) : fgets_chars n (l ++ '\n' :: rest) = (l ++ ['\n'], rest) := by
  induction l generalizing n with
  | nil =>
    obtain ⟨m, rfl⟩ : ∃ m, n = m + 1 := ⟨n - 1, by simp at hn; omega⟩
    simp [fgets_chars]
  | cons c l ih =>
    obtain ⟨m, rfl⟩ : ∃ m, n = m + 1 := ⟨n - 1, by simp at hn; omega⟩
    have hc : c ≠ '\n' := hl c (List.mem_cons_self _ _)
    have ih2 := ih m (fun x hx => hl x (List.mem_cons_of_mem _ hx)) (by simp at hn; omega)
    simp [fgets_chars, hc, ih2]

theorem fgets_line (l rest : List Char) (hl : ∀ c ∈ l, c ≠ '\n')
    (hn : l.length + 1 < MAX_LINE_LEN) :
    fgets (l ++ '\n' :: rest) = some (l ++ ['\n'], rest) := by
  unfold fgets
  have : ∃ c cs, l ++ '\n' :: rest = c :: cs := by
    cases l with
    | nil => exact ⟨_, _, rfl⟩
    | cons c l => exact ⟨_, _, rfl⟩
  obtain ⟨c, cs, h⟩ := this
  rw [h]
  simp only
  rw [← h, fgets_chars_line _ l rest hl (by unfold MAX_LINE_LEN at *; omega)]

theorem count_leading_spaces_indent (k : Nat) (c : Char) (r : List Char) (hc : c ≠ ' ') :
    count_leading_spaces (List.replicate k ' ' ++ c :: r) = k := by
  unfold count_leading_spaces
  rw [takeWhile_append_stop _ _ _ (by simp) (by simpa using hc)]
  simp

theorem plain_text_iff (l : List Char) :
    plain_text l = true ↔ ∀ c ∈ l, c ≠ ')' ∧ c ≠ '\n' := by
  simp [plain_text, List.all_eq_true]

/-- The line of a node that is read back as itself: either the bare kind name,
on a node with zero fields, or the kind name, a space and a parenthesized
argument without `)` or newline from which `node_of_line` rebuilds the
fields. -/
theorem line_argument_shape (n : ASTNode) (hr : reader_fields n = true)
    (hk : round_trip_kind n = true) :
    (line_argument n = [] ∧ node_of_line n.type none = { n with children := [] }) ∨
    ∃ a : List Char, line_argument n = ' ' :: '(' :: (a ++ [')']) ∧
      (∀ c ∈ a, c ≠ ')' ∧ c ≠ '\n') ∧
      node_of_line n.type (some (String.mk a)) = { n with children := [] } := by
  obtain ⟨ty, nm, iv, sv, o, cs⟩ := n
  cases ty
  case NODE_UNKNOWN => simp [reader_fields] at hr
  case NODE_STRING => simp [round_trip_kind] at hk
  case NODE_INT =>
    right
    simp only [reader_fields, Bool.and_eq_true, beq_iff_eq, decide_eq_true_eq] at hr
    obtain ⟨⟨⟨h1, h2⟩, h3⟩, h4⟩ := hr
    subst h1 h3 h4
    refine ⟨print_int iv, rfl, print_int_plain iv, ?_⟩
    simp [node_of_line, calloc_node, atoi_print_int iv h2]
  case NODE_BINARY_EXPR =>
    right
    simp only [reader_fields, Bool.and_eq_true, beq_iff_eq, decide_eq_true_eq] at hr
    obtain ⟨⟨⟨⟨h1, h2⟩, h3⟩, h4⟩, h5⟩ := hr
    subst h1 h2 h3
    refine ⟨o.data, rfl, (plain_text_iff _).1 h4, ?_⟩
    simp [node_of_line, calloc_node, List.take_of_length_le h5]
  case NODE_UNARY_EXPR =>
    right
    simp only [reader_fields, Bool.and_eq_true, beq_iff_eq, decide_eq_true_eq] at hr
    obtain ⟨⟨⟨⟨h1, h2⟩, h3⟩, h4⟩, h5⟩ := hr
    subst h1 h2 h3
    refine ⟨o.data, rfl, (plain_text_iff _).1 h4, ?_⟩
    simp [node_of_line, calloc_node, List.take_of_length_le h5]
  case NODE_FUNCTION_DEF =>
    right
    simp only [reader_fields, Bool.and_eq_true, beq_iff_eq] at hr
    obtain ⟨⟨⟨h1, h2⟩, h3⟩, h4⟩ := hr
    subst h2 h3 h4
    obtain ⟨s, rfl⟩ := Option.isSome_iff_exists.1 (by simpa [round_trip_kind] using hk)
    exact ⟨s.data, rfl, (plain_text_iff _).1 h1, by simp [node_of_line, calloc_node]⟩
  case NODE_DECLARATION =>
    right
    simp only [reader_fields, Bool.and_eq_true, beq_iff_eq] at hr
    obtain ⟨⟨⟨h1, h2⟩, h3⟩, h4⟩ := hr
    subst h2 h3 h4
    obtain ⟨s, rfl⟩ := Option.isSome_iff_exists.1 (by simpa [round_trip_kind] using hk)
    exact ⟨s.data, rfl, (plain_text_iff _).1 h1, by simp [node_of_line, calloc_node]⟩
  case NODE_VAR =>
    right
    simp only [reader_fields, Bool.and_eq_true, beq_iff_eq] at hr
    obtain ⟨⟨⟨h1, h2⟩, h3⟩, h4⟩ := hr
    subst h2 h3 h4
    obtain ⟨s, rfl⟩ := Option.isSome_iff_exists.1 (by simpa [round_trip_kind] using hk)
    exact ⟨s.data, rfl, (plain_text_iff _).1 h1, by simp [node_of_line, calloc_node]⟩
  case NODE_FUNCTION_CALL =>
    right
    simp only [reader_fields, Bool.and_eq_true, beq_iff_eq] at hr
    obtain ⟨⟨⟨h1, h2⟩, h3⟩, h4⟩ := hr
    subst h2 h3 h4
    obtain ⟨s, rfl⟩ := Option.isSome_iff_exists.1 (by simpa [round_trip_kind] using hk)
    exact ⟨s.data, rfl, (plain_text_iff _).1 h1, by simp [node_of_line, calloc_node]⟩
  all_goals
    left
    simp only [reader_fields, Bool.and_eq_true, beq_iff_eq] at hr
    obtain ⟨⟨⟨h1, h2⟩, h3⟩, h4⟩ := hr
    subst h1 h2 h3 h4
    exact ⟨rfl, rfl⟩

theorem type_ne_unknown_of_reader_fields (n : ASTNode) (hr : reader_fields n = true) :
    n.type ≠ NodeType.NODE_UNKNOWN := by
  intro h
  obtain ⟨ty, nm, iv, sv, o, cs⟩ := n
  simp only at h
  subst h
  simp [reader_fields] at hr

/-- What the reader makes of the line written for a node that is read back as
itself: the node, without its children. -/
theorem parse_line_node_line (n : ASTNode) (hr : reader_fields n = true)
    (hk : round_trip_kind n = true) :
    ∃ arg, parse_line (node_line n ++ ['\n']) = (n.type, arg) ∧
      node_of_line n.type arg = { n with children := [] } := by
  have ht := type_ne_unknown_of_reader_fields n hr
  rcases line_argument_shape n hr hk with ⟨h1, h2⟩ | ⟨a, h1, h2, h3⟩
  · refine ⟨none, ?_, h2⟩
    unfold node_line
    rw [h1, List.append_nil]
    exact parse_line_kind_only n.type ht
  · refine ⟨some (String.mk a), ?_, h3⟩
    unfold node_line
    rw [h1]
    have := (parse_line_kind_arg n.type ht [] a ['\n'] (by simp) (fun c hc => (h2 c hc).1)).1
    simpa using this

theorem node_line_no_newline (n : ASTNode) (hr : reader_fields n = true)
    (hk : round_trip_kind n = true) : ∀ c ∈ node_line n, c ≠ '\n' := by
  intro c hc
  unfold node_line at hc
  rcases List.mem_append.1 hc with h | h
  · exact ((kind_name_facts n.type).2.2.2.1 c h).2
  · rcases line_argument_shape n hr hk with ⟨h1, -⟩ | ⟨a, h1, h2, -⟩
    · rw [h1] at h
      cases h
    · rw [h1] at h
      simp only [List.mem_cons, List.mem_append, List.mem_singleton] at h
      rcases h with h | h | h | h
      · rw [h]; decide
      · rw [h]; decide
      · exact (h2 c h).2
      · simp at h
        rw [h]; decide

theorem node_line_head (n : ASTNode) : ∃ c cs, node_line n = c :: cs ∧ c ≠ ' ' := by
  obtain ⟨c, cs, h, hc⟩ := (kind_name_facts n.type).2.2.2.2
  exact ⟨c, cs ++ line_argument n, by unfold node_line; rw [h]; rfl, hc⟩

/-! ## Reading back a written tree -/

theorem parse_none_of_next_indent_lt (fuel : Nat) (rest : List Char) (k : Nat)
    (h : next_indent_lt rest k) : parse_ast_recursive fuel rest k = none := by
  cases fuel with
  | zero => rfl
  | succ fuel =>
    unfold next_indent_lt at h
    rw [parse_ast_recursive]
    split
    · rfl
    · next line r hf =>
      rw [hf] at h
      simp only at h
      simp [h]

theorem next_indent_lt_mono (rest : List Char) (k k2 : Nat) (hk : k ≤ k2)
    (h : next_indent_lt rest k) : next_indent_lt rest k2 := by
  unfold next_indent_lt at *
  split
  · trivial
  · next line r hf =>
    rw [hf] at h
    simp only at h
    omega

theorem reader_tree_unfold (t : ASTNode) :
    reader_tree t = (reader_fields t && decide (t.children.length ≤ MAX_CHILDREN) &&
      reader_trees t.children) := by
  cases t
  simp [reader_tree]

theorem round_trip_tree_unfold (t : ASTNode) (indent : Nat) :
    round_trip_tree t indent = (round_trip_kind t && line_fits t indent &&
      round_trip_trees t.children (indent + 2)) := by
  cases t
  simp [round_trip_tree]

theorem print_ast_to_file_unfold (t : ASTNode) (indent : Nat) :
    print_ast_to_file t indent
      = List.replicate indent ' ' ++ node_line t ++ '\n' :: print_children t.children (indent + 2) := by
  cases t
  simp [print_ast_to_file, print_indent_to_file]

/-- The first line `fgets` reads from the text written for a tree. -/
theorem fgets_print (t : ASTNode) (indent : Nat) (rest : List Char)
    (hr : reader_fields t = true) (hk : round_trip_kind t = true)
    (hl : line_fits t indent = true) :
    fgets (print_ast_to_file t indent ++ rest)
      = some (List.replicate indent ' ' ++ node_line t ++ ['\n'],
          print_children t.children (indent + 2) ++ rest) := by
  rw [print_ast_to_file_unfold]
  have h1 : List.replicate indent ' ' ++ node_line t ++ '\n' :: print_children t.children (indent + 2) ++ rest
      = (List.replicate indent ' ' ++ node_line t) ++ '\n' :: (print_children t.children (indent + 2) ++ rest) := by
    simp
  rw [h1]
  apply fgets_line
  · intro c hc
    rcases List.mem_append.1 hc with h | h
    · rw [List.eq_of_mem_replicate h]
      decide
    · exact node_line_no_newline t hr hk c h
  · simp only [line_fits, decide_eq_true_eq] at hl
    simp only [List.length_append, List.length_replicate]
    exact hl

theorem count_leading_spaces_line (t : ASTNode) (indent : Nat) :
    count_leading_spaces (List.replicate indent ' ' ++ node_line t ++ ['\n']) = indent := by
  obtain ⟨c, cs, h, hc⟩ := node_line_head t
  rw [h]
  have : List.replicate indent ' ' ++ c :: cs ++ ['\n']
      = List.replicate indent ' ' ++ c :: (cs ++ ['\n']) := by simp
  rw [this]
  exact count_leading_spaces_indent indent c _ hc

theorem next_indent_lt_print (t : ASTNode) (indent k : Nat) (rest : List Char)
    (hr : reader_fields t = true) (hk : round_trip_kind t = true)
    (hl : line_fits t indent = true) (hlt : indent < k) :
    next_indent_lt (print_ast_to_file t indent ++ rest) k := by
  unfold next_indent_lt
  rw [fgets_print t indent rest hr hk hl]
  simp only
  rw [count_leading_spaces_line]
  exact hlt

mutual
theorem read_back : ∀ (t : ASTNode) (indent fuel : Nat) (rest : List Char),
    reader_tree t = true → round_trip_tree t indent = true →
    next_indent_lt rest (indent + 2) → read_fuel t ≤ fuel →
    parse_ast_recursive fuel (print_ast_to_file t indent ++ rest) indent = some (t, rest)
  | ⟨ty, nm, iv, sv, o, cs⟩, indent, fuel, rest, hrt, hkt, hnext, hfuel => by
    have ih := read_back_children cs (indent + 2)
    simp only [reader_tree, Bool.and_eq_true, decide_eq_true_eq] at hrt
    obtain ⟨⟨hr, hlen⟩, hrs⟩ := hrt
    simp only [round_trip_tree, Bool.and_eq_true] at hkt
    obtain ⟨⟨hk, hl⟩, hks⟩ := hkt
    simp only [read_fuel] at hfuel
    obtain ⟨f2, rfl⟩ : ∃ f2, fuel = f2 + 1 := ⟨fuel - 1, by omega⟩
    obtain ⟨arg, hparse, hnode⟩ := parse_line_node_line _ hr hk
    have ht := type_ne_unknown_of_reader_fields _ hr
    simp only at hparse hnode ht
    have hcount := count_leading_spaces_line ⟨ty, nm, iv, sv, o, cs⟩ indent
    have hdrop : List.drop indent (List.replicate indent ' ' ++
        node_line ⟨ty, nm, iv, sv, o, cs⟩ ++ ['\n']) = node_line ⟨ty, nm, iv, sv, o, cs⟩ ++ ['\n'] := by
      rw [List.append_assoc]
      simp
    rw [parse_ast_recursive, fgets_print _ indent rest hr hk hl]
    simp only [hcount, Nat.lt_irrefl, if_false, gt_iff_lt, hdrop, hparse]
    have hch := ih f2 0 rest hrs hks (by omega) hnext (by omega)
    rw [hch, hnode]
theorem read_back_children : ∀ (cs : List ASTNode) (indent fuel count : Nat) (rest : List Char),
    reader_trees cs = true → round_trip_trees cs indent = true →
    count + cs.length ≤ MAX_CHILDREN → next_indent_lt rest indent → read_fuels cs ≤ fuel →
    parse_children fuel (print_children cs indent ++ rest) indent count = (cs, rest)
  | [], indent, fuel, count, rest, _, _, _, hnext, _ => by
    simp only [print_children, List.nil_append]
    cases fuel with
    | zero => rfl
    | succ fuel =>
      rw [parse_children, parse_none_of_next_indent_lt fuel rest indent hnext]
  | c :: cs, indent, fuel, count, rest, hrt, hkt, hcount, hnext, hfuel => by
    simp only [reader_trees, Bool.and_eq_true] at hrt
    simp only [round_trip_trees, Bool.and_eq_true] at hkt
    simp only [read_fuels] at hfuel
    simp only [List.length_cons] at hcount
    obtain ⟨f2, rfl⟩ : ∃ f2, fuel = f2 + 1 := ⟨fuel - 1, by omega⟩
    have hnext2 : next_indent_lt (print_children cs indent ++ rest) (indent + 2) := by
      cases cs with
      | nil =>
        simp only [print_children, List.nil_append]
        exact next_indent_lt_mono rest indent (indent + 2) (by omega) hnext
      | cons c2 cs2 =>
        simp only [print_children, List.append_assoc]
        simp only [reader_trees, Bool.and_eq_true] at hrt
        simp only [round_trip_trees, Bool.and_eq_true] at hkt
        have h1 := hrt.2.1
        have h2 := hkt.2.1
        rw [reader_tree_unfold] at h1
        rw [round_trip_tree_unfold] at h2
        simp only [Bool.and_eq_true] at h1 h2
        exact next_indent_lt_print c2 indent (indent + 2) _ h1.1.1 h2.1.1 h2.1.2 (by omega)
    have hnode := read_back c indent f2 (print_children cs indent ++ rest) hrt.1 hkt.1 hnext2
      (by omega)
    have hrest := read_back_children cs indent f2 (count + 1) rest hrt.2 hkt.2 (by omega) hnext
      (by omega)
    simp only [print_children, List.append_assoc]
    rw [parse_children, hnode]
    have hc : count < MAX_CHILDREN := by omega
    simp only [hc, if_true, hrest, List.cons]
end

mutual
theorem read_fuel_le_length : ∀ (t : ASTNode) (indent : Nat),
    read_fuel t + 1 ≤ (print_ast_to_file t indent).length
  | ⟨ty, nm, iv, sv, o, cs⟩, indent => by
    have ih := read_fuels_le_length cs (indent + 2)
    obtain ⟨c, l, h, -⟩ := node_line_head ⟨ty, nm, iv, sv, o, cs⟩
    simp only [read_fuel, print_ast_to_file, List.length_append, List.length_cons, h]
    omega
theorem read_fuels_le_length : ∀ (cs : List ASTNode) (indent : Nat),
    read_fuels cs ≤ (print_children cs indent).length
  | [], _ => by simp [read_fuels]
  | c :: cs, indent => by
    have h1 := read_fuel_le_length c indent
    have h2 := read_fuels_le_length cs indent
    simp only [read_fuels, print_children, List.length_append]
    omega
end

theorem next_indent_lt_nil (k : Nat) : next_indent_lt [] k := by
  simp [next_indent_lt, fgets]

/-- A tree with reader fields, at most `MAX_CHILDREN` children per node, no
`STRING` node, every name present and every written line within the line
buffer is read back from the text written for it. -/
theorem parse_print_round_trip (t : ASTNode) (hr : reader_tree t = true)
    (hk : round_trip_tree t 0 = true) :
    parse_ast (print_ast_to_file t 0) = some t := by
  have h := read_back t 0 (2 * (print_ast_to_file t 0).length + 2) [] hr hk
    (next_indent_lt_nil _) (by have := read_fuel_le_length t 0; omega)
  simp only [List.append_nil] at h
  simp [parse_ast, h]

/-! ## What the reader builds -/

theorem fits_int_wrap_int (x : Int) : fits_int (wrap_int x) := by
  unfold fits_int wrap_int INT_MIN INT_MAX
  omega

theorem fits_int_atoi (s : List Char) : fits_int (atoi s) := by
  unfold atoi
  split
  · decide
  · split_ifs <;> exact fits_int_wrap_int _

/-- A newline in a line stored by `fgets` is its last character. -/
theorem fgets_chars_newline_last (n : Nat) (f u v : List Char)
    (h : (fgets_chars n f).1 = u ++ '\n' :: v) : v = [] := by
  induction n generalizing f u with
  | zero =>
    simp [fgets_chars] at h
  | succ n ih =>
    cases f with
    | nil => simp [fgets_chars] at h
    | cons c f =>
      simp only [fgets_chars] at h
      split_ifs at h with hc
      · cases u with
        | nil =>
          simp at h
          exact h.2
        | cons a u =>
          simp at h
      · cases u with
        | nil =>
          simp at h
          exact absurd h.1 hc
        | cons a u =>
          simp only [List.cons_append, List.cons.injEq] at h
          exact ih f u h.2

/-- The argument `parse_line` stores lies between an opening parenthesis and a
closing one inside the line, and has no closing parenthesis. -/
theorem parse_line_arg_inside (l : List Char) (t : NodeType) (a : String)
    (h : parse_line l = (t, some a)) :
    (∃ pre x xs, l = pre ++ (a.data ++ x :: xs)) ∧ ∀ c ∈ a.data, c ≠ ')' := by
  unfold parse_line at h
  simp only at h
  split_ifs at h with hu
  · simp at h
  · split at h
    · next c start hs =>
      split_ifs at h with hc
      · split at h
        · simp at h
        · next x xs hd =>
          simp only [Prod.mk.injEq, Option.some.injEq] at h
          obtain ⟨-, ha⟩ := h
          have hdata : a.data = start.takeWhile (fun c => c != ')') := by rw [← ha]
          constructor
          · have hsuf : (c :: start) <:+ l := by
              rw [← hs]
              exact (List.dropWhile_suffix _).trans (List.drop_suffix _ _)
            obtain ⟨pre, hpre⟩ := hsuf
            refine ⟨pre ++ [c], x, xs, ?_⟩
            rw [← hpre, hdata, ← hd]
            simp only [List.append_assoc, List.singleton_append]
            congr 2
            have := List.take_append_drop (start.takeWhile (fun c => c != ')')).length start
            rw [← List.prefix_iff_eq_take.1 (List.takeWhile_prefix _)] at this
            exact this.symm
          · intro ch hch
            rw [hdata] at hch
            have := List.mem_takeWhile_imp hch
            simpa using this
      · simp at h
    · simp at h

theorem parse_line_arg_plain (n : Nat) (f : List Char) (k : Nat) (t : NodeType) (a : String)
    (h : parse_line ((fgets_chars n f).1.drop k) = (t, some a)) :
    plain_text a.data = true := by
  obtain ⟨⟨pre, x, xs, hl⟩, hp⟩ := parse_line_arg_inside _ t a h
  rw [plain_text_iff]
  intro c hc
  refine ⟨hp c hc, ?_⟩
  intro hnl
  subst hnl
  obtain ⟨u, v, huv⟩ := List.append_of_mem hc
  have hline : (fgets_chars n f).1
      = ((fgets_chars n f).1.take k ++ pre ++ u) ++ '\n' :: (v ++ x :: xs) := by
    conv_lhs => rw [← List.take_append_drop k (fgets_chars n f).1, hl, huv]
    simp
  have := fgets_chars_newline_last n f _ _ hline
  simp at this

theorem plain_text_take (l : List Char) (k : Nat) (h : plain_text l = true) :
    plain_text (l.take k) = true := by
  rw [plain_text_iff] at *
  exact fun c hc => h c (List.mem_of_mem_take hc)

theorem reader_fields_node_of_line (t : NodeType) (ht : t ≠ NodeType.NODE_UNKNOWN)
    (arg : Option String) (cs : List ASTNode)
    (harg : ∀ a, arg = some a → plain_text a.data = true) :
    reader_fields { node_of_line t arg with children := cs } = true := by
  cases arg with
  | none =>
    cases t <;> first | exact absurd rfl ht | rfl
  | some a =>
    have ha := harg a rfl
    cases t
    case NODE_UNKNOWN => exact absurd rfl ht
    case NODE_INT =>
      simp [node_of_line, calloc_node, reader_fields, fits_int_atoi]
    case NODE_BINARY_EXPR =>
      simp [node_of_line, calloc_node, reader_fields, plain_text_take _ 3 ha]
    case NODE_UNARY_EXPR =>
      simp [node_of_line, calloc_node, reader_fields, plain_text_take _ 3 ha]
    all_goals
      have hb := (plain_text_iff _).1 ha
      simp [node_of_line, calloc_node, reader_fields, str_or_empty, plain_text]
      try exact hb

mutual
theorem parse_ast_recursive_reader_tree : ∀ (fuel : Nat) (f : List Char) (k : Nat)
    (t : ASTNode) (r : List Char),
    parse_ast_recursive fuel f k = some (t, r) → reader_tree t = true
  | 0, _, _, _, _, h => by simp [parse_ast_recursive] at h
  | fuel + 1, f, k, t, r, h => by
    have ih := parse_children_reader_trees fuel
    rw [parse_ast_recursive] at h
    split at h
    · simp at h
    · next line rest hf =>
      have hline : line = (fgets_chars (MAX_LINE_LEN - 1) f).1 := by
        unfold fgets at hf
        split at hf
        · simp at hf
        · simp only [Option.some.injEq] at hf
          rw [hf]
      simp only at h
      split_ifs at h with h1 h2
      split at h
      · simp at h
      · next ty arg hne hp =>
        simp only [Option.some.injEq, Prod.mk.injEq] at h
        obtain ⟨ht, -⟩ := h
        rw [← ht, reader_tree_unfold]
        have hchildren := ih rest (k + 2) 0 (Nat.zero_le _)
        have hty : ty ≠ NodeType.NODE_UNKNOWN := hne
        have hfields := reader_fields_node_of_line ty hty arg
          (parse_children fuel rest (k + 2) 0).1 (fun a ha => by
            rw [ha, hline] at hp
            exact parse_line_arg_plain _ _ _ _ _ hp)
        simp only [Bool.and_eq_true, decide_eq_true_eq]
        exact ⟨⟨hfields, by have := hchildren.2; omega⟩, hchildren.1⟩
theorem parse_children_reader_trees : ∀ (fuel : Nat) (f : List Char) (k count : Nat),
    count ≤ MAX_CHILDREN →
    reader_trees (parse_children fuel f k count).1 = true ∧
      count + (parse_children fuel f k count).1.length ≤ MAX_CHILDREN
  | 0, _, _, _, hc => by simpa [parse_children, reader_trees] using hc
  | fuel + 1, f, k, count, hc => by
    rw [parse_children]
    split
    · simpa [reader_trees] using hc
    · next child rest hp =>
      split_ifs with hlt
      · have h1 := parse_ast_recursive_reader_tree fuel f k child rest hp
        have h2 := parse_children_reader_trees fuel rest k (count + 1) hlt
        simp only [reader_trees, h1, h2.1, Bool.and_self, List.length_cons, true_and, List.cons]
        have := h2.2
        omega
      · simpa [reader_trees] using hc
end

theorem parse_ast_reader_tree (f : List Char) (t : ASTNode) (h : parse_ast f = some t) :
    reader_tree t = true := by
  unfold parse_ast at h
  simp only [Option.map_eq_some'] at h
  obtain ⟨⟨t2, r⟩, hp, ht⟩ := h
  simp only at ht
  subst ht
  exact parse_ast_recursive_reader_tree _ _ _ _ _ hp

/-! ## Decimal numerals and written lines -/

theorem print_nat_digits_length (fuel n k : Nat) (h : n < 10 ^ (k + 1)) :
    (print_nat_digits fuel n []).length ≤ k + 1 := by
  induction fuel generalizing n k with
  | zero => simp [print_nat_digits]
  | succ fuel ih =>
    simp only [print_nat_digits]
    split_ifs with h0
    · simp
    · rw [print_nat_digits_append]
      cases k with
      | zero =>
        exfalso
        apply h0
        simp at h
        omega
      | succ k =>
        have hlt : n / 10 < 10 ^ (k + 1) := by
          rw [Nat.div_lt_iff_lt_mul (by decide)]
          calc n < 10 ^ (k + 1 + 1) := h
            _ = 10 ^ (k + 1) * 10 := by ring
        have := ih (n / 10) k hlt
        simp only [List.length_append, List.length_singleton]
        omega

theorem print_int_length (n : Int) (h : fits_int n) : (print_int n).length ≤ 11 := by
  unfold fits_int INT_MIN INT_MAX at h
  unfold print_int
  split_ifs
  · simp only [List.length_cons, print_nat]
    have := print_nat_digits_length (n.natAbs + 1) n.natAbs 9 (by norm_num; omega)
    omega
  · simp only [print_nat]
    have := print_nat_digits_length (n.toNat + 1) n.toNat 9 (by norm_num; omega)
    omega

theorem atoi_digits_eq_foldl (ds : List Char) (acc : Nat)
    (h : ∀ c ∈ ds, c.isDigit = true) :
    atoi_digits ds acc = ds.foldl (fun a c => a * 10 + (c.toNat - '0'.toNat)) acc := by
  induction ds generalizing acc with
  | nil => rfl
  | cons c ds ih =>
    have hc := h c (List.mem_cons_self _ _)
    simp only [atoi_digits, hc, if_true, List.foldl_cons]
    exact ih _ (fun x hx => h x (List.mem_cons_of_mem _ hx))

theorem isDigit_not_sign_or_space (c : Char) (h : c.isDigit = true) :
    c ≠ '-' ∧ c ≠ '+' ∧ isspace c = false := by
  refine ⟨?_, ?_, ?_⟩
  · rintro rfl
    exact absurd h (by decide)
  · rintro rfl
    exact absurd h (by decide)
  · by_contra hs
    simp only [isspace, Bool.not_eq_false, Bool.or_eq_true, beq_iff_eq] at hs
    rcases hs with ((((hs | hs) | hs) | hs) | hs) | hs <;> subst hs <;> exact absurd h (by decide)

theorem is_numeral_iff (ds : List Char) :
    is_numeral ds = true ↔ ds ≠ [] ∧ ∀ c ∈ ds, c.isDigit = true := by
  cases ds <;> simp [is_numeral]

/-- On a text that has a decimal value, `atoi` returns that value reduced to
an `int`. -/
theorem atoi_of_decimal_value (s : List Char) (v : Int) (h : decimal_value s = some v) :
    atoi s = wrap_int v := by
  unfold decimal_value at h
  split at h
  · simp at h
  · next c cs =>
    split_ifs at h with hm hn hn
    · simp only [Option.some.injEq] at h
      subst h hm
      obtain ⟨-, hd⟩ := (is_numeral_iff cs).1 hn
      have : atoi ('-' :: cs) = wrap_int (-(atoi_digits cs 0 : Nat)) := by
        simp [atoi, isspace]
      rw [this, atoi_digits_eq_foldl cs 0 hd]
      rfl
    · simp only [Option.some.injEq] at h
      subst h
      obtain ⟨-, hd⟩ := (is_numeral_iff (c :: cs)).1 hn
      have hc := isDigit_not_sign_or_space c (hd c (List.mem_cons_self _ _))
      have : atoi (c :: cs) = wrap_int (atoi_digits (c :: cs) 0 : Nat) := by
        simp [atoi, List.dropWhile, hc.1, hc.2.1, hc.2.2]
      rw [this, atoi_digits_eq_foldl (c :: cs) 0 hd]
      rfl

theorem text_lines_line (l rest : List Char) (hl : ∀ c ∈ l, c ≠ '\n') :
    text_lines (l ++ '\n' :: rest) = l :: text_lines rest := by
  induction l with
  | nil => simp [text_lines]
  | cons c l ih =>
    have hc : c ≠ '\n' := hl c (List.mem_cons_self _ _)
    have ih2 := ih (fun x hx => hl x (List.mem_cons_of_mem _ hx))
    simp [text_lines, hc, ih2]

theorem line_argument_no_newline (n : ASTNode) (h : newline_free n = true) :
    ∀ c ∈ line_argument n, c ≠ '\n' := by
  obtain ⟨ty, nm, iv, sv, o, cs⟩ := n
  intro c hc
  cases ty <;>
    simp only [line_argument, newline_free, List.all_eq_true, bne_iff_ne, ne_eq,
      List.mem_append, List.not_mem_nil] at h hc
  case NODE_INT =>
    rcases hc with (hc | hc) | hc
    · revert hc; revert c; decide
    · exact (print_int_plain iv c hc).2
    · revert hc; revert c; decide
  all_goals
    rcases hc with (hc | hc) | hc
    · revert hc; revert c; decide
    · exact h c hc
    · revert hc; revert c; decide

theorem node_line_newline_free (n : ASTNode) (h : newline_free n = true) :
    ∀ c ∈ node_line n, c ≠ '\n' := by
  intro c hc
  unfold node_line at hc
  rcases List.mem_append.1 hc with h1 | h1
  · exact ((kind_name_facts n.type).2.2.2.1 c h1).2
  · exact line_argument_no_newline n h c h1

mutual
theorem text_lines_print : ∀ (t : ASTNode) (d : Nat) (rest : List Char),
    (∀ p ∈ preorder t d, newline_free p.2 = true) →
    text_lines (print_ast_to_file t (2 * d) ++ rest)
      = (preorder t d).map (fun p => List.replicate (2 * p.1) ' ' ++ node_line p.2)
        ++ text_lines rest
  | ⟨ty, nm, iv, sv, o, cs⟩, d, rest, h => by
    have ih := text_lines_print_children cs (d + 1) rest
    simp only [preorder, List.mem_cons, forall_eq_or_imp] at h
    obtain ⟨h0, hcs⟩ := h
    have hline : ∀ c ∈ List.replicate (2 * d) ' ' ++ node_line ⟨ty, nm, iv, sv, o, cs⟩,
        c ≠ '\n' := by
      intro c hc
      rcases List.mem_append.1 hc with h1 | h1
      · rw [List.eq_of_mem_replicate h1]
        decide
      · exact node_line_newline_free _ h0 c h1
    have := text_lines_line _ (print_children cs (2 * d + 2) ++ rest) hline
    simp only [print_ast_to_file, print_indent_to_file, preorder, List.map_cons,
      List.cons_append, List.append_assoc] at this ⊢
    have h2 : 2 * (d + 1) = 2 * d + 2 := by ring
    rw [h2] at ih
    rw [this, ih hcs]
theorem text_lines_print_children : ∀ (cs : List ASTNode) (d : Nat) (rest : List Char),
    (∀ p ∈ preorder_children cs d, newline_free p.2 = true) →
    text_lines (print_children cs (2 * d) ++ rest)
      = (preorder_children cs d).map (fun p => List.replicate (2 * p.1) ' ' ++ node_line p.2)
        ++ text_lines rest
  | [], d, rest, _ => by simp [print_children, preorder_children]
  | c :: cs, d, rest, h => by
    simp only [preorder_children, List.mem_append] at h
    have h1 := text_lines_print c d (print_children cs (2 * d) ++ rest)
      (fun p hp => h p (Or.inl hp))
    have h2 := text_lines_print_children cs d rest (fun p hp => h p (Or.inr hp))
    simp only [print_children, preorder_children, List.map_append, List.append_assoc]
    rw [h1, h2]
end

/-! ## The bound on nested calls -/

theorem fgets_chars_length (n : Nat) (f : List Char) :
    (fgets_chars n f).1.length + (fgets_chars n f).2.length = f.length := by
  induction n generalizing f with
  | zero => simp [fgets_chars]
  | succ n ih =>
    cases f with
    | nil => simp [fgets_chars]
    | cons c f =>
      simp only [fgets_chars]
      split_ifs
      · simp
        omega
      · have := ih f
        simp only [List.length_cons]
        omega

theorem fgets_rest_length (f line rest : List Char) (h : fgets f = some (line, rest)) :
    rest.length < f.length := by
  unfold fgets at h
  split at h
  · simp at h
  · next c cs =>
    simp only [Option.some.injEq] at h
    have hl := fgets_chars_length (MAX_LINE_LEN - 1) (c :: cs)
    have h1 : (fgets_chars (MAX_LINE_LEN - 1) (c :: cs)).2 = rest := by rw [h]
    have h2 : (fgets_chars (MAX_LINE_LEN - 1) (c :: cs)).1 ≠ [] := by
      simp only [MAX_LINE_LEN, fgets_chars]
      split_ifs <;> simp
    have h3 := List.length_pos.2 h2
    rw [h1] at hl
    omega

mutual
theorem parse_ast_recursive_consumes : ∀ (fuel : Nat) (f : List Char) (k : Nat)
    (t : ASTNode) (r : List Char),
    parse_ast_recursive fuel f k = some (t, r) → r.length < f.length
  | 0, _, _, _, _, h => by simp [parse_ast_recursive] at h
  | fuel + 1, f, k, t, r, h => by
    have ih := parse_children_consumes fuel
    rw [parse_ast_recursive] at h
    split at h
    · simp at h
    · next line rest hf =>
      simp only at h
      split_ifs at h
      split at h
      · simp at h
      · simp only [Option.some.injEq, Prod.mk.injEq] at h
        have h1 := fgets_rest_length f line rest hf
        have h2 := ih rest (k + 2) 0
        rw [← h.2]
        omega
theorem parse_children_consumes : ∀ (fuel : Nat) (f : List Char) (k count : Nat),
    (parse_children fuel f k count).2.length ≤ f.length
  | 0, _, _, _ => by simp [parse_children]
  | fuel + 1, f, k, count => by
    rw [parse_children]
    split
    · simp
    · next child rest hp =>
      have h1 := parse_ast_recursive_consumes fuel f k child rest hp
      split_ifs
      · have h2 := parse_children_consumes fuel rest k (count + 1)
        simp only
        omega
      · simp only
        omega
end

/-- The bound on nested calls that `parse_ast` starts with is never reached:
from twice the length of the unread text on, one more allowed call changes
neither the result of `parse_ast_recursive` nor that of its child loop. -/
theorem parse_fuel_stable (fuel : Nat) :
    (∀ (f : List Char) (k : Nat), 2 * f.length + 1 ≤ fuel →
      parse_ast_recursive fuel f k = parse_ast_recursive (fuel + 1) f k) ∧
    (∀ (f : List Char) (k count : Nat), 2 * f.length + 2 ≤ fuel →
      parse_children fuel f k count = parse_children (fuel + 1) f k count) := by
  induction fuel with
  | zero => exact ⟨fun f k h => by omega, fun f k c h => by omega⟩
  | succ fuel ih =>
    obtain ⟨ihr, ihc⟩ := ih
    constructor
    · intro f k h
      rw [parse_ast_recursive, parse_ast_recursive]
      split
      · rfl
      · next line rest hf =>
        have h1 := fgets_rest_length f line rest hf
        rw [ihc rest (k + 2) 0 (by omega)]
    · intro f k count h
      rw [parse_children, parse_children, ← ihr f k (by omega)]
      split
      · rfl
      · next child rest hp =>
        have h1 := parse_ast_recursive_consumes fuel f k child rest hp
        rw [ihc rest k (count + 1) (by omega)]

/-- The tree `parse_ast` returns does not depend on the bound: any larger
bound gives the same result. -/
theorem parse_ast_fuel_independent (f : List Char) (extra : Nat) :
    (parse_ast_recursive (2 * f.length + 2 + extra) f 0).map (fun r => r.1) = parse_ast f := by
  unfold parse_ast
  induction extra with
  | zero => rfl
  | succ extra ih =>
    rw [← ih]
    have := (parse_fuel_stable (2 * f.length + 2 + extra)).1 f 0 (by omega)
    rw [this]
    rfl

/-! ## The reader and the writer: claims -/

/-- C12 (amended): for every tree `t` that `parse_ast` produces from some
input text, that has no `STRING` node, whose `FUNCTION_DEF`, `DECLARATION`,
`VAR` and `FUNCTION_CALL` nodes all have a name, and whose written lines,
newline included, are shorter than the 256-character line buffer, parsing the
text that `print_ast_to_file` writes for `t` at indent 0 succeeds and yields
`t` itself. -/
theorem reader_writer_round_trip (f : List Char) (t : ASTNode)
    (hp : parse_ast f = some t) (hk : round_trip_tree t 0 = true) :
    parse_ast (print_ast_to_file t 0) = some t :=
  parse_print_round_trip t (parse_ast_reader_tree f t hp) hk

/-- C12, witness: a text with a dropped argument, a kind without a space
before its parenthesis and an operator cut to three characters is read as a
tree that is read back from its written form. -/
theorem reader_writer_round_trip_witness :
    parse_ast
        "FUNCTION_DEF (main)\n  SEQUENCE (x)\n    BINARY_EXPR(<<==)\n      INT (-7)\n      VAR (y)\n".data
      = some { calloc_node NodeType.NODE_FUNCTION_DEF with
                 name := some "main",
                 children := [plain_node NodeType.NODE_SEQUENCE
                   [binary_node "<<=" (int_leaf (-7)) (var_leaf "y")]] } ∧
    parse_ast (print_ast_to_file
        { calloc_node NodeType.NODE_FUNCTION_DEF with
            name := some "main",
            children := [plain_node NodeType.NODE_SEQUENCE
              [binary_node "<<=" (int_leaf (-7)) (var_leaf "y")]] } 0)
      = some { calloc_node NodeType.NODE_FUNCTION_DEF with
                 name := some "main",
                 children := [plain_node NodeType.NODE_SEQUENCE
                   [binary_node "<<=" (int_leaf (-7)) (var_leaf "y")]] } :=
  ⟨rfl,
   reader_writer_round_trip
     "FUNCTION_DEF (main)\n  SEQUENCE (x)\n    BINARY_EXPR(<<==)\n      INT (-7)\n      VAR (y)\n".data
     _ rfl (by decide)⟩

/-- C12, counterexample: three trees the reader produces are not read back
from their written form.  The node read from the line `VAR` has no name and is
written `VAR ()`, which is read with the empty name; the node read from
`STRING ("a")` comes back with doubled quotes; the node read from `VAR(` with
250 letters `a` and `)` is written on a line of 257 characters, which is
refused. -/
theorem round_trip_breaks :
    (parse_ast "VAR\n".data).map (fun t => t.name) = some none ∧
    ((parse_ast "VAR\n".data).bind (fun t => parse_ast (print_ast_to_file t 0))).map
        (fun t => t.name) = some (some "") ∧
    (parse_ast "STRING (\"a\")\n".data).map (fun t => t.string_value)
      = some (some "\"a\"") ∧
    ((parse_ast "STRING (\"a\")\n".data).bind
        (fun t => parse_ast (print_ast_to_file t 0))).map (fun t => t.string_value)
      = some (some "\"\"a\"\"") ∧
    (parse_ast ("VAR(".data ++ List.replicate 250 'a' ++ ")\n".data)).map (fun t => t.name)
      = some (some (String.mk (List.replicate 250 'a'))) ∧
    ((parse_ast ("VAR(".data ++ List.replicate 250 'a' ++ ")\n".data)).bind
        (fun t => parse_ast (print_ast_to_file t 0))).map (fun t => t.name) = none := by
  refine ⟨by decide, by decide, by decide, by decide, ?_, ?_⟩
  · set_option maxRecDepth 20000 in rfl
  · set_option maxRecDepth 20000 in rfl

/-- C15 (amended): for every line `KIND(ARG)`, with or without spaces and tabs
after a space between the kind and the parenthesis, where `KIND` is one of the
13 kind names and `ARG` the text up to the first `)`, the line parses to kind
`KIND` with argument `ARG` and the node built from it has that kind, no
children, and: name `ARG` exactly on `FUNCTION_DEF`, `DECLARATION`, `VAR` and
`FUNCTION_CALL`; operator the first three characters of `ARG` exactly on
`BINARY_EXPR` and `UNARY_EXPR`; `int_value` `atoi(ARG)` exactly on `INT`, which
is the decimal value of `ARG` whenever `ARG` is a decimal numeral whose value
fits in a signed 32-bit `int`; `string_value` `ARG` exactly on `STRING`; every
other field absent or zero. -/
theorem reader_line_fields (t : NodeType) (ht : t ≠ NodeType.NODE_UNKNOWN)
    (w a rest : List Char) (hw : ∀ c ∈ w, c = ' ' ∨ c = '\t') (ha : ∀ c ∈ a, c ≠ ')') :
    parse_line (kind_name t ++ '(' :: (a ++ ')' :: rest)) = (t, some (String.mk a)) ∧
    parse_line (kind_name t ++ ' ' :: (w ++ '(' :: (a ++ ')' :: rest)))
      = (t, some (String.mk a)) ∧
    (node_of_line t (some (String.mk a))).type = t ∧
    (node_of_line t (some (String.mk a))).children = [] ∧
    (node_of_line t (some (String.mk a))).name
      = (if t = NodeType.NODE_FUNCTION_DEF ∨ t = NodeType.NODE_DECLARATION ∨
            t = NodeType.NODE_VAR ∨ t = NodeType.NODE_FUNCTION_CALL
          then some (String.mk a) else none) ∧
    (node_of_line t (some (String.mk a))).op
      = (if t = NodeType.NODE_BINARY_EXPR ∨ t = NodeType.NODE_UNARY_EXPR
          then String.mk (a.take 3) else "") ∧
    (node_of_line t (some (String.mk a))).int_value
      = (if t = NodeType.NODE_INT then atoi a else 0) ∧
    (node_of_line t (some (String.mk a))).string_value
      = (if t = NodeType.NODE_STRING then some (String.mk a) else none) ∧
    (t = NodeType.NODE_INT → ∀ v : Int, decimal_value a = some v → fits_int v →
      (node_of_line t (some (String.mk a))).int_value = v) := by
  obtain ⟨h1, h2⟩ := parse_line_kind_arg t ht w a rest hw ha
  refine ⟨h2, h1, ?_, ?_, ?_, ?_, ?_, ?_, ?_⟩
  · cases t <;> rfl
  · cases t <;> rfl
  · cases t <;> simp [node_of_line, calloc_node]
  · cases t <;> simp [node_of_line, calloc_node]
  · cases t <;> simp [node_of_line, calloc_node]
  · cases t <;> simp [node_of_line, calloc_node]
  · intro hint v hv hf
    subst hint
    simp only [node_of_line, calloc_node]
    rw [atoi_of_decimal_value a v hv]
    exact wrap_int_of_fits hf

/-- C15, witness: the lines `INT (-42)`, `BINARY_EXPR(<<==)`, `VAR  (x)` and
`SEQUENCE (x)` give an `INT` node of value `-42`, a `BINARY_EXPR` node of
operator `<<=`, a `VAR` node of name `x` and a `SEQUENCE` node with no field
set. -/
theorem reader_line_fields_witness :
    (parse_line "INT (-42)\n".data = (NodeType.NODE_INT, some "-42") ∧
      node_of_line NodeType.NODE_INT (some "-42") = int_leaf (-42) ∧
      (node_of_line NodeType.NODE_INT (some "-42")).int_value = -42) ∧
    (parse_line "BINARY_EXPR(<<==)\n".data = (NodeType.NODE_BINARY_EXPR, some "<<==") ∧
      (node_of_line NodeType.NODE_BINARY_EXPR (some "<<==")).op = "<<=") ∧
    (parse_line "VAR  (x)\n".data = (NodeType.NODE_VAR, some "x") ∧
      (node_of_line NodeType.NODE_VAR (some "x")).name = some "x") ∧
    (parse_line "SEQUENCE (x)\n".data = (NodeType.NODE_SEQUENCE, some "x") ∧
      node_of_line NodeType.NODE_SEQUENCE (some "x") = calloc_node NodeType.NODE_SEQUENCE) :=
  ⟨⟨(reader_line_fields NodeType.NODE_INT (by decide) [] "-42".data "\n".data
        (by decide) (by decide)).2.1,
    rfl,
    (reader_line_fields NodeType.NODE_INT (by decide) [] "-42".data "\n".data
        (by decide) (by decide)).2.2.2.2.2.2.2.2 rfl (-42) (by decide) (by decide)⟩,
   ⟨(reader_line_fields NodeType.NODE_BINARY_EXPR (by decide) [] "<<==".data "\n".data
        (by decide) (by decide)).1,
    (reader_line_fields NodeType.NODE_BINARY_EXPR (by decide) [] "<<==".data "\n".data
        (by decide) (by decide)).2.2.2.2.2.1⟩,
   ⟨(reader_line_fields NodeType.NODE_VAR (by decide) " ".data "x".data "\n".data
        (by decide) (by decide)).2.1,
    (reader_line_fields NodeType.NODE_VAR (by decide) " ".data "x".data "\n".data
        (by decide) (by decide)).2.2.2.2.1⟩,
   ⟨(reader_line_fields NodeType.NODE_SEQUENCE (by decide) [] "x".data "\n".data
        (by decide) (by decide)).2.1,
    rfl⟩⟩

/-- C15, counterexample: the line `INT (2147483648)` parses, the decimal value
of its argument is `2147483648`, and the node built from it has
`int_value = -2147483648`. -/
theorem reader_int_out_of_range :
    parse_line "INT (2147483648)\n".data = (NodeType.NODE_INT, some "2147483648") ∧
    decimal_value "2147483648".data = some 2147483648 ∧
    (node_of_line NodeType.NODE_INT (some "2147483648")).int_value = -2147483648 ∧
    (parse_ast "INT (2147483648)\n".data).map (fun t => t.int_value)
      = some (-2147483648) ∧
    (parse_ast "INT (2147483648)\n".data).map (fun t => t.int_value) ≠ some 2147483648 := by
  decide

theorem print_ast_to_file_int (m : ASTNode) (hm : m.type = NodeType.NODE_INT) :
    print_ast_to_file { m with children := [] } 0
      = "INT (".data ++ print_int m.int_value ++ ")\n".data := by
  obtain ⟨ty, nm, iv, sv, o, cs⟩ := m
  simp only at hm
  subst hm
  simp [print_ast_to_file, print_indent_to_file, node_line, kind_name, line_argument,
    print_children]

/-- C20: for every 32-bit signed integer `n`, the line the writer emits for an
`INT` node with `int_value = n` is `INT (n)` with `n` in decimal, and the
reader applied to it produces the `INT` node with `int_value = n`. -/
theorem int_literal_round_trip (m : ASTNode) (hm : m.type = NodeType.NODE_INT)
    (hf : fits_int m.int_value) :
    print_ast_to_file { m with children := [] } 0
      = "INT (".data ++ print_int m.int_value ++ ")\n".data ∧
    parse_ast (print_ast_to_file { m with children := [] } 0) = some (int_leaf m.int_value) := by
  have hprint := print_ast_to_file_int m hm
  refine ⟨hprint, ?_⟩
  have hleaf := print_ast_to_file_int (int_leaf m.int_value) rfl
  have heq : print_ast_to_file { m with children := [] } 0
      = print_ast_to_file (int_leaf m.int_value) 0 := by
    rw [hprint]
    exact hleaf.symm
  rw [heq]
  apply parse_print_round_trip
  · simp [reader_tree, reader_fields, reader_trees, int_leaf, calloc_node, hf, MAX_CHILDREN]
  · have hlen := print_int_length m.int_value hf
    simp [round_trip_tree, round_trip_kind, round_trip_trees, line_fits, int_leaf, calloc_node,
      node_line, kind_name, line_argument, MAX_LINE_LEN]
    omega

/-- C20, witness: the least and the greatest `int` are written as
`INT (-2147483648)` and `INT (2147483647)` and read back. -/
theorem int_literal_round_trip_witness :
    (print_ast_to_file (int_leaf (-2147483648)) 0 = "INT (-2147483648)\n".data ∧
      parse_ast (print_ast_to_file (int_leaf (-2147483648)) 0)
        = some (int_leaf (-2147483648))) ∧
    parse_ast (print_ast_to_file (int_leaf 2147483647) 0) = some (int_leaf 2147483647) :=
  ⟨int_literal_round_trip (int_leaf (-2147483648)) rfl (by decide),
   (int_literal_round_trip (int_leaf 2147483647) rfl (by decide)).2⟩

/-! ## Capacity of the child array -/

mutual
theorem capacity_of_reader_tree : ∀ t : ASTNode,
    reader_tree t = true → children_within_capacity t = true
  | ⟨ty, nm, iv, sv, o, cs⟩, h => by
    simp only [reader_tree, Bool.and_eq_true, decide_eq_true_eq] at h
    simp only [children_within_capacity, Bool.and_eq_true, decide_eq_true_eq]
    exact ⟨h.1.2, capacity_of_reader_trees cs h.2⟩
theorem capacity_of_reader_trees : ∀ cs : List ASTNode,
    reader_trees cs = true → children_within_capacities cs = true
  | [], _ => rfl
  | c :: cs, h => by
    simp only [reader_trees, Bool.and_eq_true] at h
    simp only [children_within_capacities, Bool.and_eq_true]
    exact ⟨capacity_of_reader_tree c h.1, capacity_of_reader_trees cs h.2⟩
end

/-- The child loop on the text written for more children than the array has
room for: it keeps the children up to `MAX_CHILDREN`, in text order. -/
theorem read_back_children_over_capacity : ∀ (cs : List ASTNode)
    (indent fuel count : Nat) (rest : List Char),
    reader_trees cs = true → round_trip_trees cs indent = true →
    count ≤ MAX_CHILDREN → MAX_CHILDREN < count + cs.length →
    next_indent_lt rest indent → read_fuels cs ≤ fuel →
    (parse_children fuel (print_children cs indent ++ rest) indent count).1
      = cs.take (MAX_CHILDREN - count)
  | [], _, _, count, _, _, _, h1, h2, _, _ => by
    simp only [List.length_nil] at h2
    omega
  | c :: cs, indent, fuel, count, rest, hrt, hkt, hc, hlen, hnext, hfuel => by
    simp only [reader_trees, Bool.and_eq_true] at hrt
    simp only [round_trip_trees, Bool.and_eq_true] at hkt
    simp only [read_fuels] at hfuel
    simp only [List.length_cons] at hlen
    obtain ⟨f2, rfl⟩ : ∃ f2, fuel = f2 + 1 := ⟨fuel - 1, by omega⟩
    have hnext2 : next_indent_lt (print_children cs indent ++ rest) (indent + 2) := by
      cases cs with
      | nil =>
        simp only [print_children, List.nil_append]
        exact next_indent_lt_mono rest indent (indent + 2) (by omega) hnext
      | cons c2 cs2 =>
        simp only [print_children, List.append_assoc]
        simp only [reader_trees, Bool.and_eq_true] at hrt
        simp only [round_trip_trees, Bool.and_eq_true] at hkt
        have h1 := hrt.2.1
        have h2 := hkt.2.1
        rw [reader_tree_unfold] at h1
        rw [round_trip_tree_unfold] at h2
        simp only [Bool.and_eq_true] at h1 h2
        exact next_indent_lt_print c2 indent (indent + 2) _ h1.1.1 h2.1.1 h2.1.2 (by omega)
    have hnode := read_back c indent f2 (print_children cs indent ++ rest) hrt.1 hkt.1 hnext2
      (by omega)
    simp only [print_children, List.append_assoc]
    rw [parse_children, hnode]
    by_cases hlt : count < MAX_CHILDREN
    · simp only [hlt, if_true, List.cons]
      obtain ⟨k, hk⟩ : ∃ k, MAX_CHILDREN - count = k + 1 := ⟨MAX_CHILDREN - count - 1, by omega⟩
      rw [hk, List.take_succ_cons]
      congr 1
      by_cases hmore : MAX_CHILDREN < count + 1 + cs.length
      · rw [read_back_children_over_capacity cs indent f2 (count + 1) rest hrt.2 hkt.2
          (by omega) hmore hnext (by omega)]
        congr 1
        omega
      · have hall := read_back_children cs indent f2 (count + 1) rest hrt.2 hkt.2 (by omega)
          hnext (by omega)
        rw [hall]
        exact (List.take_of_length_le (by omega)).symm
    · have h0 : MAX_CHILDREN - count = 0 := by omega
      simp only [hlt, if_false, h0, List.take_zero]

/-- The node read back from the text written for a node with more than
`MAX_CHILDREN` children: the node with its first `MAX_CHILDREN` children. -/
theorem read_back_over_capacity (t : ASTNode) (indent fuel : Nat) (rest : List Char)
    (hr : reader_fields t = true) (hrs : reader_trees t.children = true)
    (hkt : round_trip_tree t indent = true) (hlen : MAX_CHILDREN < t.children.length)
    (hnext : next_indent_lt rest (indent + 2)) (hfuel : read_fuel t ≤ fuel) :
    (parse_ast_recursive fuel (print_ast_to_file t indent ++ rest) indent).map (fun r => r.1)
      = some { t with children := t.children.take MAX_CHILDREN } := by
  obtain ⟨ty, nm, iv, sv, o, cs⟩ := t
  simp only [round_trip_tree, Bool.and_eq_true] at hkt
  obtain ⟨⟨hk, hl⟩, hks⟩ := hkt
  simp only [read_fuel] at hfuel
  simp only at hrs hlen
  obtain ⟨f2, rfl⟩ : ∃ f2, fuel = f2 + 1 := ⟨fuel - 1, by omega⟩
  obtain ⟨arg, hparse, hnode⟩ := parse_line_node_line _ hr hk
  have ht := type_ne_unknown_of_reader_fields _ hr
  simp only at hparse hnode ht
  have hcount := count_leading_spaces_line ⟨ty, nm, iv, sv, o, cs⟩ indent
  have hdrop : List.drop indent (List.replicate indent ' ' ++
      node_line ⟨ty, nm, iv, sv, o, cs⟩ ++ ['\n']) = node_line ⟨ty, nm, iv, sv, o, cs⟩ ++ ['\n'] := by
    rw [List.append_assoc]
    simp
  rw [parse_ast_recursive, fgets_print _ indent rest hr hk hl]
  simp only [hcount, Nat.lt_irrefl, if_false, gt_iff_lt, hdrop, hparse]
  have hch := read_back_children_over_capacity cs (indent + 2) f2 0 rest hrs hks
    (Nat.zero_le _) (by omega) hnext (by omega)
  simp only [Nat.sub_zero] at hch
  simp only [Option.map_some', hch, hnode]

/-- C23, failing input: every node of the canonical loop from `0` to `16` over
`FUNCTION_CALL (bar)` has at most `MAX_CHILDREN = 10` children, and
`optimize_ast` turns it into a `SEQUENCE` node on which sixteen children are
stored, six of them at the indices `10` to `15`, past the `children` array. -/
theorem unroll_exceeds_capacity :
    children_within_capacity (for_loop "i" 0 16 (call_leaf "bar")) = true ∧
    (optimize_ast (for_loop "i" 0 16 (call_leaf "bar"))).type = NodeType.NODE_SEQUENCE ∧
    (optimize_ast (for_loop "i" 0 16 (call_leaf "bar"))).children.length = 16 ∧
    children_within_capacity (optimize_ast (for_loop "i" 0 16 (call_leaf "bar"))) = false := by
  refine ⟨by decide, ?_, ?_, by decide⟩
  · rw [optimize_for_loop, if_pos ⟨rfl, by decide⟩]
    rfl
  · rw [optimize_for_loop, if_pos ⟨rfl, by decide⟩]
    rfl

/-! ## String literals handed to the code generator -/

theorem head?_dropWhile_ne (p : Char → Bool) (l : List Char) (c : Char) (hc : p c = true) :
    (l.dropWhile p).head? ≠ some c := by
  have h := List.head?_dropWhile_not p l
  intro h2
  rw [h2] at h
  simp only at h
  rw [hc] at h
  cases h

theorem dropWhile_quote_cons (c : Char) (s : List Char) (hc : c ≠ '"') :
    (c :: s).dropWhile (fun c => c == '"') = c :: s := by
  have h : (c == '"') = false := by simpa using hc
  rw [List.dropWhile_cons, h]
  rfl

/-- What `strip_outer_quotes` leaves starts and ends with no double quote, and
the text it is given is that, between two runs of double quotes. -/
theorem strip_outer_quotes_spec (s : List Char) :
    (AstToC.strip_outer_quotes s).head? ≠ some '"' ∧
    (AstToC.strip_outer_quotes s).getLast? ≠ some '"' ∧
    ∃ a b : List Char, (∀ c ∈ a, c = '"') ∧ (∀ c ∈ b, c = '"') ∧
      s = a ++ AstToC.strip_outer_quotes s ++ b := by
  have hd : s = s.takeWhile (fun c => c == '"') ++ s.dropWhile (fun c => c == '"') :=
    (List.takeWhile_append_dropWhile _ s).symm
  have he : (s.dropWhile (fun c => c == '"')).reverse
      = (s.dropWhile (fun c => c == '"')).reverse.takeWhile (fun c => c == '"')
        ++ (s.dropWhile (fun c => c == '"')).reverse.dropWhile (fun c => c == '"') :=
    (List.takeWhile_append_dropWhile _ _).symm
  have he2 : s.dropWhile (fun c => c == '"')
      = AstToC.strip_outer_quotes s
        ++ ((s.dropWhile (fun c => c == '"')).reverse.takeWhile (fun c => c == '"')).reverse := by
    have := congrArg List.reverse he
    rw [List.reverse_reverse, List.reverse_append] at this
    exact this
  refine ⟨?_, ?_, ?_⟩
  · by_cases hnil : AstToC.strip_outer_quotes s = []
    · rw [hnil]; simp
    · have h1 : (s.dropWhile (fun c => c == '"')).head? = (AstToC.strip_outer_quotes s).head? := by
        rw [he2, List.head?_append_of_ne_nil _ hnil]
      rw [← h1]
      exact head?_dropWhile_ne _ _ _ (by decide)
  · unfold AstToC.strip_outer_quotes
    rw [List.getLast?_reverse]
    exact head?_dropWhile_ne _ _ _ (by decide)
  · refine ⟨s.takeWhile (fun c => c == '"'),
      ((s.dropWhile (fun c => c == '"')).reverse.takeWhile (fun c => c == '"')).reverse, ?_, ?_, ?_⟩
    · intro c hc
      simpa using List.mem_takeWhile_imp hc
    · intro c hc
      rw [List.mem_reverse] at hc
      simpa using List.mem_takeWhile_imp hc
    · rw [List.append_assoc, ← he2]
      exact hd

theorem strip_outer_quotes_fixed (s : List Char) (h1 : s.head? ≠ some '"')
    (h2 : s.getLast? ≠ some '"') : AstToC.strip_outer_quotes s = s := by
  have hd : s.dropWhile (fun c => c == '"') = s := by
    cases s with
    | nil => rfl
    | cons c s =>
      exact dropWhile_quote_cons c s (by simpa using h1)
  unfold AstToC.strip_outer_quotes
  rw [hd]
  have hr : s.reverse.dropWhile (fun c => c == '"') = s.reverse := by
    have h3 : s.reverse.head? ≠ some '"' := by rw [List.head?_reverse]; exact h2
    cases hs : s.reverse with
    | nil => rfl
    | cons c r =>
      rw [hs] at h3
      exact dropWhile_quote_cons c r (by simpa using h3)
  rw [hr, List.reverse_reverse]

theorem strip_outer_quotes_idem (s : List Char) :
    AstToC.strip_outer_quotes (AstToC.strip_outer_quotes s) = AstToC.strip_outer_quotes s :=
  strip_outer_quotes_fixed _ (strip_outer_quotes_spec s).1 (strip_outer_quotes_spec s).2.1

/-- The quotes the writer puts around a text that neither begins nor ends with
one are the ones `strip_outer_quotes` takes away. -/
theorem strip_outer_quotes_quoted (s : List Char) (h1 : s.head? ≠ some '"')
    (h2 : s.getLast? ≠ some '"') : AstToC.strip_outer_quotes ('"' :: (s ++ ['"'])) = s := by
  have h : AstToC.strip_outer_quotes ('"' :: (s ++ ['"'])) = AstToC.strip_outer_quotes s := by
    unfold AstToC.strip_outer_quotes
    cases s with
    | nil => rfl
    | cons c s =>
      have hc : c ≠ '"' := by simpa using h1
      have hd : (c :: s).dropWhile (fun c => c == '"') = c :: s := dropWhile_quote_cons c s hc
      have hd2 : ('"' :: (c :: s ++ ['"'])).dropWhile (fun c => c == '"') = c :: s ++ ['"'] := by
        rw [List.dropWhile_cons]
        exact dropWhile_quote_cons c (s ++ ['"']) hc
      rw [hd, hd2, List.reverse_append]
      rfl
  rw [h, strip_outer_quotes_fixed s h1 h2]

theorem ast_to_c_parse_none_of_next_indent_lt (fuel : Nat) (rest : List Char) (k : Nat)
    (h : next_indent_lt rest k) : AstToC.parse_ast_recursive fuel rest k = none := by
  cases fuel with
  | zero => rfl
  | succ fuel =>
    unfold next_indent_lt at h
    rw [AstToC.parse_ast_recursive]
    split
    · rfl
    · next line r hf =>
      rw [hf] at h
      simp only at h
      simp [h]

theorem ast_to_c_parse_children_none (fuel : Nat) (rest : List Char) (k count : Nat)
    (h : next_indent_lt rest k) : AstToC.parse_children fuel rest k count = ([], rest) := by
  cases fuel with
  | zero => rfl
  | succ fuel =>
    rw [AstToC.parse_children, ast_to_c_parse_none_of_next_indent_lt fuel rest k h]

/-- The line written for a `STRING` node, as the text to split. -/
theorem string_line (nm : Option String) (iv : Int) (s o : String) (k : Nat) :
    print_ast_to_file ⟨NodeType.NODE_STRING, nm, iv, some s, o, []⟩ k
      = (List.replicate k ' ' ++ (kind_name NodeType.NODE_STRING
          ++ ' ' :: ([] ++ '(' :: (('"' :: (s.data ++ ['"'])) ++ ')' :: [])))) ++ '\n' :: [] := by
  simp [print_ast_to_file, print_children, node_line, line_argument, kind_name, str_or_empty,
    print_indent_to_file]

/-- The reader of `ast_to_c.c` on the line the writer emits for a `STRING`
node, at any indentation and before any text that holds no child of it. -/
theorem string_line_read (fuel k : Nat) (nm : Option String) (iv : Int) (s o : String)
    (rest : List Char)
    (hp : ∀ c ∈ s.data, c ≠ ')' ∧ c ≠ '\n')
    (h1 : s.data.head? ≠ some '"') (h2 : s.data.getLast? ≠ some '"')
    (hlen : k + s.data.length + 12 < MAX_LINE_LEN)
    (hrest : next_indent_lt rest (k + 2)) :
    AstToC.parse_ast_recursive (fuel + 1)
        (print_ast_to_file ⟨NodeType.NODE_STRING, nm, iv, some s, o, []⟩ k ++ rest) k
      = some ({ calloc_node NodeType.NODE_STRING with string_value := some s }, rest) := by
  have hq : ∀ c ∈ '"' :: (s.data ++ ['"']), c ≠ ')' := by
    intro c hc
    simp only [List.mem_cons, List.mem_append, List.mem_singleton, List.not_mem_nil,
      or_false] at hc
    rcases hc with h | h | h
    · rw [h]; decide
    · exact (hp c h).1
    · rw [h]; decide
  have hparse := (parse_line_kind_arg NodeType.NODE_STRING (by decide) []
    ('"' :: (s.data ++ ['"'])) ['\n'] (by simp) hq).1
  have hfgets : fgets ((List.replicate k ' ' ++ (kind_name NodeType.NODE_STRING
          ++ ' ' :: ([] ++ '(' :: (('"' :: (s.data ++ ['"'])) ++ ')' :: [])))) ++ '\n' :: rest)
      = some ((List.replicate k ' ' ++ (kind_name NodeType.NODE_STRING
          ++ ' ' :: ([] ++ '(' :: (('"' :: (s.data ++ ['"'])) ++ ')' :: [])))) ++ ['\n'], rest) := by
    apply fgets_line
    · intro c hc
      simp only [kind_name, List.mem_cons, List.mem_append, List.mem_singleton, List.not_mem_nil,
        or_false, false_or, List.nil_append] at hc
      rcases hc with h | h
      · rw [List.eq_of_mem_replicate h]; decide
      · rcases h with h | h | h | h | h
        · rcases h with h | h | h | h | h | h <;> rw [h] <;> decide
        · rw [h]; decide
        · rw [h]; decide
        · rcases h with h | h | h
          · rw [h]; decide
          · exact (hp c h).2
          · rw [h]; decide
        · rw [h]; decide
    · simp only [kind_name, List.length_append, List.length_replicate, List.length_cons,
        List.length_nil, List.nil_append]
      have : "STRING".data.length = 6 := rfl
      omega
  have hcount : count_leading_spaces ((List.replicate k ' ' ++ (kind_name NodeType.NODE_STRING
          ++ ' ' :: ([] ++ '(' :: (('"' :: (s.data ++ ['"'])) ++ ')' :: [])))) ++ ['\n']) = k := by
    have : (List.replicate k ' ' ++ (kind_name NodeType.NODE_STRING
          ++ ' ' :: ([] ++ '(' :: (('"' :: (s.data ++ ['"'])) ++ ')' :: [])))) ++ ['\n']
        = List.replicate k ' ' ++ 'S' :: ("TRING".data
          ++ ' ' :: ([] ++ '(' :: (('"' :: (s.data ++ ['"'])) ++ ')' :: [])) ++ ['\n']) := by
      simp [kind_name]
    rw [this]
    exact count_leading_spaces_indent k 'S' _ (by decide)
  have hdrop : List.drop k ((List.replicate k ' ' ++ (kind_name NodeType.NODE_STRING
          ++ ' ' :: ([] ++ '(' :: (('"' :: (s.data ++ ['"'])) ++ ')' :: [])))) ++ ['\n'])
      = kind_name NodeType.NODE_STRING
          ++ ' ' :: ([] ++ '(' :: (('"' :: (s.data ++ ['"'])) ++ ')' :: ['\n'])) := by
    rw [List.append_assoc]
    simp
  have hstrip := strip_outer_quotes_quoted s.data h1 h2
  rw [string_line]
  have happ : ∀ (l : List Char), (l ++ '\n' :: []) ++ rest = l ++ '\n' :: rest := by
    intro l; simp
  rw [happ, AstToC.parse_ast_recursive, hfgets]
  simp only [hcount, Nat.lt_irrefl, if_false, gt_iff_lt, hdrop, hparse]
  rw [ast_to_c_parse_children_none _ _ _ _ hrest]
  simp only [AstToC.node_of_line, hstrip]
  rfl

/-- C22 (amended): for every text `s` without `)` and newline that neither
begins nor ends with a double quote (the empty text included) and whose
written line `STRING ("s")`, newline included, is shorter than the
256-character line buffer, the reader of `ast_to_c.c` applied to the text
`print_ast_to_file` writes for a childless `STRING` node with `string_value`
`s` returns a `STRING` node with `string_value` `s`, no children and the other
fields empty; and for every text `x`, `strip_outer_quotes x` neither begins
nor ends with a double quote, `x` is `strip_outer_quotes x` between two runs
of double quotes, and `strip_outer_quotes` is idempotent. -/
theorem string_hand_over (s : String) (nm : Option String) (iv : Int) (o : String)
    (hp : ∀ c ∈ s.data, c ≠ ')' ∧ c ≠ '\n')
    (h1 : s.data.head? ≠ some '"') (h2 : s.data.getLast? ≠ some '"')
    (hlen : s.data.length + 12 < MAX_LINE_LEN) :
    AstToC.parse_ast (print_ast_to_file ⟨NodeType.NODE_STRING, nm, iv, some s, o, []⟩ 0)
      = some { calloc_node NodeType.NODE_STRING with string_value := some s } ∧
    ∀ x : List Char,
      (AstToC.strip_outer_quotes x).head? ≠ some '"' ∧
      (AstToC.strip_outer_quotes x).getLast? ≠ some '"' ∧
      (∃ a b : List Char, (∀ c ∈ a, c = '"') ∧ (∀ c ∈ b, c = '"') ∧
        x = a ++ AstToC.strip_outer_quotes x ++ b) ∧
      AstToC.strip_outer_quotes (AstToC.strip_outer_quotes x) = AstToC.strip_outer_quotes x := by
  constructor
  · have h := string_line_read
      (2 * (print_ast_to_file ⟨NodeType.NODE_STRING, nm, iv, some s, o, []⟩ 0).length + 1)
      0 nm iv s o [] hp h1 h2 (by omega) (next_indent_lt_nil 2)
    rw [List.append_nil] at h
    unfold AstToC.parse_ast
    rw [h]
    rfl
  · intro x
    exact ⟨(strip_outer_quotes_spec x).1, (strip_outer_quotes_spec x).2.1,
      (strip_outer_quotes_spec x).2.2, strip_outer_quotes_idem x⟩

theorem string_hand_over_witness :
    AstToC.parse_ast "STRING (\"Hello, world\")\n".data
      = some { calloc_node NodeType.NODE_STRING with string_value := some "Hello, world" } ∧
    AstToC.parse_ast "STRING (\"\")\n".data
      = some { calloc_node NodeType.NODE_STRING with string_value := some "" } ∧
    AstToC.strip_outer_quotes "\"\"a\"b\"\"\"".data = "a\"b".data :=
  ⟨(string_hand_over "Hello, world" none 0 "" (by decide) (by decide) (by decide)
      (by decide)).1,
   (string_hand_over "" none 0 "" (by decide) (by decide) (by decide) (by decide)).1,
   by decide⟩

/-- C22, counterexample: the text of 245 letters `a` has no `)`, no newline and
no double quote, and the line written for a `STRING` node that holds it has
256 characters before the newline.  The reader of `ast_to_c.c` takes the first
255 of them, which end before the `)`, and returns no tree. -/
theorem string_hand_over_long_line :
    (∀ c ∈ List.replicate 245 'a', c ≠ ')' ∧ c ≠ '\n' ∧ c ≠ '"') ∧
    (print_ast_to_file ⟨NodeType.NODE_STRING, none, 0,
        some (String.mk (List.replicate 245 'a')), "", []⟩ 0).length = 257 ∧
    AstToC.parse_ast (print_ast_to_file ⟨NodeType.NODE_STRING, none, 0,
        some (String.mk (List.replicate 245 'a')), "", []⟩ 0) = none := by
  refine ⟨?_, ?_, ?_⟩
  · intro c hc
    rw [List.eq_of_mem_replicate hc]
    decide
  · set_option maxRecDepth 20000 in rfl
  · set_option maxRecDepth 20000 in rfl

/-! ## The form of an optimized tree -/

theorem all_nodes_unfold (p : ASTNode → Bool) (n : ASTNode) :
    all_nodes p n = (p n && all_nodes_list p n.children) := by
  cases n
  simp [all_nodes]

theorem all_nodes_list_iff (p : ASTNode → Bool) (cs : List ASTNode) :
    all_nodes_list p cs = true ↔ ∀ c ∈ cs, all_nodes p c = true := by
  induction cs with
  | nil => simp [all_nodes_list]
  | cons c cs ih => simp [all_nodes_list, ih]

theorem strcmp_eq_iff (a b : Option String) :
    strcmp_eq a b = true ↔ a.isSome = true ∧ b = a := by
  cases a with
  | none => cases b <;> simp [strcmp_eq]
  | some a =>
    cases b with
    | none => simp [strcmp_eq]
    | some b =>
      simp only [strcmp_eq, beq_iff_eq, Option.isSome_some, true_and, Option.some.injEq]
      exact eq_comm

theorem optimized_form_of_inert (r : ASTNode)
    (h : r.type = NodeType.NODE_INT ∨ r.type = NodeType.NODE_SEQUENCE) :
    optimized_form r = true := by
  rcases h with h | h <;>
    simp [optimized_form, foldable_binary, foldable_unary, constant_if, unroll_guard_passes,
      canonical_for, h]

theorem fold_binary_of_foldable (m : ASTNode) (h : foldable_binary m = true) :
    (fold_binary m).type = NodeType.NODE_INT ∧ (fold_binary m).children = [] := by
  obtain ⟨ty, nm, iv, sv, o, cs⟩ := m
  simp only [foldable_binary, Bool.and_eq_true, beq_iff_eq] at h
  obtain ⟨hty, h⟩ := h
  subst hty
  match cs, h with
  | [l, r], h =>
    simp only [Bool.and_eq_true, beq_iff_eq, Bool.or_eq_true, bne_iff_ne, ne_eq] at h
    obtain ⟨⟨hl, hr⟩, hop⟩ := h
    simp only [fold_binary, hl, hr, and_self, if_true]
    rcases hop with ((hop | hop) | hop) | ⟨hop, hz⟩
    · simp [hop]
    · simp [hop]
    · simp [hop]
    · simp [hop, hz]

theorem fold_binary_of_not_foldable (m : ASTNode) (h : foldable_binary m = false) :
    fold_binary m = m := by
  obtain ⟨ty, nm, iv, sv, o, cs⟩ := m
  unfold fold_binary
  simp only
  split
  · next hty =>
    split
    · next l r =>
      split
      · next hlr =>
        simp only [foldable_binary, hty, beq_self_eq_true, hlr.1, hlr.2, Bool.true_and,
          Bool.or_eq_false_iff, Bool.and_eq_false_iff, beq_eq_false_iff_ne, ne_eq,
          bne_eq_false_iff_eq] at h
        obtain ⟨⟨⟨h1, h2⟩, h3⟩, h4⟩ := h
        have h5 : ¬ (o = "/" ∧ r.int_value ≠ 0) := by
          rintro ⟨ha, hb⟩
          rcases h4 with h4 | h4
          · exact h4 ha
          · exact hb h4
        simp [h1, h2, h3, h5]
      · rfl
    · rfl
  · rfl

theorem fold_unary_of_foldable (m : ASTNode) (h : foldable_unary m = true) :
    ∃ r, fold_unary m = some r ∧ r.type = NodeType.NODE_INT ∧ r.children = [] := by
  obtain ⟨ty, nm, iv, sv, o, cs⟩ := m
  simp only [foldable_unary, Bool.and_eq_true, beq_iff_eq] at h
  obtain ⟨hty, h⟩ := h
  subst hty
  match cs, h with
  | [c], h =>
    simp only [Bool.and_eq_true, beq_iff_eq, Bool.or_eq_true] at h
    obtain ⟨hc, hop⟩ := h
    simp only [fold_unary, hc, if_true]
    rcases hop with hop | hop
    · rw [if_pos hop]
      exact ⟨_, rfl, rfl, rfl⟩
    · have hne : ¬ (o = "++") := by rw [hop]; decide
      rw [if_neg hne, if_pos hop]
      exact ⟨_, rfl, rfl, rfl⟩

theorem fold_unary_of_not_foldable (m : ASTNode) (h : foldable_unary m = false) :
    (fold_unary m = none ∧ m.type = NodeType.NODE_UNARY_EXPR) ∨ fold_unary m = some m := by
  obtain ⟨ty, nm, iv, sv, o, cs⟩ := m
  unfold fold_unary
  simp only
  split
  · next hty =>
    split
    · next c =>
      split
      · next hc =>
        simp only [foldable_unary, hty, beq_self_eq_true, hc, Bool.true_and,
          Bool.or_eq_false_iff, beq_eq_false_iff_ne, ne_eq] at h
        left
        exact ⟨by simp [h.1, h.2], hty⟩
      · exact Or.inr rfl
    · exact Or.inr rfl
  · exact Or.inr rfl

theorem eliminate_if_of_constant (m : ASTNode) (h : constant_if m = true) :
    ((eliminate_if m).type = NodeType.NODE_SEQUENCE ∧ (eliminate_if m).children = []) ∨
      eliminate_if m ∈ m.children := by
  obtain ⟨ty, nm, iv, sv, o, cs⟩ := m
  simp only [constant_if, Bool.and_eq_true, beq_iff_eq] at h
  obtain ⟨hty, h⟩ := h
  subst hty
  match cs, h with
  | c :: d :: rest, h =>
    simp only [beq_iff_eq] at h
    simp only [eliminate_if, h, if_true]
    split
    · exact Or.inl ⟨rfl, rfl⟩
    · right
      rw [clone_ast_id]
      simp

theorem eliminate_if_of_not_constant (m : ASTNode) (h : constant_if m = false) :
    eliminate_if m = m := by
  obtain ⟨ty, nm, iv, sv, o, cs⟩ := m
  unfold eliminate_if
  simp only
  split
  · next hty =>
    split
    · next c d rest =>
      split
      · next hc =>
        simp [constant_if, hty, hc] at h
      · rfl
    · rfl
  · rfl

theorem unroll_for_of_not_guard (m : ASTNode) (h : unroll_guard_passes m = false) :
    unroll_for m = m := by
  revert h
  unfold unroll_guard_passes canonical_for unroll_for
  dsimp only
  repeat' split
  all_goals first
    | (intro _; rfl)
    | (intro h; simp_all [strcmp_eq_iff])

theorem unroll_for_of_guard (m : ASTNode) (h : unroll_guard_passes m = true) :
    (unroll_for m).type = NodeType.NODE_SEQUENCE ∧
      ∀ c ∈ (unroll_for m).children, c ∈ m.children := by
  rcases unroll_for_shape m with h1 | h1
  · exfalso
    have h2 := congrArg ASTNode.type h1
    revert h h2
    clear h1
    unfold unroll_guard_passes canonical_for unroll_for
    dsimp only
    repeat' split
    all_goals first
      | (intro h; cases h)
      | (intro h h2; simp_all [strcmp_eq_iff]; omega)
      | (intro h h2; simp_all [strcmp_eq_iff])
  · exact h1

/-- The node left by `optimize_ast` over children in optimized form is in
optimized form, with all its nodes. -/
theorem optimize_node_optimized_form (m : ASTNode)
    (H : ∀ c ∈ m.children, all_nodes optimized_form c = true) :
    all_nodes optimized_form (optimize_node m) = true := by
  have inert : ∀ r : ASTNode, (r.type = NodeType.NODE_INT ∨ r.type = NodeType.NODE_SEQUENCE) →
      (∀ c ∈ r.children, c ∈ m.children) → all_nodes optimized_form r = true := by
    intro r hr hc
    rw [all_nodes_unfold, optimized_form_of_inert r hr, Bool.true_and, all_nodes_list_iff]
    exact fun c hmem => H c (hc c hmem)
  have inert_rest : ∀ b : ASTNode, (b.type = NodeType.NODE_INT ∨ b.type = NodeType.NODE_SEQUENCE) →
      unroll_for (eliminate_if b) = b := by
    intro b hb
    rcases hb with hb | hb <;> simp [eliminate_if, unroll_for, hb]
  have hkids : all_nodes_list optimized_form m.children = true :=
    (all_nodes_list_iff _ _).2 H
  unfold optimize_node
  cases hb : foldable_binary m with
  | true =>
    obtain ⟨hbt, hbc⟩ := fold_binary_of_foldable m hb
    have hu : fold_unary (fold_binary m) = some (fold_binary m) := by
      simp [fold_unary, hbt]
    rw [hu]
    dsimp only
    rw [inert_rest _ (Or.inl hbt)]
    exact inert _ (Or.inl hbt) (by rw [hbc]; simp)
  | false =>
    rw [fold_binary_of_not_foldable m hb]
    cases hun : foldable_unary m with
    | true =>
      obtain ⟨r, hr, hrt, hrc⟩ := fold_unary_of_foldable m hun
      rw [hr]
      dsimp only
      rw [inert_rest r (Or.inl hrt)]
      exact inert r (Or.inl hrt) (by rw [hrc]; simp)
    | false =>
      rcases fold_unary_of_not_foldable m hun with ⟨hnone, hty⟩ | hsome
      · rw [hnone]
        dsimp only
        rw [all_nodes_unfold, hkids, Bool.and_true]
        simp [optimized_form, hb, hun, constant_if, unroll_guard_passes, canonical_for, hty]
      · rw [hsome]
        dsimp only
        cases hif : constant_if m with
        | true =>
          rcases eliminate_if_of_constant m hif with ⟨het, hec⟩ | hmem
          · rw [unroll_for_of_type_ne _ (by rw [het]; decide)]
            exact inert _ (Or.inr het) (by rw [hec]; simp)
          · have hc := H _ hmem
            have hform : optimized_form (eliminate_if m) = true := by
              rw [all_nodes_unfold, Bool.and_eq_true] at hc
              exact hc.1
            have hg : unroll_guard_passes (eliminate_if m) = false := by
              simp only [optimized_form, Bool.and_eq_true, Bool.not_eq_true'] at hform
              exact hform.2
            rw [unroll_for_of_not_guard _ hg]
            exact hc
        | false =>
          rw [eliminate_if_of_not_constant m hif]
          cases hg : unroll_guard_passes m with
          | true =>
            obtain ⟨h1, h2⟩ := unroll_for_of_guard m hg
            exact inert _ (Or.inr h1) h2
          | false =>
            rw [unroll_for_of_not_guard m hg, all_nodes_unfold, hkids, Bool.and_true]
            simp [optimized_form, hb, hun, hif, hg]

mutual
/-- In the tree `optimize_ast` returns, none of the four rewrites applies at
any node: no foldable `BINARY_EXPR`, no foldable `UNARY_EXPR`, no `IF_STMT`
with a constant condition, and no canonical `FOR_STMT` that passes the test
`end - start <= 16` of the code. -/
theorem optimize_ast_optimized_form : ∀ t : ASTNode,
    all_nodes optimized_form (optimize_ast t) = true
  | ⟨ty, nm, iv, sv, o, cs⟩ => by
    have ih := optimize_children_optimized_form cs
    rw [optimize_ast_eq ⟨ty, nm, iv, sv, o, cs⟩]
    apply optimize_node_optimized_form
    intro c hc
    simp only [List.mem_map] at hc
    obtain ⟨c0, hc0, rfl⟩ := hc
    exact ih c0 hc0
theorem optimize_children_optimized_form : ∀ cs : List ASTNode,
    ∀ c ∈ cs, all_nodes optimized_form (optimize_ast c) = true
  | [], c, h => by cases h
  | c0 :: cs, c, h => by
    rcases List.mem_cons.1 h with h | h
    · rw [h]
      exact optimize_ast_optimized_form c0
    · exact optimize_children_optimized_form cs c h
end

/-- When `end - start` of a canonical `FOR_STMT` is an `int`, the test of the
code is the comparison of the integers. -/
theorem unroll_guard_of_fits (n : ASTNode) (a b : Int) (hc : canonical_for n = some (a, b))
    (hf : fits_int (b - a)) : unroll_guard_passes n = unrollable_for n := by
  unfold unroll_guard_passes unrollable_for
  rw [hc]
  simp only [wrap_int_of_fits hf]

/-- C24, failing input: the canonical loop from 100 to -2147483648 over the
call `foo`.  Its `end - start` is -2147483748, which is at most 16, but the
difference the code takes in `int` wraps to 2147483548, the test
`end - start <= 16` fails and `optimize_ast` returns the loop as it was: the
result is a canonical `FOR_STMT` with a `FUNCTION_CALL` body and
`end - start ≤ 16`. -/
theorem normal_form_guard_overflow :
    optimize_ast (for_loop "i" 100 (-2147483648) (call_leaf "foo"))
      = for_loop "i" 100 (-2147483648) (call_leaf "foo") ∧
    canonical_for (for_loop "i" 100 (-2147483648) (call_leaf "foo"))
      = some (100, -2147483648) ∧
    (-2147483648 : Int) - 100 ≤ 16 ∧
    wrap_int (-2147483648 - 100) = 2147483548 ∧
    unroll_guard_passes (for_loop "i" 100 (-2147483648) (call_leaf "foo")) = false ∧
    unrollable_for (optimize_ast (for_loop "i" 100 (-2147483648) (call_leaf "foo"))) = true ∧
    all_nodes (fun n => !unrollable_for n)
      (optimize_ast (for_loop "i" 100 (-2147483648) (call_leaf "foo"))) = false := by
  refine ⟨rfl, by decide, by decide, by decide, by decide, by decide, by decide⟩

/-! ## Round trip on the well-behaved fragment -/

/-- C25: for every tree `t` whose kinds are among the 13 kind names, with no
`STRING` node, whose `FUNCTION_DEF`, `DECLARATION`, `VAR` and `FUNCTION_CALL`
nodes have a name, whose names and operators have no `)` and no newline, whose
operators have at most 3 characters, whose `INT` values are `int`s, whose
other fields are empty, whose nodes have at most `MAX_CHILDREN = 10` children
(`reader_tree`) and whose written lines, newline included, are shorter than
the 256-character line buffer (`round_trip_tree`), `parse_ast` applied to the
text `print_ast_to_file t 0` returns `t`. -/
theorem round_trip_well_behaved (t : ASTNode) (hr : reader_tree t = true)
    (hk : round_trip_tree t 0 = true) :
    (parse_ast (print_ast_to_file t 0)).isSome = true ∧
    parse_ast (print_ast_to_file t 0) = some t := by
  have h := parse_print_round_trip t hr hk
  rw [h]
  exact ⟨rfl, rfl⟩

/-- C25, witness: a function definition over a declaration, an `IF_STMT`, a
loop and a return statement. -/
theorem round_trip_well_behaved_witness :
    parse_ast (print_ast_to_file
      { calloc_node NodeType.NODE_FUNCTION_DEF with
          name := some "main",
          children := [plain_node NodeType.NODE_SEQUENCE
            [decl_node "x" [int_leaf (-2147483648)],
             plain_node NodeType.NODE_IF_STMT
               [binary_node "<=" (var_leaf "x") (int_leaf 2147483647),
                { call_leaf "f" with children := [plain_node NodeType.NODE_EXPR_LIST []] }],
             for_loop "i" 0 3 (call_leaf "g"),
             plain_node NodeType.NODE_RETURN_STMT [unary_node "--" (var_leaf "")]]] } 0)
      = some
      { calloc_node NodeType.NODE_FUNCTION_DEF with
          name := some "main",
          children := [plain_node NodeType.NODE_SEQUENCE
            [decl_node "x" [int_leaf (-2147483648)],
             plain_node NodeType.NODE_IF_STMT
               [binary_node "<=" (var_leaf "x") (int_leaf 2147483647),
                { call_leaf "f" with children := [plain_node NodeType.NODE_EXPR_LIST []] }],
             for_loop "i" 0 3 (call_leaf "g"),
             plain_node NodeType.NODE_RETURN_STMT [unary_node "--" (var_leaf "")]]] } :=
  (round_trip_well_behaved _ (by decide) (by decide)).2

/-! ## Trees on which the pass has a result -/

theorem pass_defined_unfold (n : ASTNode) :
    pass_defined n
      = (passes_defined n.children &&
          node_defined { n with children := n.children.map optimize_ast }) := by
  cases n
  simp [pass_defined, optimize_children_eq_map]

theorem passes_defined_iff (cs : List ASTNode) :
    passes_defined cs = true ↔ ∀ c ∈ cs, pass_defined c = true := by
  induction cs with
  | nil => simp [passes_defined]
  | cons c cs ih => simp [passes_defined, ih]

theorem node_defined_of_inert (r : ASTNode)
    (h : r.type = NodeType.NODE_INT ∨ r.type = NodeType.NODE_SEQUENCE) :
    node_defined r = true := by
  rcases h with h | h <;>
    simp [node_defined, division_traps, fold_binary, fold_unary, eliminate_if,
      unroll_undefined, h]

theorem map_optimize_ast_of_fixed (cs : List ASTNode) (h : ∀ c ∈ cs, optimize_ast c = c) :
    cs.map optimize_ast = cs := by
  conv_rhs => rw [← List.map_id cs]
  exact List.map_congr_left (fun c hc => by simpa using h c hc)

/-- The node the statements of `optimize_ast` leave, over children that are
optimized and on which the pass has a result, is a tree on which the pass has
a result. -/
theorem pass_defined_optimize_node (m : ASTNode)
    (H1 : ∀ c ∈ m.children, optimize_ast c = c)
    (H2 : ∀ c ∈ m.children, pass_defined c = true)
    (H3 : node_defined m = true) : pass_defined (optimize_node m) = true := by
  rcases optimize_node_shape m H1 with h | h | ⟨ht, hc⟩
  · rw [h, pass_defined_unfold, map_optimize_ast_of_fixed _ H1, (passes_defined_iff _).2 H2]
    cases m
    exact H3
  · exact H2 _ h
  · rw [pass_defined_unfold,
      map_optimize_ast_of_fixed _ (fun c hc' => H1 c (hc c hc')),
      (passes_defined_iff _).2 (fun c hc' => H2 c (hc c hc'))]
    have := node_defined_of_inert (optimize_node m) ht
    cases hr : optimize_node m
    rw [hr] at this
    exact this

mutual
theorem pass_defined_optimize_ast : ∀ t : ASTNode,
    pass_defined t = true → pass_defined (optimize_ast t) = true
  | ⟨ty, nm, iv, sv, o, cs⟩, h => by
    have ih := passes_defined_optimize_ast cs
    simp only [pass_defined, Bool.and_eq_true] at h
    rw [optimize_ast]
    apply pass_defined_optimize_node
    · intro c hc
      simp only [optimize_children_eq_map, List.mem_map] at hc
      obtain ⟨c0, _, rfl⟩ := hc
      exact optimize_ast_fixed c0
    · intro c hc
      simp only [optimize_children_eq_map, List.mem_map] at hc
      obtain ⟨c0, hc0, rfl⟩ := hc
      exact ih c0 hc0 ((passes_defined_iff cs).1 h.1 c0 hc0)
    · exact h.2
theorem passes_defined_optimize_ast : ∀ cs : List ASTNode,
    ∀ c ∈ cs, pass_defined c = true → pass_defined (optimize_ast c) = true
  | [], c, h, _ => by cases h
  | c0 :: cs, c, h, hd => by
    rcases List.mem_cons.1 h with h | h
    · subst h
      exact pass_defined_optimize_ast c hd
    · exact passes_defined_optimize_ast cs c h hd
end

/-- On every tree on which the pass has a result, the pass over the result
has one too and returns the result unchanged. -/
theorem optimize_ast_idempotent_of_defined (t : ASTNode) (h : pass_defined t = true) :
    pass_defined (optimize_ast t) = true ∧
    optimize_ast (optimize_ast t) = optimize_ast t :=
  ⟨pass_defined_optimize_ast t h, optimize_ast_fixed t⟩

/-! ## Dead code elimination -/

/-- Dead code elimination at a false condition: for every `IF_STMT` node with
at least two children whose first child is an `INT` node of value `0`,
whatever the then-branch and the further children, if the pass has a result
on the node then `optimize_ast` yields the node turned into a `SEQUENCE` node
with no children, a tree on which the pass has a result again. -/
theorem dce_false_condition (n cond then_branch : ASTNode) (rest : List ASTNode)
    (hn : n.type = NodeType.NODE_IF_STMT) (hc : n.children = cond :: then_branch :: rest)
    (hct : cond.type = NodeType.NODE_INT) (hcv : cond.int_value = 0)
    (hd : pass_defined n = true) :
    optimize_ast n = { n with type := NodeType.NODE_SEQUENCE, children := [] } ∧
    (optimize_ast n).type = NodeType.NODE_SEQUENCE ∧ (optimize_ast n).children = [] ∧
    pass_defined (optimize_ast n) = true := by
  obtain ⟨ht, hv⟩ := optimize_ast_int_type cond hct
  have key : optimize_ast n = { n with type := NodeType.NODE_SEQUENCE, children := [] } := by
    rw [optimize_ast_eq, hc]
    simp [optimize_node, fold_binary, fold_unary, eliminate_if, unroll_for, hn, ht, hv, hcv]
  have hres := pass_defined_optimize_ast n hd
  rw [key] at hres ⊢
  exact ⟨rfl, rfl, rfl, hres⟩

/-- An `IF_STMT` over `INT (0)`, a foldable sum and a call becomes the empty
`SEQUENCE`. -/
theorem dce_false_condition_witness :
    optimize_ast (plain_node NodeType.NODE_IF_STMT
        [int_leaf 0, binary_node "+" (int_leaf 1) (int_leaf 2), call_leaf "g"])
      = plain_node NodeType.NODE_SEQUENCE [] :=
  (dce_false_condition
    (plain_node NodeType.NODE_IF_STMT
      [int_leaf 0, binary_node "+" (int_leaf 1) (int_leaf 2), call_leaf "g"])
    (int_leaf 0) (binary_node "+" (int_leaf 1) (int_leaf 2)) [call_leaf "g"]
    rfl rfl rfl rfl (by decide)).1

/-- Dead code elimination at a true condition: for every `IF_STMT` node whose
first child is an `INT` node of nonzero value and whose second child is `x`,
whatever the further children, if the pass has a result on the node then
`optimize_ast` yields exactly the tree `optimize_ast x`, the then-branch as
the post-order pass leaves it; this is `x` itself when the pass leaves `x` as
it is.  The condition and the further children are gone, and the pass has a
result on the tree that is left. -/
theorem dce_true_condition (n cond x : ASTNode) (rest : List ASTNode)
    (hn : n.type = NodeType.NODE_IF_STMT) (hc : n.children = cond :: x :: rest)
    (hct : cond.type = NodeType.NODE_INT) (hcv : cond.int_value ≠ 0)
    (hd : pass_defined n = true) :
    optimize_ast n = optimize_ast x ∧ (optimize_ast x = x → optimize_ast n = x) ∧
    pass_defined (optimize_ast n) = true := by
  obtain ⟨ht, hv⟩ := optimize_ast_int_type cond hct
  have key : optimize_ast n = optimize_ast x := by
    rw [optimize_ast_eq n, hc]
    simp [optimize_node, fold_binary, fold_unary, eliminate_if, hn, ht, hv, hcv, clone_ast_id,
      unroll_for_optimize_ast]
  exact ⟨key, fun h => key.trans h, pass_defined_optimize_ast n hd⟩

/-- An `IF_STMT` over `INT (5)`, the then-branch `FUNCTION_CALL (foo)` over
the sum `1 + 2`, and a further child becomes `FUNCTION_CALL (foo)` over
`INT (3)`; with the then-branch `FUNCTION_CALL (foo)` it becomes that very
leaf. -/
theorem dce_true_condition_witness :
    (optimize_ast (plain_node NodeType.NODE_IF_STMT
        [int_leaf 5,
         { call_leaf "foo" with children := [binary_node "+" (int_leaf 1) (int_leaf 2)] },
         call_leaf "g"])
      = optimize_ast
          { call_leaf "foo" with children := [binary_node "+" (int_leaf 1) (int_leaf 2)] } ∧
     optimize_ast
          { call_leaf "foo" with children := [binary_node "+" (int_leaf 1) (int_leaf 2)] }
      = { call_leaf "foo" with children := [int_leaf 3] }) ∧
    optimize_ast (plain_node NodeType.NODE_IF_STMT [int_leaf 5, call_leaf "foo"])
      = call_leaf "foo" :=
  ⟨⟨(dce_true_condition
      (plain_node NodeType.NODE_IF_STMT
        [int_leaf 5,
         { call_leaf "foo" with children := [binary_node "+" (int_leaf 1) (int_leaf 2)] },
         call_leaf "g"])
      (int_leaf 5)
      { call_leaf "foo" with children := [binary_node "+" (int_leaf 1) (int_leaf 2)] }
      [call_leaf "g"] rfl rfl rfl (by decide) (by decide)).1, rfl⟩,
   (dce_true_condition (plain_node NodeType.NODE_IF_STMT [int_leaf 5, call_leaf "foo"])
      (int_leaf 5) (call_leaf "foo") [] rfl rfl rfl (by decide) (by decide)).2.1 rfl⟩

/-! ## Inputs on which the pass has no result -/

/-- C2, failing input: `BINARY_EXPR (/)` over `INT (-2147483648)` and
`INT (-1)`, as the reader builds it.  The divisor is not zero, so the test of
line 237 passes and line 238 divides; the quotient `2147483648` is no `int`
and the division traps.  The pass has no result, where the claim has the node
`INT (2147483648)`. -/
theorem fold_binary_div_trap :
    parse_ast "BINARY_EXPR (/)\n  INT (-2147483648)\n  INT (-1)\n".data
      = some (binary_node "/" (int_leaf (-2147483648)) (int_leaf (-1))) ∧
    (-1 : Int) ≠ 0 ∧
    Int.tdiv (-2147483648) (-1) = 2147483648 ∧
    ¬ fits_int (Int.tdiv (-2147483648) (-1)) ∧
    division_traps (binary_node "/" (int_leaf (-2147483648)) (int_leaf (-1))) = true ∧
    pass_defined (binary_node "/" (int_leaf (-2147483648)) (int_leaf (-1))) = false := by
  refine ⟨by set_option maxRecDepth 20000 in rfl, by decide, by decide, by decide, by decide,
    by decide⟩

/-- C5, failing input: the `IF_STMT` over `INT (0)` and the canonical loop
from 0 to 11 over the call `foo`, every node with at most four children.  The
pass over the loop runs first and makes eleven stores on the loop node, the
last past the `children` array; the pass over the `IF_STMT` has no result,
where the claim has the empty `SEQUENCE`. -/
theorem dce_false_pass_undefined :
    children_within_capacity (plain_node NodeType.NODE_IF_STMT
        [int_leaf 0, for_loop "i" 0 11 (call_leaf "foo")]) = true ∧
    unroll_undefined (for_loop "i" 0 11 (call_leaf "foo")) = true ∧
    (unroll_replicas 0 11 (call_leaf "foo")).length = 11 ∧
    pass_defined (for_loop "i" 0 11 (call_leaf "foo")) = false ∧
    pass_defined (plain_node NodeType.NODE_IF_STMT
        [int_leaf 0, for_loop "i" 0 11 (call_leaf "foo")]) = false := by
  refine ⟨by decide, by decide, by decide, by decide, by decide⟩

/-- C6, failing input: the `IF_STMT` over `INT (1)`, the canonical loop from 0
to 11 over the call `foo` as then-branch, and a further call.  The pass over
the then-branch runs first and makes eleven stores on the loop node, the last
past the `children` array; the pass over the `IF_STMT` has no result, where
the claim has the optimized then-branch. -/
theorem dce_true_pass_undefined :
    children_within_capacity (plain_node NodeType.NODE_IF_STMT
        [int_leaf 1, for_loop "i" 0 11 (call_leaf "foo"), call_leaf "g"]) = true ∧
    unroll_undefined (for_loop "i" 0 11 (call_leaf "foo")) = true ∧
    pass_defined (for_loop "i" 0 11 (call_leaf "foo")) = false ∧
    pass_defined (plain_node NodeType.NODE_IF_STMT
        [int_leaf 1, for_loop "i" 0 11 (call_leaf "foo"), call_leaf "g"]) = false := by
  refine ⟨by decide, by decide, by decide, by decide⟩

/-- C11, failing inputs: on the canonical loop from 0 to 11 over the call
`foo` the first pass makes eleven stores on a node that holds ten; on the
loop read from a text whose `DECLARATION` and `VAR` lines have no argument,
the first pass calls `strcmp` on `NULL` names.  Neither first pass has a
result for a second pass to be applied to. -/
theorem idempotence_pass_undefined :
    children_within_capacity (for_loop "i" 0 11 (call_leaf "foo")) = true ∧
    pass_defined (for_loop "i" 0 11 (call_leaf "foo")) = false ∧
    (optimize_ast (for_loop "i" 0 11 (call_leaf "foo"))).children.length = 11 ∧
    parse_ast
        "FOR_STMT\n  DECLARATION\n    INT (0)\n  BINARY_EXPR (<)\n    VAR\n    INT (3)\n  UNARY_EXPR (++)\n    VAR\n  FUNCTION_CALL (foo)\n".data
      = some (plain_node NodeType.NODE_FOR_STMT
          [plain_node NodeType.NODE_DECLARATION [int_leaf 0],
           binary_node "<" (calloc_node NodeType.NODE_VAR) (int_leaf 3),
           unary_node "++" (calloc_node NodeType.NODE_VAR), call_leaf "foo"]) ∧
    unroll_undefined (plain_node NodeType.NODE_FOR_STMT
          [plain_node NodeType.NODE_DECLARATION [int_leaf 0],
           binary_node "<" (calloc_node NodeType.NODE_VAR) (int_leaf 3),
           unary_node "++" (calloc_node NodeType.NODE_VAR), call_leaf "foo"]) = true ∧
    pass_defined (plain_node NodeType.NODE_FOR_STMT
          [plain_node NodeType.NODE_DECLARATION [int_leaf 0],
           binary_node "<" (calloc_node NodeType.NODE_VAR) (int_leaf 3),
           unary_node "++" (calloc_node NodeType.NODE_VAR), call_leaf "foo"]) = false := by
  refine ⟨by decide, by decide, by decide, by set_option maxRecDepth 40000 in rfl, by decide,
    by decide⟩

/-! ## The trees the writer is given -/

mutual
theorem all_nodes_preorder (p : ASTNode → Bool) : ∀ (t : ASTNode) (d : Nat),
    all_nodes p t = true → ∀ q ∈ preorder t d, p q.2 = true
  | ⟨ty, nm, iv, sv, o, cs⟩, d, h, q, hq => by
    simp only [all_nodes, Bool.and_eq_true] at h
    simp only [preorder, List.mem_cons] at hq
    rcases hq with hq | hq
    · rw [hq]
      exact h.1
    · exact all_nodes_list_preorder p cs (d + 1) h.2 q hq
theorem all_nodes_list_preorder (p : ASTNode → Bool) : ∀ (cs : List ASTNode) (d : Nat),
    all_nodes_list p cs = true → ∀ q ∈ preorder_children cs d, p q.2 = true
  | [], _, _, q, hq => by simp [preorder_children] at hq
  | c :: cs, d, h, q, hq => by
    simp only [all_nodes_list, Bool.and_eq_true] at h
    simp only [preorder_children, List.mem_append] at hq
    rcases hq with hq | hq
    · exact all_nodes_preorder p c d h.1 q hq
    · exact all_nodes_list_preorder p cs d h.2 q hq
end

theorem newline_free_of_reader_fields (n : ASTNode) (h : reader_fields n = true) :
    newline_free n = true := by
  have key : ∀ l : List Char, plain_text l = true → l.all (fun c => c != '\n') = true := by
    intro l hl
    rw [List.all_eq_true]
    intro c hc
    have := ((plain_text_iff l).1 hl c hc).2
    simpa using this
  obtain ⟨ty, nm, iv, sv, o, cs⟩ := n
  cases ty <;> simp only [reader_fields, Bool.and_eq_true] at h <;>
    simp only [newline_free]
  all_goals first
    | exact key _ h.1.1.1
    | exact key _ h.2.1.2
    | exact key _ h.1.2

mutual
theorem newline_free_of_reader_tree : ∀ t : ASTNode,
    reader_tree t = true → all_nodes newline_free t = true
  | ⟨ty, nm, iv, sv, o, cs⟩, h => by
    simp only [reader_tree, Bool.and_eq_true] at h
    simp only [all_nodes, Bool.and_eq_true]
    exact ⟨newline_free_of_reader_fields _ h.1.1, newline_free_of_reader_trees cs h.2⟩
theorem newline_free_of_reader_trees : ∀ cs : List ASTNode,
    reader_trees cs = true → all_nodes_list newline_free cs = true
  | [], _ => rfl
  | c :: cs, h => by
    simp only [reader_trees, Bool.and_eq_true] at h
    simp only [all_nodes_list, Bool.and_eq_true]
    exact ⟨newline_free_of_reader_tree c h.1, newline_free_of_reader_trees cs h.2⟩
end

theorem newline_free_optimize_node (m : ASTNode)
    (H1 : ∀ c ∈ m.children, optimize_ast c = c)
    (H2 : ∀ c ∈ m.children, all_nodes newline_free c = true)
    (H3 : newline_free m = true) : all_nodes newline_free (optimize_node m) = true := by
  rcases optimize_node_shape m H1 with h | h | ⟨ht, hc⟩
  · rw [h, all_nodes_unfold, H3, (all_nodes_list_iff _ _).2 H2]
    rfl
  · exact H2 _ h
  · rw [all_nodes_unfold, (all_nodes_list_iff _ _).2 (fun c hc' => H2 c (hc c hc'))]
    rcases ht with ht | ht <;> simp [newline_free, ht]

mutual
theorem newline_free_optimize_ast : ∀ t : ASTNode,
    all_nodes newline_free t = true → all_nodes newline_free (optimize_ast t) = true
  | ⟨ty, nm, iv, sv, o, cs⟩, h => by
    have ih := newline_free_optimize_children cs
    simp only [all_nodes, Bool.and_eq_true] at h
    rw [optimize_ast]
    apply newline_free_optimize_node
    · intro c hc
      simp only [optimize_children_eq_map, List.mem_map] at hc
      obtain ⟨c0, _, rfl⟩ := hc
      exact optimize_ast_fixed c0
    · intro c hc
      simp only [optimize_children_eq_map, List.mem_map] at hc
      obtain ⟨c0, hc0, rfl⟩ := hc
      exact ih c0 hc0 ((all_nodes_list_iff _ cs).1 h.2 c0 hc0)
    · exact h.1
theorem newline_free_optimize_children : ∀ cs : List ASTNode,
    ∀ c ∈ cs, all_nodes newline_free c = true → all_nodes newline_free (optimize_ast c) = true
  | [], c, h, _ => by cases h
  | c0 :: cs, c, h, hd => by
    rcases List.mem_cons.1 h with h | h
    · subst h
      exact newline_free_optimize_ast c hd
    · exact newline_free_optimize_children cs c h hd
end

/-- The trees the writer is given hold no newline in a printed field: this is
so of every tree `parse_ast` returns, whose names, operators and strings come
from inside one line, and of the tree `optimize_ast` makes of it. -/
theorem newline_free_of_parse_ast (f : List Char) (t : ASTNode) (hp : parse_ast f = some t) :
    (∀ p ∈ preorder t 0, newline_free p.2 = true) ∧
    (∀ p ∈ preorder (optimize_ast t) 0, newline_free p.2 = true) := by
  have h := newline_free_of_reader_tree t (parse_ast_reader_tree f t hp)
  exact ⟨all_nodes_preorder _ t 0 h,
    all_nodes_preorder _ _ 0 (newline_free_optimize_ast t h)⟩

/-- C18: for every tree `t` with no newline in a name, operator or string
value that the writer prints, and such is every tree the writer is given (the
trees `parse_ast` returns and the trees `optimize_ast` makes of them,
`newline_free_of_parse_ast`), `print_ast_to_file t 0` writes exactly one line
per node of `t`, in pre-order, and the line of a node at depth `k` is `2k`
spaces followed by the kind name (which does not start with a space) and the
argument of the node. -/
theorem writer_line_layout (t : ASTNode)
    (h : ∀ p ∈ preorder t 0, newline_free p.2 = true) :
    text_lines (print_ast_to_file t 0)
      = (preorder t 0).map
          (fun p => List.replicate (2 * p.1) ' ' ++ (kind_name p.2.type ++ line_argument p.2)) ∧
    (text_lines (print_ast_to_file t 0)).length = (preorder t 0).length ∧
    ∀ ty : NodeType, ∃ c cs, kind_name ty = c :: cs ∧ c ≠ ' ' := by
  have key := text_lines_print t 0 [] h
  simp only [List.append_nil, Nat.mul_zero, text_lines] at key
  refine ⟨key, ?_, fun ty => (kind_name_facts ty).2.2.2.2⟩
  rw [key, List.length_map]

/-- C18, witness: the three lines written for a `SEQUENCE` over `INT (-15)`
and `VAR (x)`, and the four lines written for the tree that `optimize_ast`
makes of the tree read from a text of six lines. -/
theorem writer_line_layout_witness :
    text_lines (print_ast_to_file
        (plain_node NodeType.NODE_SEQUENCE [int_leaf (-15), var_leaf "x"]) 0)
      = ["SEQUENCE".data, "  INT (-15)".data, "  VAR (x)".data] ∧
    parse_ast "FUNCTION_DEF (main)\n  IF_STMT\n    INT (1)\n    RETURN_STMT\n      BINARY_EXPR (+)\n        INT (2)\n        INT (3)\n  STRING (\"a b\")\n".data
      = some { calloc_node NodeType.NODE_FUNCTION_DEF with
          name := some "main",
          children := [plain_node NodeType.NODE_IF_STMT
              [int_leaf 1, plain_node NodeType.NODE_RETURN_STMT
                [binary_node "+" (int_leaf 2) (int_leaf 3)]],
            { calloc_node NodeType.NODE_STRING with string_value := some "\"a b\"" }] } ∧
    text_lines (print_ast_to_file (optimize_ast
        { calloc_node NodeType.NODE_FUNCTION_DEF with
          name := some "main",
          children := [plain_node NodeType.NODE_IF_STMT
              [int_leaf 1, plain_node NodeType.NODE_RETURN_STMT
                [binary_node "+" (int_leaf 2) (int_leaf 3)]],
            { calloc_node NodeType.NODE_STRING with string_value := some "\"a b\"" }] }) 0)
      = ["FUNCTION_DEF (main)".data, "  RETURN_STMT".data, "    INT (5)".data,
         "  STRING (\"\"a b\"\")".data] :=
  ⟨(writer_line_layout (plain_node NodeType.NODE_SEQUENCE [int_leaf (-15), var_leaf "x"])
    (by decide)).1,
   by set_option maxRecDepth 40000 in rfl,
   (writer_line_layout _ (newline_free_of_parse_ast
     "FUNCTION_DEF (main)\n  IF_STMT\n    INT (1)\n    RETURN_STMT\n      BINARY_EXPR (+)\n        INT (2)\n        INT (3)\n  STRING (\"a b\")\n".data
     _ (by set_option maxRecDepth 40000 in rfl)).2).1⟩

/-! ## The children a text gives a node -/

theorem text_children_consumes : ∀ (fuel : Nat) (f : List Char) (k : Nat),
    (text_children fuel f k).length ≤ f.length
  | 0, f, k => by simp [text_children]
  | fuel + 1, f, k => by
    rw [text_children]
    split
    · simp
    · next child rest hp =>
      have h1 := parse_ast_recursive_consumes fuel f k child rest hp
      have h2 := text_children_consumes fuel rest k
      simp only [List.length_cons]
      omega

theorem fgets_chars_append : ∀ (n : Nat) (f : List Char),
    (fgets_chars n f).1 ++ (fgets_chars n f).2 = f
  | 0, f => by simp [fgets_chars]
  | n + 1, [] => by simp [fgets_chars]
  | n + 1, c :: f => by
    simp only [fgets_chars]
    split_ifs
    · rfl
    · simp [fgets_chars_append n f]

theorem fgets_suffix (f line rest : List Char) (h : fgets f = some (line, rest)) :
    rest <:+ f := by
  unfold fgets at h
  split at h
  · simp at h
  · next c cs =>
    simp only [Option.some.injEq] at h
    have := fgets_chars_append (MAX_LINE_LEN - 1) (c :: cs)
    rw [h] at this
    exact ⟨line, this⟩

mutual
theorem parse_ast_recursive_suffix : ∀ (fuel : Nat) (f : List Char) (k : Nat)
    (t : ASTNode) (r : List Char),
    parse_ast_recursive fuel f k = some (t, r) → r <:+ f
  | 0, _, _, _, _, h => by simp [parse_ast_recursive] at h
  | fuel + 1, f, k, t, r, h => by
    have ih := parse_children_suffix fuel
    rw [parse_ast_recursive] at h
    split at h
    · simp at h
    · next line rest hf =>
      simp only at h
      split_ifs at h
      split at h
      · simp at h
      · simp only [Option.some.injEq, Prod.mk.injEq] at h
        rw [← h.2]
        exact (ih rest (k + 2) 0).trans (fgets_suffix f line rest hf)
theorem parse_children_suffix : ∀ (fuel : Nat) (f : List Char) (k count : Nat),
    (parse_children fuel f k count).2 <:+ f
  | 0, _, _, _ => by simp [parse_children]
  | fuel + 1, f, k, count => by
    rw [parse_children]
    split
    · exact List.suffix_refl _
    · next child rest hp =>
      have h1 := parse_ast_recursive_suffix fuel f k child rest hp
      split_ifs
      · exact (parse_children_suffix fuel rest k (count + 1)).trans h1
      · exact h1
end

theorem preorder_unfold (t : ASTNode) (d : Nat) :
    preorder t d = (d, t) :: preorder_children t.children (d + 1) := by
  cases t
  simp [preorder]

theorem parse_ast_recursive_fuel_eq (g : List Char) (k fuel : Nat)
    (h : 2 * g.length + 1 ≤ fuel) :
    parse_ast_recursive fuel g k = parse_ast_recursive (2 * g.length + 1) g k := by
  induction fuel, h using Nat.le_induction with
  | base => rfl
  | succ n hn ih => rw [← (parse_fuel_stable n).1 g k hn, ih]

mutual
/-- Every node of a tree `parse_ast_recursive` returns is itself returned by a
call of `parse_ast_recursive` on a final part of the text, with a bound on
nested calls that is not reached. -/
theorem parse_ast_recursive_nodes : ∀ (fuel : Nat) (f : List Char) (k : Nat)
    (t : ASTNode) (r : List Char) (d : Nat), 2 * f.length + 1 ≤ fuel →
    parse_ast_recursive fuel f k = some (t, r) →
    ∀ p ∈ preorder t d, ∃ (g : List Char) (k2 : Nat) (r2 : List Char),
      g <:+ f ∧ parse_ast_recursive (2 * g.length + 1) g k2 = some (p.2, r2)
  | 0, _, _, _, _, _, _, h => by simp [parse_ast_recursive] at h
  | fuel + 1, f, k, t, r, d, hfu, h => by
    have ih := parse_children_nodes fuel
    intro p hp
    rw [preorder_unfold, List.mem_cons] at hp
    rcases hp with hp | hp
    · rw [hp]
      exact ⟨f, k, r, List.suffix_refl _, by rw [← parse_ast_recursive_fuel_eq f k _ hfu]; exact h⟩
    · rw [parse_ast_recursive] at h
      split at h
      · simp at h
      · next line rest hf =>
        have hlen := fgets_rest_length f line rest hf
        simp only at h
        split_ifs at h
        split at h
        · simp at h
        · simp only [Option.some.injEq, Prod.mk.injEq] at h
          rw [← h.1] at hp
          obtain ⟨g, k2, r2, hg, hr⟩ := ih rest (k + 2) 0 (d + 1) (by omega) p hp
          exact ⟨g, k2, r2, hg.trans (fgets_suffix f line rest hf), hr⟩
theorem parse_children_nodes : ∀ (fuel : Nat) (f : List Char) (k count d : Nat),
    2 * f.length + 2 ≤ fuel →
    ∀ p ∈ preorder_children (parse_children fuel f k count).1 d,
    ∃ (g : List Char) (k2 : Nat) (r2 : List Char),
      g <:+ f ∧ parse_ast_recursive (2 * g.length + 1) g k2 = some (p.2, r2)
  | 0, _, _, _, _, _, p, hp => by simp [parse_children, preorder_children] at hp
  | fuel + 1, f, k, count, d, hfu, p, hp => by
    rw [parse_children] at hp
    split at hp
    · simp [preorder_children] at hp
    · next child rest hc =>
      have hlen := parse_ast_recursive_consumes fuel f k child rest hc
      split_ifs at hp
      · simp only [List.cons_eq_cons, preorder_children, List.mem_append] at hp
        rcases hp with hp | hp
        · exact parse_ast_recursive_nodes fuel f k child rest d (by omega) hc p hp
        · obtain ⟨g, k2, r2, hg, hr⟩ :=
            parse_children_nodes fuel rest k (count + 1) d (by omega) p hp
          exact ⟨g, k2, r2, hg.trans (parse_ast_recursive_suffix fuel f k child rest hc), hr⟩
      · simp [preorder_children] at hp
end

end AstOptimize
